import Mathlib

/-!
# Source view of the Tracy profiler server: tokenizer, disassembly post-processing,
line selection and sample statistics

A shallow embedding of the parts of `server/TracySourceView.cpp` that decide the
properties proved below.

* Memory is a list of bytes (`List Nat`); a `const char*` is an index into it.
  `rd data i` is `data[i]`; a read outside the list gives `0`.
* `uint64_t` and `uint32_t` arithmetic is written on `Nat` with an explicit
  `% 2^64` resp. `% 2^32` wherever the source can wrap.
* `while` loops that only advance a cursor are instances of `scan`; its fuel is
  the distance to the limit the loop tests (or to the end of the buffer when the
  loop condition can hold past that limit).
* `for(;;)` loops and the `while( begin != end )` loop of `Tokenize` take fuel and
  return `none` when it runs out; the theorems show that the fuel handed to them
  is enough.
-/

namespace SourceView

/-! ## Bytes and cursors -/

/-- The byte at index `i` of the buffer. -/
def rd (data : List Nat) (i : Nat) : Nat := data.getD i 0

/-- Cursor loop `while( cond( p ) ) p++;` run for at most `fuel` steps. -/
def scan (cond : Nat → Bool) : Nat → Nat → Nat
  | 0, p => p
  | fuel + 1, p => if cond p then scan cond fuel (p + 1) else p

/-- The `isspace` of the C locale: space, `\t`, `\n`, `\v`, `\f`, `\r`. -/
def isspace (c : Nat) : Bool := c == 32 || (9 ≤ c && c ≤ 13)

/-- Test `*p >= '0' && *p <= '9'`. -/
def isDigit (c : Nat) : Bool := 48 ≤ c && c ≤ 57

/-- Test `( c >= 'a' && c <= 'f' ) || ( c >= 'A' && c <= 'F' )`. -/
def isHexAlpha (c : Nat) : Bool := (97 ≤ c && c ≤ 102) || (65 ≤ c && c ≤ 70)

/-- Test `c >= 'a' && c <= 'z'`. -/
def isLower (c : Nat) : Bool := 97 ≤ c && c ≤ 122

/-- Test `c >= 'A' && c <= 'Z'`. -/
def isUpper (c : Nat) : Bool := 65 ≤ c && c ≤ 90

/-! ## Tokenizer data -/

/-- Colours of `SourceView::TokenColor`. -/
inductive TokenColor where
  | Default
  | Comment
  | Preprocessor
  | String
  | CharacterLiteral
  | Keyword
  | Number
  | Punctuation
  | Type
  | Special
  deriving DecidableEq, Repr

/-- A `SourceView::Token`: the byte range `[begin, stop)` and its colour
(`stop` is the field `end` of the source). -/
structure Token where
  begin : Nat
  stop : Nat
  color : TokenColor
  deriving DecidableEq, Repr

/-- The carried state `m_tokenizer`. -/
structure Tokenizer where
  isInComment : Bool
  isInPreprocessor : Bool
  deriving DecidableEq, Repr

/-- A `SourceView::Line`: the byte range `[begin, stop)` and its tokens. -/
structure Line where
  begin : Nat
  stop : Nat
  tokens : List Token
  deriving DecidableEq, Repr

/-- State after `Tokenizer::Reset`. -/
def Tokenizer.reset : Tokenizer := ⟨false, false⟩

/-- Bytes of an ASCII string constant. -/
def cstr (s : String) : List Nat := s.toList.map Char.toNat

/-- Contents of `s_keywords`. -/
def s_keywords : List String :=
  ["alignas", "alignof", "and", "and_eq", "asm", "atomic_cancel", "atomic_commit", "atomic_noexcept",
   "bitand", "bitor", "break", "case", "catch", "class", "compl", "concept", "const", "consteval",
   "constexpr", "constinit", "const_cast", "continue", "co_await", "co_return", "co_yield", "decltype",
   "default", "delete", "do", "dynamic_cast", "else", "enum", "explicit", "export", "extern", "for",
   "friend", "if", "inline", "mutable", "namespace", "new", "noexcept", "not", "not_eq", "operator",
   "or", "or_eq", "private", "protected", "public", "reflexpr", "register", "reinterpret_cast",
   "return", "requires", "sizeof", "static", "static_assert", "static_cast", "struct", "switch",
   "synchronized", "template", "thread_local", "throw", "try", "typedef", "typeid", "typename",
   "union", "using", "virtual", "volatile", "while", "xor", "xor_eq", "override", "final", "import",
   "module", "transaction_safe", "transaction_safe_dynamic"]

/-- Contents of `s_types`. -/
def s_types : List String :=
  ["bool", "char", "char8_t", "char16_t", "char32_t", "double", "float", "int", "long", "short", "signed",
   "unsigned", "void", "wchar_t", "size_t", "int8_t", "int16_t", "int32_t", "int64_t", "int_fast8_t",
   "int_fast16_t", "int_fast32_t", "int_fast64_t", "int_least8_t", "int_least16_t", "int_least32_t",
   "int_least64_t", "intmax_t", "intptr_t", "uint8_t", "uint16_t", "uint32_t", "uint64_t", "uint_fast8_t",
   "uint_fast16_t", "uint_fast32_t", "uint_fast64_t", "uint_least8_t", "uint_least16_t", "uint_least32_t",
   "uint_least64_t", "uintmax_t", "uintptr_t", "type_info", "bad_typeid", "bad_cast", "type_index",
   "clock_t", "time_t", "tm", "timespec", "ptrdiff_t", "nullptr_t", "max_align_t", "auto",
   "__m64", "__m128", "__m128i", "__m128d", "__m256", "__m256i", "__m256d", "__m512", "__m512i",
   "__m512d", "__mmask8", "__mmask16", "__mmask32", "__mmask64",
   "int8x8_t", "int16x4_t", "int32x2_t", "int64x1_t", "uint8x8_t", "uint16x4_t", "uint32x2_t",
   "uint64x1_t", "float32x2_t", "poly8x8_t", "poly16x4_t", "int8x16_t", "int16x8_t", "int32x4_t",
   "int64x2_t", "uint8x16_t", "uint16x8_t", "uint32x4_t", "uint64x2_t", "float32x4_t", "poly8x16_t",
   "poly16x8_t",
   "int8x8x2_t", "int16x4x2_t", "int32x2x2_t", "int64x1x2_t", "uint8x8x2_t", "uint16x4x2_t",
   "uint32x2x2_t", "uint64x1x2_t", "float32x2x2_t", "poly8x8x2_t", "poly16x4x2_t", "int8x16x2_t",
   "int16x8x2_t", "int32x4x2_t", "int64x2x2_t", "uint8x16x2_t", "uint16x8x2_t", "uint32x4x2_t",
   "uint64x2x2_t", "float32x4x2_t", "poly8x16x2_t", "poly16x8x2_t",
   "int8x8x3_t", "int16x4x3_t", "int32x2x3_t", "int64x1x3_t", "uint8x8x3_t", "uint16x4x3_t",
   "uint32x2x3_t", "uint64x1x3_t", "float32x2x3_t", "poly8x8x3_t", "poly16x4x3_t", "int8x16x3_t",
   "int16x8x3_t", "int32x4x3_t", "int64x2x3_t", "uint8x16x3_t", "uint16x8x3_t", "uint32x4x3_t",
   "uint64x2x3_t", "float32x4x3_t", "poly8x16x3_t", "poly16x8x3_t",
   "int8x8x4_t", "int16x4x4_t", "int32x2x4_t", "int64x1x4_t", "uint8x8x4_t", "uint16x4x4_t",
   "uint32x2x4_t", "uint64x1x4_t", "float32x2x4_t", "poly8x8x4_t", "poly16x4x4_t", "int8x16x4_t",
   "int16x8x4_t", "int32x4x4_t", "int64x2x4_t", "uint8x16x4_t", "uint16x8x4_t", "uint32x4x4_t",
   "uint64x2x4_t", "float32x4x4_t", "poly8x16x4_t", "poly16x8x4_t"]

/-- Contents of `s_special`. -/
def s_special : List String := ["this", "nullptr", "true", "false", "goto", "NULL"]

/-- Lookup `set.find( buf ) != set.end()` for the bytes `buf` of an identifier. -/
def inSet (set : List String) (buf : List Nat) : Bool := set.any (fun s => cstr s == buf)

/-- The bytes `[from, to)` of the buffer (the `memcpy` into `buf`). -/
def slice (data : List Nat) (lo hi : Nat) : List Nat := (data.drop lo).take (hi - lo)

/-! ## `TokenizeNumber` -/

/-- Loop condition `( *p >= '0' && *p <= '9' ) || *p == '\''`, guarded by `p < end`. -/
def numCond (data : List Nat) (stop : Nat) (p : Nat) : Bool :=
  decide (p < stop) && (isDigit (rd data p) || rd data p == 39)

/-- Loop condition of the hexadecimal digit loops, guarded by `p < end`. -/
def hexCond (data : List Nat) (stop : Nat) (p : Nat) : Bool :=
  decide (p < stop) && (isDigit (rd data p) || isHexAlpha (rd data p) || rd data p == 39)

/-- Loop condition `begin < end && ( *begin == '0' || *begin == '1' ) || *begin == '\''`
of the binary digit loop: `&&` binds tighter than `||`, so the last test is not
guarded by `begin < end`. -/
def binCond (data : List Nat) (stop : Nat) (p : Nat) : Bool :=
  (decide (p < stop) && (rd data p == 48 || rd data p == 49)) || rd data p == 39

/-- Loop condition of the integer suffix loop (`u`, `U`, `l`, `L`). -/
def sufCond (data : List Nat) (stop : Nat) (p : Nat) : Bool :=
  decide (p < stop) &&
    (rd data p == 117 || rd data p == 85 || rd data p == 108 || rd data p == 76)

/-- Part of `TokenizeNumber` after the radix prefix: exponent, float suffix and
integer suffix. `p` is the cursor, the flags are those of the source. -/
def numberTail (data : List Nat) (stop : Nat) (p : Nat) (isFloat isBinary : Bool) :
    Bool × Nat :=
  let c := rd data p
  let hasExp := !isBinary && decide (p < stop) && (c == 101 || c == 69 || c == 112 || c == 80)
  let p1 := if hasExp then p + 1 else p
  let p2 := if hasExp && decide (p1 < stop) && (rd data p1 == 43 || rd data p1 == 45)
    then p1 + 1 else p1
  let p3 := if hasExp then scan (hexCond data stop) (stop - p2) p2 else p2
  if hasExp && p3 == p2 then (false, p3)
  else
    let isFloat1 := isFloat || hasExp
    let c3 := rd data p3
    let p4 := if !isBinary && decide (p3 < stop) &&
        (c3 == 102 || c3 == 70 || c3 == 108 || c3 == 76) then p3 + 1 else p3
    let p5 := if !isFloat1 then scan (sufCond data stop) (stop - p4) p4 else p4
    (true, p5)

/-- Function `TokenizeNumber( begin, end )`: the returned flag and the final value of the
cursor `begin` (passed by reference in the source). -/
def TokenizeNumber (data : List Nat) (begin stop : Nat) : Bool × Nat :=
  let c0 := rd data begin
  let startNum := isDigit c0
  if c0 != 43 && c0 != 45 && !startNum then (false, begin)
  else
    let p1 := begin + 1
    let p2 := scan (numCond data stop) (stop - p1) p1
    let hasNum := startNum || p2 != p1
    if !hasNum then (false, p2)
    else if p2 < stop then
      let c := rd data p2
      if c == 46 then
        numberTail data stop (scan (numCond data stop) (stop - (p2 + 1)) (p2 + 1)) true false
      else if c == 120 || c == 88 then
        numberTail data stop (scan (hexCond data stop) (stop - (p2 + 1)) (p2 + 1)) false false
      else if c == 98 || c == 66 then
        numberTail data stop (scan (binCond data stop) (data.length - (p2 + 1)) (p2 + 1)) false true
      else numberTail data stop p2 false false
    else numberTail data stop p2 false false

/-! ## `IdentifyToken` -/

/-- String body loop of `IdentifyToken`: stops after the closing quote or at
`end`; a backslash followed by a quote is stepped over as a pair. -/
def scanString (data : List Nat) (stop : Nat) : Nat → Nat → Nat
  | 0, p => p
  | fuel + 1, p =>
    if p < stop then
      if rd data p == 34 then p + 1
      else
        scanString data stop fuel
          (p + 1 + (if rd data p == 92 && decide (stop - p > 1) && rd data (p + 1) == 34
            then 1 else 0))
    else p

/-- Loop condition of the identifier loop,
`begin < end && ( lower ) || ( upper ) || ( digit ) || *begin == '_'`:
only the lower-case test is guarded by `begin < end`. -/
def identCond (data : List Nat) (stop : Nat) (p : Nat) : Bool :=
  (decide (p < stop) && isLower (rd data p)) || isUpper (rd data p) || isDigit (rd data p)
    || rd data p == 95

/-- The `for(;;)` of the block comment branch of `IdentifyToken`, entered after
`begin += 2`. Gives the final cursor and whether `m_tokenizer.isInComment` is set
(the comment is not closed on this line). -/
def scanBlockComment (data : List Nat) (stop : Nat) : Nat → Nat → Option (Nat × Bool)
  | 0, _ => none
  | fuel + 1, p =>
    let p1 := scan (fun q => decide (q < stop) && rd data q != 42) (stop - p) p
    if p1 == stop then some (p1, true)
    else
      let p2 := p1 + 1
      if decide (p2 < stop) && rd data p2 == 47 then some (p2 + 1, false)
      else scanBlockComment data stop fuel p2

/-- The characters of the punctuation `switch`. -/
def isPunct (c : Nat) : Bool :=
  c == 91 || c == 93 || c == 123 || c == 125 || c == 33 || c == 37 || c == 94 || c == 38 ||
  c == 42 || c == 40 || c == 41 || c == 45 || c == 43 || c == 61 || c == 126 || c == 124 ||
  c == 60 || c == 62 || c == 63 || c == 58 || c == 47 || c == 59 || c == 44 || c == 46

/-- Colour of the identifier `[tmp, p)`: the three set lookups, made only when
the identifier has at most 24 bytes. -/
def identColor (data : List Nat) (tmp p : Nat) : TokenColor :=
  if p - tmp ≤ 24 then
    let buf := slice data tmp p
    if inSet s_keywords buf then TokenColor.Keyword
    else if inSet s_types buf then TokenColor.Type
    else if inSet s_special buf then TokenColor.Special
    else TokenColor.Default
  else TokenColor.Default

/-- Function `IdentifyToken( begin, end )`: the colour, the final value of the cursor
`begin` and the tokenizer state (only `isInComment` can change). -/
def IdentifyToken (data : List Nat) (begin stop : Nat) (st : Tokenizer) :
    Option (TokenColor × Nat × Tokenizer) :=
  let c := rd data begin
  if c == 34 then
    some (TokenColor.String, scanString data stop (stop - (begin + 1)) (begin + 1), st)
  else if c == 39 then
    let p1 := begin + 1
    let p2 := if decide (p1 < stop) && rd data p1 == 92 then p1 + 1 else p1
    let p3 := if p2 < stop then p2 + 1 else p2
    let p4 := if decide (p3 < stop) && rd data p3 == 39 then p3 + 1 else p3
    some (TokenColor.CharacterLiteral, p4, st)
  else if isLower c || isUpper c || c == 95 then
    let p := scan (identCond data stop) (data.length - (begin + 1)) (begin + 1)
    some (identColor data begin p, p, st)
  else
    let num := TokenizeNumber data begin stop
    if num.1 then some (TokenColor.Number, num.2, st)
    else if c == 47 && decide (stop - begin > 1) && rd data (begin + 1) == 47 then
      some (TokenColor.Comment, stop, st)
    else if c == 47 && decide (stop - begin > 1) && rd data (begin + 1) == 42 then
      match scanBlockComment data stop (stop - begin) (begin + 2) with
      | some (p, unterminated) =>
        some (TokenColor.Comment, p, if unterminated then { st with isInComment := true } else st)
      | none => none
    else
      let p := scan (fun q => decide (q < stop) && isPunct (rd data q)) (stop - begin) begin
      if p != begin then some (TokenColor.Punctuation, p, st)
      else some (TokenColor.Default, stop, st)

/-! ## `Tokenize` -/

/-- The `for(;;)` of the block-comment mode of `Tokenize`: `some p` when `*/` is
found (`p` is the cursor after it), `none` when the line ends first. The outer
`Option` is `none` when the fuel runs out. -/
def scanCommentClose (data : List Nat) (stop : Nat) : Nat → Nat → Option (Option Nat)
  | 0, _ => none
  | fuel + 1, p =>
    let p1 := scan (fun q => q != stop && rd data q != 42) (data.length - p) p
    let p2 := p1 + 1
    if p2 < stop then
      if rd data p2 == 47 then some (some (p2 + 1))
      else scanCommentClose data stop fuel p2
    else some none

/-- The loop `while( begin != end )` of `Tokenize`; `first` is the constant
`!m_tokenizer.isInComment` taken before the loop. -/
def tokenizeLoop (data : List Nat) (stop : Nat) (first : Bool) :
    Nat → Nat → Tokenizer → Option (List Token × Tokenizer)
  | 0, begin, st => if begin = stop then some ([], st) else none
  | fuel + 1, begin, st =>
    if begin = stop then some ([], st)
    else if st.isInComment then
      match scanCommentClose data stop (stop - begin + 1) begin with
      | none => none
      | some none => some ([⟨begin, stop, TokenColor.Comment⟩], st)
      | some (some p) =>
        match tokenizeLoop data stop first fuel p { st with isInComment := false } with
        | none => none
        | some (ts, st1) => some (⟨begin, p, TokenColor.Comment⟩ :: ts, st1)
    else
      let pos := scan (fun q => q != stop && isspace (rd data q)) (data.length - begin) begin
      if first && decide (pos < stop) && rd data pos == 35 then
        some ([⟨pos, stop, TokenColor.Preprocessor⟩],
          if rd data (stop - 1) == 92 then { st with isInPreprocessor := true } else st)
      else
        match IdentifyToken data pos stop st with
        | none => none
        | some (col, p, st1) =>
          match tokenizeLoop data stop first fuel p st1 with
          | none => none
          | some (ts, st2) => some (⟨pos, p, col⟩ :: ts, st2)

/-- Function `SourceView::Tokenize( begin, end )` on the state `st`: the tokens and the new
state. The loop gets `end - begin + 1` units of fuel. -/
def Tokenize (data : List Nat) (begin stop : Nat) (st : Tokenizer) :
    Option (List Token × Tokenizer) :=
  if st.isInPreprocessor then
    if begin = stop then some ([], { st with isInPreprocessor := false })
    else
      some ([⟨begin, stop, TokenColor.Preprocessor⟩],
        if rd data (stop - 1) != 92 then { st with isInPreprocessor := false } else st)
  else tokenizeLoop data stop (!st.isInComment) (stop - begin + 1) begin st

/-! ## `ParseSource` -/

/-- Cursor after the line terminator at `p`, if there is one: `\n` optionally
followed by `\r`, or `\r` optionally followed by `\n`. -/
def skipTerminator (data : List Nat) (p : Nat) : Nat :=
  if rd data p == 10 then
    if rd data (p + 1) == 13 then p + 2 else p + 1
  else if rd data p == 13 then
    if rd data (p + 1) == 10 then p + 2 else p + 1
  else p

/-- The `for(;;)` of `ParseSource` over the buffer `data` (the `sz` bytes of the
file followed by the `\0` the function writes), from the cursor `txt`. -/
def parseLines (data : List Nat) (sz : Nat) :
    Nat → Nat → Tokenizer → Option (List Line)
  | 0, _, _ => none
  | fuel + 1, txt, st =>
    let stop := scan (fun q => rd data q != 10 && rd data q != 13 && decide (q < sz)) (sz - txt) txt
    match Tokenize data txt stop st with
    | none => none
    | some (toks, st1) =>
      let next := skipTerminator data stop
      if rd data next == 0 then some [⟨txt, stop, toks⟩]
      else
        match parseLines data sz fuel next st1 with
        | none => none
        | some ls => some (⟨txt, stop, toks⟩ :: ls)

/-- The lines `ParseSource` builds for a file whose bytes are `content`:
`m_data` is `content` followed by `\0`, the tokenizer is reset, and the line loop
gets one unit of fuel per byte plus one. -/
def ParseSource (content : List Nat) : Option (List Line) :=
  parseLines (content ++ [0]) content.length (content.length + 1) 0 Tokenizer.reset

/-! ## Disassembly: data

The decoder (capstone) and the capture (`Worker`) are outside the repository's
sources; what `Disassemble` reads from them is a parameter of the model. -/

/-- The architectures of `CpuArchitecture`. -/
inductive CpuArch where
  | CpuArchUnknown
  | CpuArchX86
  | CpuArchX64
  | CpuArchArm32
  | CpuArchArm64
  deriving DecidableEq, Repr

/-- Operand kinds of the decoder, as far as the source distinguishes them:
`*_OP_IMM`, `*_OP_REG`, `*_OP_MEM`, and anything else. -/
inductive OpType where
  | imm
  | reg
  | mem
  | other
  deriving DecidableEq, Repr

/-- The memory operand fields read by the `lea` classification (`x86_op_mem`);
register `0` is `X86_REG_INVALID`. -/
structure OpMem where
  base : Nat
  index : Nat
  disp : Int
  deriving DecidableEq, Repr

/-- An operand of a decoded instruction: its kind, the immediate read as
`(uint64_t)imm`, its size in bytes (x86 only) and its memory operand. -/
structure Operand where
  type : OpType
  imm : Nat
  size : Nat
  mem : OpMem
  deriving DecidableEq, Repr

/-- A decoded instruction (`cs_insn` with its detail): `isLea` is
`id == X86_INS_LEA`, `operands` has `op_count` entries. -/
structure Insn where
  address : Nat
  size : Nat
  isLea : Bool
  mnemonic : String
  op_str : String
  groups : List Nat
  operands : List Operand
  deriving DecidableEq, Repr

/-- Group `CS_GRP_JUMP` of the decoder. -/
def CS_GRP_JUMP : Nat := 1

/-- Group `CS_GRP_CALL` of the decoder. -/
def CS_GRP_CALL : Nat := 2

/-- Group `CS_GRP_RET` of the decoder. -/
def CS_GRP_RET : Nat := 3

/-- Register `X86_REG_INVALID` of the decoder. -/
def X86_REG_INVALID : Nat := 0

/-- Register `X86_REG_RIP` of the decoder. -/
def X86_REG_RIP : Nat := 41

/-- The classification `LeaData` of a `lea` address. -/
inductive LeaData where
  | none
  | b
  | bd
  | bi
  | bid
  | d
  | i
  | id
  | r
  | rd
  deriving DecidableEq, Repr

/-- An `AsmOpParams`: operand kind (`0` immediate, `1` register, `2` memory,
`255` other) and width in bits. -/
structure AsmOpParams where
  type : Nat
  width : Nat
  deriving DecidableEq, Repr

/-- An `AsmLine`. -/
structure AsmLine where
  addr : Nat
  jumpAddr : Nat
  mnemonic : String
  operands : String
  size : Nat
  leaData : LeaData
  params : List AsmOpParams
  deriving DecidableEq, Repr

/-- A `JumpData`, the value of `m_jumpTable` for one target address. The field
`level` holds the `int level` of the lane loop as it is. -/
structure JumpData where
  min : Nat
  max : Nat
  level : Nat
  source : List Nat
  deriving DecidableEq, Repr

/-- The local `JumpRange` of `Disassemble`. -/
structure JumpRange where
  target : Nat
  len : Nat
  deriving DecidableEq, Repr

/-- What the capture answers (`Worker`); only the queries the modelled functions make.
`GetSymbolCode` gives the code bytes (its `len` is their number), `GetCallstackFrame`
gives `GetString( frame->data[0].file )` and `frame->data[0].line`. -/
structure Worker where
  GetCpuArch : CpuArch
  GetSymbolCode : Nat → Option (List Nat)
  GetAddressesForLocation : Nat → Nat → Option (List Nat)
  GetSymbolInstructionPointers : Nat → Option (List (Nat × Nat))
  GetCallstackFrame : Nat → Option (String × Nat)
  GetCanonicalPointer : Nat → Nat
  GetInlineSymbolList : Nat → Nat → Option (List Nat)

/-- The decoder: whether `cs_open` succeeds for the architecture, and the
instructions `cs_disasm` decodes from the code bytes at a base address. -/
structure Decoder where
  cs_open : CpuArch → Bool
  cs_disasm : CpuArch → List Nat → Nat → List Insn

/-- The members of `SourceView` that the modelled functions read or write.
`m_jumpTable` and the maps of the statistics are association lists in insertion
order, the sets are duplicate-free lists. -/
structure View where
  m_file : Option String
  m_fileStringIdx : Nat
  m_symAddr : Nat
  m_baseAddr : Nat
  m_targetAddr : Nat
  m_targetLine : Nat
  m_selectedLine : Nat
  m_codeLen : Nat
  m_cpuArch : CpuArch
  m_disasmFail : Int
  m_maxJumpLevel : Nat
  m_calcInlineStats : Bool
  m_asm : List AsmLine
  m_jumpTable : List (Nat × JumpData)
  m_jumpOut : List Nat
  m_selectedAddresses : List Nat

/-- Insertion `set.emplace( v )` into a set kept as a duplicate-free list. -/
def setEmplace (set : List Nat) (v : Nat) : List Nat :=
  if set.contains v then set else set ++ [v]

/-! ## `Disassemble` -/

/-- The group test of `Disassemble`: some group is `JUMP`, `CALL` or `RET`. -/
def hasJump (op : Insn) : Bool :=
  op.groups.any (fun g => g == CS_GRP_JUMP || g == CS_GRP_CALL || g == CS_GRP_RET)

/-- The immediate target read in the `switch( m_cpuArch )` of a branch: the
operand's immediate when the instruction has exactly one operand and it is an
immediate; `jumpAddr` keeps its initial `0` otherwise. -/
def jumpTarget (arch : CpuArch) (op : Insn) : Nat :=
  match arch with
  | CpuArch.CpuArchUnknown => 0
  | _ =>
    match op.operands with
    | [o] => if o.type == OpType.imm then o.imm else 0
    | _ => 0

/-- Value read when an index is outside the instruction array (never used for an
index below `cnt`). -/
instance : Inhabited Insn := ⟨⟨0, 0, false, "", "", [], []⟩⟩

/-- The binary search of `std::lower_bound( insn, insn+cnt, val )` with the
comparison `l.address < r`, as an index into `insn`. -/
def lowerBound (insn : List Insn) (val : Nat) : Nat → Nat → Nat → Nat
  | 0, first, _ => first
  | fuel + 1, first, len =>
    if len > 0 then
      let half := len / 2
      let mid := first + half
      if (insn.getD mid default).address < val then
        lowerBound insn val fuel (mid + 1) (len - half - 1)
      else lowerBound insn val fuel first half
    else first

/-- Lookup `m_jumpTable.find( key )`. -/
def jtFind (table : List (Nat × JumpData)) (key : Nat) : Option JumpData :=
  (table.find? (fun e => e.1 == key)).map (fun e => e.2)

/-- Update in place of the entry found for `key`. -/
def jtModify (table : List (Nat × JumpData)) (key : Nat) (f : JumpData → JumpData) :
    List (Nat × JumpData) :=
  table.map (fun e => if e.1 == key then (e.1, f e.2) else e)

/-- The branch `fit != insn+cnt && fit->address == jumpAddr`: record the jump
from `addr` to `jumpAddr` in the table. A new entry is `{ min, max, 0, { addr } }`;
an existing one gets `min` lowered, else `max` raised, and the source appended. -/
def recordJump (table : List (Nat × JumpData)) (jumpAddr addr : Nat) :
    List (Nat × JumpData) :=
  let mn := min jumpAddr addr
  let mx := max jumpAddr addr
  match jtFind table jumpAddr with
  | none => table ++ [(jumpAddr, ⟨mn, mx, 0, [addr]⟩)]
  | some _ =>
    jtModify table jumpAddr (fun e =>
      let e1 := if e.min > mn then { e with min := mn }
        else if e.max < mx then { e with max := mx } else e
      { e1 with source := e1.source ++ [addr] })

/-- Operand kind of an x86 operand (`default:` leaves `type = 0`). -/
def x86ParamType : OpType → Nat
  | OpType.imm => 0
  | OpType.reg => 1
  | OpType.mem => 2
  | OpType.other => 0

/-- Operand kind of an ARM operand (`default:` gives `255`). -/
def armParamType : OpType → Nat
  | OpType.imm => 0
  | OpType.reg => 1
  | OpType.mem => 2
  | OpType.other => 255

/-- The `params` vector built for an instruction. -/
def asmParams (arch : CpuArch) (op : Insn) : List AsmOpParams :=
  match arch with
  | CpuArch.CpuArchX86 | CpuArch.CpuArchX64 =>
    op.operands.map (fun o => ⟨x86ParamType o.type, (o.size * 8) % 65536⟩)
  | CpuArch.CpuArchArm32 | CpuArch.CpuArchArm64 =>
    op.operands.map (fun o => ⟨armParamType o.type, 0⟩)
  | CpuArch.CpuArchUnknown => []

/-- The classification of the memory operand of a `lea`. -/
def leaKind (mem : OpMem) : LeaData :=
  if mem.base == X86_REG_INVALID then
    if mem.index == X86_REG_INVALID then LeaData.d
    else if mem.disp == 0 then LeaData.i else LeaData.id
  else if mem.base == X86_REG_RIP then
    if mem.disp == 0 then LeaData.r else LeaData.rd
  else if mem.index == X86_REG_INVALID then
    if mem.disp == 0 then LeaData.b else LeaData.bd
  else if mem.disp == 0 then LeaData.bi else LeaData.bid

/-- The `leaData` of an instruction: `none` unless it is an x86 `lea`, whose second
operand is then classified. -/
def asmLeaData (arch : CpuArch) (op : Insn) : LeaData :=
  if (arch == CpuArch.CpuArchX64 || arch == CpuArch.CpuArchX86) && op.isLea then
    leaKind (op.operands.getD 1 ⟨OpType.other, 0, 0, ⟨0, 0, 0⟩⟩).mem
  else LeaData.none

/-- What the instruction loop of `Disassemble` accumulates. -/
structure DisasmAcc where
  asm : List AsmLine
  jumpTable : List (Nat × JumpData)
  jumpOut : List Nat

/-- One iteration of the instruction loop for the instruction `op`, as far as
`m_asm`, `m_jumpTable` and `m_jumpOut` go. `symAddr + len` is a 64-bit sum. -/
def disasmStep (arch : CpuArch) (symAddr len : Nat) (insn : List Insn) (acc : DisasmAcc)
    (op : Insn) : DisasmAcc :=
  let mk := fun (jumpAddr : Nat) =>
    (⟨op.address, jumpAddr, op.mnemonic, op.op_str, op.size % 256, asmLeaData arch op,
      asmParams arch op⟩ : AsmLine)
  if hasJump op then
    let jumpAddr := jumpTarget arch op
    if jumpAddr ≥ symAddr && jumpAddr < (symAddr + len) % 2 ^ 64 then
      let fit := lowerBound insn jumpAddr insn.length 0 insn.length
      if fit != insn.length && (insn.getD fit default).address == jumpAddr then
        { acc with asm := acc.asm ++ [mk jumpAddr],
                   jumpTable := recordJump acc.jumpTable jumpAddr op.address }
      else { acc with asm := acc.asm ++ [mk 0] }
    else
      { acc with asm := acc.asm ++ [mk jumpAddr],
                 jumpOut := setEmplace acc.jumpOut op.address }
  else { acc with asm := acc.asm ++ [mk 0] }

/-- The test of the lane loop: `[mn, mx]` meets the range already placed. -/
def overlaps (mn mx : Nat) (range : Nat × Nat) : Bool :=
  mn ≤ range.2 && mx ≥ range.1

/-- The `for(;;)` of the lane loop for one entry with interval `[mn, mx]`, started
at the level whose ranges head the list: the first level none of whose ranges meets
the interval takes it; past the last level a new one is pushed. Gives the level
(counted from the head of the list) and the new `levelRanges`. -/
def placeLevel (mn mx : Nat) : List (List (Nat × Nat)) → Nat × List (List (Nat × Nat))
  | [] => (0, [[(mn, mx)]])
  | lr :: rest =>
    if lr.any (overlaps mn mx) then
      ((placeLevel mn mx rest).1 + 1, lr :: (placeLevel mn mx rest).2)
    else (0, (lr ++ [(mn, mx)]) :: rest)

/-- The loop `for( auto& v : jumpRange )` that assigns the levels: the table, the
`levelRanges` and `m_maxJumpLevel` so far. A target that `find` misses (the source
asserts there is none) is passed over. -/
def assignLevels : List JumpRange → List (Nat × JumpData) → List (List (Nat × Nat)) → Nat →
    List (Nat × JumpData) × Nat
  | [], table, _, maxLevel => (table, maxLevel)
  | v :: vs, table, levelRanges, maxLevel =>
    match jtFind table v.target with
    | none => assignLevels vs table levelRanges maxLevel
    | some e =>
      let r := placeLevel e.min e.max levelRanges
      assignLevels vs (jtModify table v.target (fun d => { d with level := r.1 })) r.2
        (if r.1 > maxLevel then r.1 else maxLevel)

/-- The `jumpRange` vector: one `{ target, max - min }` per table entry. -/
def jumpRanges (table : List (Nat × JumpData)) : List JumpRange :=
  table.map (fun e => ⟨e.1, e.2.max - e.2.min⟩)

/-- The post-pass of `Disassemble` over a non-empty jump table: every source list
is sorted, the ranges are sorted by `sortRanges` (the `pdqsort_branchless` call
with the comparison `l.len < r.len`, which is not in the sources and is a
parameter), and the levels are assigned. -/
def jumpPostPass (sortRanges : List JumpRange → List JumpRange)
    (table : List (Nat × JumpData)) : List (Nat × JumpData) × Nat :=
  if table.isEmpty then (table, 0)
  else
    let sorted := table.map (fun e =>
      (e.1, { e.2 with source := e.2.source.insertionSort (fun a b => a ≤ b) }))
    assignLevels (sortRanges (jumpRanges sorted)) sorted [] 0

/-- The `uint64_t` difference `a - b`. -/
def sub64 (a b : Nat) : Nat := (a + 2 ^ 64 - b % 2 ^ 64) % 2 ^ 64

/-- Function `SourceView::Disassemble( symAddr, worker )`: the returned flag and the new
state. The members for the widths of the listing and `m_sourceFiles` are not
modelled. -/
def Disassemble (w : Worker) (cs : Decoder) (sortRanges : List JumpRange → List JumpRange)
    (symAddr : Nat) (s : View) : Bool × View :=
  let s0 := { s with m_asm := [], m_jumpTable := [], m_jumpOut := [], m_maxJumpLevel := 0 }
  if symAddr == 0 then (false, s0)
  else
    let s1 := { s0 with m_cpuArch := w.GetCpuArch }
    if w.GetCpuArch == CpuArch.CpuArchUnknown then (false, s1)
    else
      match w.GetSymbolCode symAddr with
      | none => (false, s1)
      | some code =>
        let len := code.length
        let s2 := { s1 with m_disasmFail := -1 }
        if !cs.cs_open w.GetCpuArch then (false, s2)
        else
          let insn := cs.cs_disasm w.GetCpuArch code symAddr
          match insn.getLast? with
          | none => (true, { s2 with m_codeLen := len })
          | some last =>
            let s3 :=
              if (sub64 last.address symAddr + last.size) % 2 ^ 64 < len then
                { s2 with m_disasmFail := (sub64 last.address symAddr : Nat) }
              else s2
            let acc := insn.foldl (disasmStep w.GetCpuArch symAddr len insn) ⟨[], [], []⟩
            let post := jumpPostPass sortRanges acc.jumpTable
            (true, { s3 with m_asm := acc.asm, m_jumpTable := post.1, m_jumpOut := acc.jumpOut,
                             m_maxJumpLevel := post.2, m_codeLen := len })

/-! ## `SelectLine` and `SelectAsmLines` -/

/-- The test `v >= m_baseAddr && v < m_baseAddr + m_codeLen` (a 64-bit sum). -/
def inSymbol (s : View) (v : Nat) : Bool :=
  v ≥ s.m_baseAddr && v < (s.m_baseAddr + s.m_codeLen) % 2 ^ 64

/-- Function `SourceView::SelectAsmLines( file, line, worker, changeAsmLine, targetAddr )`. -/
def SelectAsmLines (w : Worker) (file line : Nat) (changeAsmLine : Bool) (targetAddr : Nat)
    (s : View) : View :=
  let s1 := { s with m_selectedAddresses := [] }
  match w.GetAddressesForLocation file line with
  | none => s1
  | some addr =>
    let s2 :=
      if changeAsmLine then
        if targetAddr != 0 then { s1 with m_targetAddr := targetAddr }
        else
          match addr.find? (inSymbol s) with
          | some v => { s1 with m_targetAddr := v }
          | none => s1
      else s1
    { s2 with m_selectedAddresses := (addr.filter (inSymbol s)).foldl setEmplace [] }

/-- Function `SourceView::SelectLine( line, worker, changeAsmLine, targetAddr )` with a
non-null `worker`; a call that gives no `targetAddr` passes `0`. -/
def SelectLine (w : Worker) (line : Nat) (changeAsmLine : Bool) (targetAddr : Nat)
    (s : View) : View :=
  let s1 := { s with m_selectedLine := line }
  if s1.m_symAddr == 0 then s1
  else SelectAsmLines w s1.m_fileStringIdx line changeAsmLine targetAddr s1

/-! ## `GatherIpStats` -/

/-- The accumulators of `GatherIpStats`; the two maps are association lists. -/
structure IpStats where
  iptotalSrc : Nat
  iptotalAsm : Nat
  ipcountSrc : List (Nat × Nat)
  ipcountAsm : List (Nat × Nat)
  ipmaxSrc : Nat
  ipmaxAsm : Nat
  deriving DecidableEq, Repr

/-- The accumulators as `RenderSymbolView` declares them. -/
def IpStats.empty : IpStats := ⟨0, 0, [], [], 0, 0⟩

/-- Lookup `map.find( key )` in an association list. -/
def mapFind (map : List (Nat × Nat)) (key : Nat) : Option Nat :=
  (map.find? (fun e => e.1 == key)).map (fun e => e.2)

/-- Insertion `map.emplace( key, val )`: nothing happens when the key is present. -/
def mapEmplace (map : List (Nat × Nat)) (key val : Nat) : List (Nat × Nat) :=
  match mapFind map key with
  | some _ => map
  | none => map ++ [(key, val)]

/-- Assignment `it->second = val` for the entry of `key`. -/
def mapSet (map : List (Nat × Nat)) (key val : Nat) : List (Nat × Nat) :=
  map.map (fun e => if e.1 == key then (e.1, val) else e)

/-- The source-line half of one iteration of `GatherIpStats`, taken when `m_file`
is set, the frame exists and its file name equals `m_file`. -/
def gatherSrc (line count : Nat) (a : IpStats) : IpStats :=
  let a1 :=
    match mapFind a.ipcountSrc line with
    | none =>
      { a with ipcountSrc := a.ipcountSrc ++ [(line, count)],
               ipmaxSrc := if a.ipmaxSrc < count then count else a.ipmaxSrc }
    | some old =>
      let sum := (old + count) % 2 ^ 32
      { a with ipcountSrc := mapSet a.ipcountSrc line sum,
               ipmaxSrc := if a.ipmaxSrc < sum then sum else a.ipmaxSrc }
  { a1 with iptotalSrc := (a1.iptotalSrc + count) % 2 ^ 32 }

/-- One iteration of the loop of `GatherIpStats` for the sample `ip = (address, count)`. -/
def gatherStep (m_file : Option String) (w : Worker) (a : IpStats) (ip : Nat × Nat) :
    IpStats :=
  let a1 :=
    match m_file with
    | none => a
    | some file =>
      match w.GetCallstackFrame ip.1 with
      | none => a
      | some frame => if frame.1 == file then gatherSrc frame.2 ip.2 a else a
  let addr := w.GetCanonicalPointer ip.1
  { a1 with ipcountAsm := mapEmplace a1.ipcountAsm addr ip.2,
            iptotalAsm := (a1.iptotalAsm + ip.2) % 2 ^ 32,
            ipmaxAsm := if a1.ipmaxAsm < ip.2 then ip.2 else a1.ipmaxAsm }

/-- Function `SourceView::GatherIpStats( addr, ... )` on the accumulators `a`. -/
def GatherIpStats (m_file : Option String) (w : Worker) (addr : Nat) (a : IpStats) : IpStats :=
  match w.GetSymbolInstructionPointers addr with
  | none => a
  | some ipmap => ipmap.foldl (gatherStep m_file w) a

/-- The inline symbols `RenderSymbolView` visits: the entries of the list before
the first one that is not below `symEnd = m_baseAddr + m_codeLen`. -/
def inlineSymbols (w : Worker) (s : View) : List Nat :=
  match w.GetInlineSymbolList s.m_baseAddr s.m_codeLen with
  | none => []
  | some l => l.takeWhile (fun p => p < (s.m_baseAddr + s.m_codeLen) % 2 ^ 64)

/-- The statistics `RenderSymbolView` hands to the source and assembly views:
one `GatherIpStats` for `m_symAddr` when `m_calcInlineStats` is set, otherwise one
for `m_baseAddr` and one per inline symbol, after which `iptotalSrc = iptotalAsm`
is assigned. -/
def viewIpStats (w : Worker) (s : View) : IpStats :=
  if s.m_calcInlineStats then GatherIpStats s.m_file w s.m_symAddr IpStats.empty
  else
    let a := GatherIpStats s.m_file w s.m_baseAddr IpStats.empty
    let a1 := (inlineSymbols w s).foldl (fun acc p => GatherIpStats s.m_file w p acc) a
    { a1 with iptotalSrc := a1.iptotalAsm }

/-- All samples `viewIpStats` goes through, in order. -/
def viewSamples (w : Worker) (s : View) : List (Nat × Nat) :=
  if s.m_calcInlineStats then (w.GetSymbolInstructionPointers s.m_symAddr).getD []
  else
    (w.GetSymbolInstructionPointers s.m_baseAddr).getD [] ++
      (inlineSymbols w s).foldr
        (fun p rest => (w.GetSymbolInstructionPointers p).getD [] ++ rest) []

/-! ## Predicates used in the statements -/

/-- The byte at `stop` ends a line of `ParseSource`: it is `\n`, `\r` or `\0`. -/
def Term (data : List Nat) (stop : Nat) : Prop :=
  rd data stop = 10 ∨ rd data stop = 13 ∨ rd data stop = 0

/-- The chain `lo ≤ t0.begin ≤ t0.end ≤ t1.begin ≤ ... ≤ tn.end ≤ hi`: the tokens are
monotonic, do not overlap and lie inside `[lo, hi]`. -/
def tokensOrdered : Nat → List Token → Nat → Prop
  | lo, [], hi => lo ≤ hi
  | lo, t :: ts, hi => lo ≤ t.begin ∧ t.begin ≤ t.stop ∧ tokensOrdered t.stop ts hi

/-- Byte `i` lies in the range of one of the tokens. -/
def covered (ts : List Token) (i : Nat) : Prop := ∃ t ∈ ts, t.begin ≤ i ∧ i < t.stop

/-- The bytes of the token ranges, concatenated in order. -/
def tokenBytes (data : List Nat) : List Token → List Nat
  | [] => []
  | t :: ts => slice data t.begin t.stop ++ tokenBytes data ts

/-- A byte list with its whitespace bytes removed. -/
def dropSpace (l : List Nat) : List Nat := l.filter (fun c => !isspace c)

/-- What the token loop guarantees for the range `[begin, stop)`. -/
def LoopOK (data : List Nat) (begin stop : Nat) (ts : List Token) : Prop :=
  tokensOrdered begin ts stop ∧
  (∀ i, begin ≤ i → i < stop → covered ts i ∨ isspace (rd data i) = true) ∧
  dropSpace (slice data begin stop) = dropSpace (tokenBytes data ts)

/-- No `*/` starts at a position of `[lo, hi)` with both bytes before `stop`. -/
def NoClose (data : List Nat) (lo hi stop : Nat) : Prop :=
  ∀ i, lo ≤ i → i < hi → i + 1 < stop → ¬ (rd data i = 42 ∧ rd data (i + 1) = 47)

/-- The relation between a jump-table entry and its key `T`:
`min = min(T, min S)` and `max = max(T, max S)` for its source list `S`,
with `min ≤ T ≤ max`. -/
def JumpEntryOK (T : Nat) (e : JumpData) : Prop :=
  e.min = e.source.foldl min T ∧ e.max = e.source.foldl max T ∧ e.min ≤ T ∧ T ≤ e.max

/-- Sum of the values stored in a map. -/
def valueSum (map : List (Nat × Nat)) : Nat := (map.map Prod.snd).sum

/-- Sum of the counts of a list of samples. -/
def countSum (samples : List (Nat × Nat)) : Nat := (samples.map Prod.snd).sum

/-- The invariant of the source-line accumulators: distinct keys, and a total that is
the sum of the stored values modulo `2^32`. -/
def SrcInv (a : IpStats) : Prop :=
  (a.ipcountSrc.map Prod.fst).Nodup ∧ a.iptotalSrc = valueSum a.ipcountSrc % 2 ^ 32

/-! ## Concrete inputs -/

/-- A sort of the jump ranges by length (insertion sort), for concrete runs. -/
def sortByLen (l : List JumpRange) : List JumpRange :=
  l.insertionSort (fun a b => a.len ≤ b.len)

/-- A decoded instruction without operands. -/
def plainInsn (address size : Nat) (mnemonic : String) (groups : List Nat) : Insn :=
  ⟨address, size, false, mnemonic, "", groups, []⟩

/-- A decoded jump with one immediate operand. -/
def jumpInsn (address size target : Nat) : Insn :=
  ⟨address, size, false, "jmp", "", [CS_GRP_JUMP], [⟨OpType.imm, target, 8, ⟨0, 0, 0⟩⟩]⟩

/-- A capture of an x64 symbol at `0x1000` with 102 bytes of code; source line 42 of
file 5 has the addresses `0x1003` and `0x1050`. -/
def exampleWorker : Worker where
  GetCpuArch := CpuArch.CpuArchX64
  GetSymbolCode := fun a => if a == 0x1000 then some (List.replicate 102 0x90) else none
  GetAddressesForLocation := fun f l => if f == 5 && l == 42 then some [0x1003, 0x1050] else none
  GetSymbolInstructionPointers := fun a =>
    if a == 0x1000 then some [(0x1000, 3), (0x1003, 1)] else none
  GetCallstackFrame := fun ip => if ip == 0x1000 then some ("a.cpp", 42) else some ("b.h", 7)
  GetCanonicalPointer := fun ip => ip
  GetInlineSymbolList := fun _ _ => some [0x1010, 0x1020, 0x2000]

/-- A decoder run with three backward or forward jumps whose intervals are
`[0x100A, 0x1014]`, `[0x101E, 0x1028]` and `[0x1000, 0x1064]`. -/
def exampleDecoder : Decoder where
  cs_open := fun _ => true
  cs_disasm := fun _ _ _ =>
    [plainInsn 0x1000 10 "nop" [], plainInsn 0x100A 10 "nop" [], jumpInsn 0x1014 10 0x100A,
     jumpInsn 0x101E 10 0x1028, plainInsn 0x1028 60 "nop" [], jumpInsn 0x1064 2 0x1000]

/-- A view of the symbol at `0x1000` (code length `0x40`) with file `a.cpp` loaded. -/
def exampleView : View where
  m_file := some "a.cpp"
  m_fileStringIdx := 5
  m_symAddr := 0x1000
  m_baseAddr := 0x1000
  m_targetAddr := 0
  m_targetLine := 0
  m_selectedLine := 0
  m_codeLen := 0x40
  m_cpuArch := CpuArch.CpuArchX64
  m_disasmFail := -1
  m_maxJumpLevel := 0
  m_calcInlineStats := true
  m_asm := []
  m_jumpTable := []
  m_jumpOut := []
  m_selectedAddresses := []

/-- A decoder run in which the instruction at `0x1004` is the target of a forward jump
from `0x1000` and of a backward jump from `0x1008`. -/
def exampleDecoderTwoSources : Decoder where
  cs_open := fun _ => true
  cs_disasm := fun _ _ _ =>
    [jumpInsn 0x1000 4 0x1004, plainInsn 0x1004 4 "nop" [], jumpInsn 0x1008 4 0x1004]

/-- The example capture with two samples whose counts add up to `2^32`; they resolve to
lines 42 and 43 of the loaded file. -/
def overflowWorker : Worker :=
  { exampleWorker with
    GetSymbolInstructionPointers := fun a =>
      if a == 0x1000 then some [(0x1000, 0xFFFFFFFF), (0x1003, 1)] else none
    GetCallstackFrame := fun ip => some ("a.cpp", if ip == 0x1000 then 42 else 43) }

/-- The example capture with two samples that differ in the top bit only, and a
canonical pointer that strips this bit. -/
def aliasWorker : Worker :=
  { exampleWorker with
    GetSymbolInstructionPointers := fun a =>
      if a == 0x1000 then some [(0x1000, 3), (0x8000000000001000, 1)] else none
    GetCanonicalPointer := fun ip => ip % 2 ^ 63 }

/-! ## Further definitions -/

/-- The largest value stored in a map, `0` for the empty map. -/
def valueMax (map : List (Nat × Nat)) : Nat := (map.map Prod.snd).foldr max 0

/-- The samples a sequence of `GatherIpStats` calls for the addresses `addrs` goes
through, in order. -/
def callSamples (w : Worker) (addrs : List Nat) : List (Nat × Nat) :=
  addrs.foldr (fun p rest => (w.GetSymbolInstructionPointers p).getD [] ++ rest) []

/-- The invariant of the source-line maximum: distinct keys, and a maximum that is the
largest stored value. -/
def MaxInv (a : IpStats) : Prop :=
  (a.ipcountSrc.map Prod.fst).Nodup ∧ a.ipmaxSrc = valueMax a.ipcountSrc

/-- A capture whose symbol `0x1000` has the samples `(0x1000, 3)` and `(0x1003, 4)` and
whose inline symbol `0x1010` has the sample `(0x1010, 2)`; the samples at `0x1000` and
`0x1010` resolve to line 42 of `a.cpp`, the one at `0x1003` to line 7. -/
def twoCallWorker : Worker :=
  { exampleWorker with
    GetSymbolInstructionPointers := fun a =>
      if a == 0x1000 then some [(0x1000, 3), (0x1003, 4)]
      else if a == 0x1010 then some [(0x1010, 2)] else none
    GetCallstackFrame := fun ip => some ("a.cpp", if ip == 0x1003 then 7 else 42) }

/-- The range test of the instruction loop, `jumpAddr >= symAddr && jumpAddr < symAddr + len`
with its 64-bit sum. -/
def inCode (symAddr len t : Nat) : Bool :=
  t ≥ symAddr && t < (symAddr + len) % 2 ^ 64

/-- The test `fit != insn+cnt && fit->address == jumpAddr` on the result of the binary
search for `t`. -/
def targetFound (insn : List Insn) (t : Nat) : Bool :=
  lowerBound insn t insn.length 0 insn.length != insn.length &&
    (insn.getD (lowerBound insn t insn.length 0 insn.length) default).address == t

/-- The `jumpAddr` that one iteration of the instruction loop stores in the `AsmLine` of
`op`: `0` for an instruction that is no branch, the target as read for a branch whose
target is in the range and found or is outside the range, `0` for one whose target is in
the range and not found. -/
def stepJumpAddr (arch : CpuArch) (symAddr len : Nat) (insn : List Insn) (op : Insn) : Nat :=
  if hasJump op then
    if inCode symAddr len (jumpTarget arch op) then
      if targetFound insn (jumpTarget arch op) then jumpTarget arch op else 0
    else jumpTarget arch op
  else 0

/-- The `AsmLine` that one iteration of the instruction loop appends for `op`. -/
def stepLine (arch : CpuArch) (symAddr len : Nat) (insn : List Insn) (op : Insn) : AsmLine :=
  ⟨op.address, stepJumpAddr arch symAddr len insn op, op.mnemonic, op.op_str, op.size % 256,
    asmLeaData arch op, asmParams arch op⟩

/-- The value `m_disasmFail` has after a `Disassemble` that reached the decoder: `-1`
unless the last decoded instruction ends before the end of the code. -/
def disasmFailOf (symAddr len : Nat) (insn : List Insn) : Int :=
  match insn.getLast? with
  | none => -1
  | some last =>
    if (sub64 last.address symAddr + last.size) % 2 ^ 64 < len then
      (sub64 last.address symAddr : Nat)
    else -1

/-- A decoder run whose first instruction jumps to `0x2000`, outside the 102 bytes of code
at `0x1000`, and whose second instruction is a `ret`. -/
def exampleDecoderOut : Decoder where
  cs_open := fun _ => true
  cs_disasm := fun _ _ _ =>
    [jumpInsn 0x1000 5 0x2000, plainInsn 0x1005 1 "ret" [CS_GRP_RET]]

/-- A decoder run whose first instruction jumps to `0x1002`, inside the code at `0x1000`
but in the middle of that same instruction. -/
def exampleDecoderMid : Decoder where
  cs_open := fun _ => true
  cs_disasm := fun _ _ _ => [jumpInsn 0x1000 4 0x1002, plainInsn 0x1004 4 "nop" []]

/-- A decoder that opens and decodes nothing. -/
def exampleDecoderNone : Decoder where
  cs_open := fun _ => true
  cs_disasm := fun _ _ _ => []

/-- The example capture with an entry of zero bytes of code for every symbol. -/
def emptyCodeWorker : Worker :=
  { exampleWorker with GetSymbolCode := fun _ => some [] }

/-- A line terminator byte: `\n` or `\r`. -/
def isTerminator (c : Nat) : Bool := c == 10 || c == 13

/-- The splitting of a byte sequence at its line terminators, in the words of the
specification: a terminator is one terminator byte, or the two terminator bytes `c d`
when `pair c d` holds; `cur` holds the bytes of the line so far. Each terminator ends
one line, and a terminator at the very end adds no empty line. -/
def specSplit (pair : Nat → Nat → Bool) : List Nat → List Nat → List (List Nat)
  | cur, [] => [cur]
  | cur, [c] => if isTerminator c then [cur] else [cur ++ [c]]
  | cur, c :: d :: rest =>
    if isTerminator c then
      if pair c d then (if rest.isEmpty then [cur] else cur :: specSplit pair [] rest)
      else cur :: specSplit pair [] (d :: rest)
    else specSplit pair (cur ++ [c]) (d :: rest)

/-- The two-byte terminator of the specification: `\r\n`. -/
def crlfPair (c d : Nat) : Bool := c == 13 && d == 10

/-- The two-byte terminators of `ParseSource`: `\r\n` and `\n\r`. -/
def crlfOrLfcrPair (c d : Nat) : Bool := (c == 13 && d == 10) || (c == 10 && d == 13)

/-- The lines of a file in the words of the specification: the segments between the
terminators `\n`, `\r\n` and `\r`. -/
def specLines (content : List Nat) : List (List Nat) := specSplit crlfPair [] content

/-- The byte ranges of the lines, as byte sequences of the file. -/
def lineBytes (content : List Nat) (ls : List Line) : List (List Nat) :=
  ls.map (fun l => slice content l.begin l.stop)

/-! ## Definitions for the tokenizer, the renderer and the view operations -/

/-- The bytes an identifier is made of: letters, digits and `_`. -/
def isIdentChar (c : Nat) : Bool := isLower c || isUpper c || isDigit c || c == 95

/-- What `Tokenize` guarantees about `Preprocessor` tokens on a line that ends at `stop`:
either there is none and `isInPreprocessor` is clear, or the last token is the only one,
begins at a `#`, ends at `stop`, and `isInPreprocessor` tells whether the last byte of
the line is a backslash. -/
def PreprocOK (data : List Nat) (stop : Nat) (ts : List Token) (st1 : Tokenizer) : Prop :=
  ((∀ t ∈ ts, t.color ≠ TokenColor.Preprocessor) ∧ st1.isInPreprocessor = false) ∨
  ∃ pre pos, ts = pre ++ [⟨pos, stop, TokenColor.Preprocessor⟩] ∧
    (∀ u ∈ pre, u.color ≠ TokenColor.Preprocessor) ∧ rd data pos = 35 ∧ pos < stop ∧
    st1.isInPreprocessor = (rd data (stop - 1) == 92)

/-- The cursor of the token loop of `Tokenize` along a line that ends at `stop`: an
iteration entered with the cursor at `c` emits a token that begins at or after `c` and
ends after `c`, at or before `stop`; the next iteration starts where the token ends, and
the loop is left with the cursor at `stop`. -/
def cursorsAdvance : Nat → List Token → Nat → Prop
  | c, [], stop => c = stop
  | c, t :: ts, stop => c ≤ t.begin ∧ c < t.stop ∧ t.stop ≤ stop ∧ cursorsAdvance t.stop ts stop

/-- An operand descriptor of a variant (`var.desc[j]`): operand kind and width in bits.
The micro-architecture tables are outside the repository's sources; these are the
fields the code reads. -/
structure AsmDesc where
  type : Nat
  width : Nat
  deriving DecidableEq, Repr

/-- A variant of an operation (`AsmVar`): its descriptors (`descNum` of them) and its
latencies. -/
structure AsmVar where
  desc : List AsmDesc
  minlat : Int
  maxlat : Int
  deriving DecidableEq, Repr

/-- An operation of a micro-architecture (`AsmOp`): its id and its variants
(`numVariants` of them). -/
structure AsmOp where
  id : Nat
  variant : List AsmVar
  deriving DecidableEq, Repr

/-- Value read when an index is outside the variant array (never used for an index
below `numVariants`). -/
instance : Inhabited AsmVar := ⟨⟨[], 0, 0⟩⟩

/-- Value read when an index is outside the operation array (never used for an index
below `numOps`). -/
instance : Inhabited AsmOp := ⟨⟨0, []⟩⟩

/-- The conversion `if( c >= 'a' && c <= 'z' ) c = c - 'a' + 'A'` of one character. -/
def upcase (c : Char) : Char :=
  if 'a' ≤ c ∧ c ≤ 'z' then Char.ofNat (c.toNat - 'a'.toNat + 'A'.toNat) else c

/-- The buffer `tmp` of `RenderAsmLine`: the mnemonic of the line in upper case. -/
def upperMnemonic (m : String) : String := String.mk (m.toList.map upcase)

/-- The table `LeaTable` of `RenderAsmLine`. -/
def LeaTable : List String :=
  ["LEA", "LEA_B", "LEA_BD", "LEA_BI", "LEA_BID", "LEA_D", "LEA_I", "LEA_ID", "LEA_R", "LEA_RD"]

/-- The numbering of the enumerators of `LeaData` in the order of `LeaTable`; the
`enum` is declared in a header outside the repository's sources, and the cast
`(int)line.leaData` is a parameter of `lookupMnemonic`. -/
def leaOrder : LeaData → Nat
  | LeaData.none => 0
  | LeaData.b => 1
  | LeaData.bd => 2
  | LeaData.bi => 3
  | LeaData.bid => 4
  | LeaData.d => 5
  | LeaData.i => 6
  | LeaData.id => 7
  | LeaData.r => 8
  | LeaData.rd => 9

/-- The mnemonic `RenderAsmLine` looks up in `m_microArchOpMap`: the upper-cased
mnemonic of the line, replaced by `LeaTable[(int)line.leaData]` when it is `LEA`. -/
def lookupMnemonic (leaIndex : LeaData → Nat) (line : AsmLine) : String :=
  if upperMnemonic line.mnemonic == "LEA" then LeaTable.getD (leaIndex line.leaData) ""
  else upperMnemonic line.mnemonic

/-- Lookup `m_microArchOpMap.find( mnemonic )` in the map the constructor fills with
`emplace( OpsList[i], i )`: the first index at which `OpsList` holds the mnemonic. -/
def opMapFind (opsList : List String) (mnemonic : String) : Option Nat :=
  if opsList.indexOf mnemonic < opsList.length then some (opsList.indexOf mnemonic) else none

/-- The binary search of `std::lower_bound( ops, ops + numOps, opid )` with the comparison
`l->id < r`, as an index into the list of the ids. -/
def lowerBoundId (ids : List Nat) (val : Nat) : Nat → Nat → Nat → Nat
  | 0, first, _ => first
  | fuel + 1, first, len =>
    if len > 0 then
      let half := len / 2
      let mid := first + half
      if ids.getD mid 0 < val then lowerBoundId ids val fuel (mid + 1) (len - half - 1)
      else lowerBoundId ids val fuel first half
    else first

/-- The loop over the descriptors of one variant whose `descNum` is the number of
operands: `none` when a kind differs (`match = false`), else the penalty, the number of
positions whose widths differ, added to `penalty`. -/
def variantPenalty : List AsmDesc → List AsmOpParams → Nat → Option Nat
  | [], _, penalty => some penalty
  | _ :: _, [], _ => none
  | d :: ds, p :: ps, penalty =>
    if d.type != p.type then none
    else variantPenalty ds ps (if d.width != p.width then penalty + 1 else penalty)

/-- The vector `res` of `RenderAsmLine`: the pair `( i, penalty )` for every variant `i`
with `descNum == params.size()` whose kinds match; `i` counts from `first`. -/
def variantCandidates (params : List AsmOpParams) : Nat → List AsmVar → List (Nat × Nat)
  | _, [] => []
  | i, var :: vars =>
    (if var.desc.length == params.length then
      match variantPenalty var.desc params 0 with
      | some penalty => [(i, penalty)]
      | none => []
    else []) ++ variantCandidates params (i + 1) vars

/-- The index of the variant chosen for an operation: none when `res` is empty, else
`res[0].first` after the sort of `res` by penalty (`pdqsort_branchless` with the
comparison `l.second < r.second`, which is not in the sources and is a parameter). -/
def selectVariant (sortRes : List (Nat × Nat) → List (Nat × Nat)) (op : AsmOp)
    (params : List AsmOpParams) : Option Nat :=
  let res := variantCandidates params 0 op.variant
  if res.isEmpty then none
  else (sortRes res).head?.map Prod.fst

/-- The operation and the index of the variant that `RenderAsmLine` assigns to `asmVar`
for a line, none when `asmVar` stays null. `uarch` is the array `uarch->ops` of the
selected micro-architecture. -/
def asmVariant (uarch : List AsmOp) (opsList : List String) (leaIndex : LeaData → Nat)
    (sortRes : List (Nat × Nat) → List (Nat × Nat)) (arch : CpuArch) (line : AsmLine) :
    Option (AsmOp × Nat) :=
  if arch == CpuArch.CpuArchX64 || arch == CpuArch.CpuArchX86 then
    match opMapFind opsList (lookupMnemonic leaIndex line) with
    | none => none
    | some opid =>
      let oit := lowerBoundId (uarch.map AsmOp.id) opid uarch.length 0 uarch.length
      if oit != uarch.length && (uarch.getD oit default).id == opid then
        (selectVariant sortRes (uarch.getD oit default) line.params).map
          (fun i => (uarch.getD oit default, i))
      else none
  else none

/-- The kinds of the descriptors of a variant match the operands position by position,
and there are as many descriptors as operands. -/
def kindsMatch (desc : List AsmDesc) (params : List AsmOpParams) : Prop :=
  desc.length = params.length ∧
    ∀ j, j < desc.length → (desc.getD j ⟨0, 0⟩).type = (params.getD j ⟨0, 0⟩).type

/-- The number of positions at which the width of the descriptor differs from the width
of the operand. -/
def widthMismatches : List AsmDesc → List AsmOpParams → Nat
  | d :: ds, p :: ps => (if d.width = p.width then 0 else 1) + widthMismatches ds ps
  | _, _ => 0

/-- The example capture with the eight bytes of `lea rax, [rip+0x10]` and `ret` as the
code at `0x1000`. -/
def leaWorker : Worker :=
  { exampleWorker with
    GetSymbolCode := fun a =>
      if a == 0x1000 then some [0x48, 0x8D, 0x05, 0x10, 0, 0, 0, 0xC3] else none }

/-- The instruction `lea rax, [rip+0x10]` at `0x1000` as the decoder gives it. -/
def leaInsn : Insn :=
  ⟨0x1000, 7, true, "lea", "rax, [rip + 0x10]", [],
    [⟨OpType.reg, 0, 8, ⟨0, 0, 0⟩⟩, ⟨OpType.mem, 0, 8, ⟨X86_REG_RIP, X86_REG_INVALID, 0x10⟩⟩]⟩

/-- A decoder run that gives `lea rax, [rip+0x10]` followed by a `ret`. -/
def exampleDecoderLea : Decoder where
  cs_open := fun _ => true
  cs_disasm := fun _ _ _ => [leaInsn, plainInsn 0x1007 1 "ret" [CS_GRP_RET]]

/-- Insertion sort of `res` by penalty, for concrete runs. -/
def sortByPenalty (l : List (Nat × Nat)) : List (Nat × Nat) :=
  l.insertionSort (fun a b => a.2 ≤ b.2)

/-- The condition the lane loop asserts against: `[mn, mx]` lies inside the range,
`it->second.min >= range.first && it->second.max <= range.second`. -/
def contained (mn mx : Nat) (range : Nat × Nat) : Bool :=
  mn ≥ range.1 && mx ≤ range.2

/-- The loop `for( auto& range : lr )` over the ranges of one level with the assertion
evaluated: `none` when the assertion fails at a range, else `some validFit`. The ranges
after the one that ends the loop are not tested. -/
def fitLevel (mn mx : Nat) : List (Nat × Nat) → Option Bool
  | [] => some true
  | range :: rest =>
    if contained mn mx range then none
    else if overlaps mn mx range then some false
    else fitLevel mn mx rest

/-- The `for(;;)` of the lane loop (`placeLevel`) with the containment assertion
evaluated: `none` when it fails. -/
def placeLevelAsserted (mn mx : Nat) :
    List (List (Nat × Nat)) → Option (Nat × List (List (Nat × Nat)))
  | [] => some (0, [[(mn, mx)]])
  | lr :: rest =>
    match fitLevel mn mx lr with
    | none => none
    | some true => some (0, (lr ++ [(mn, mx)]) :: rest)
    | some false => (placeLevelAsserted mn mx rest).map (fun r => (r.1 + 1, lr :: r.2))

/-- The loop `for( auto& v : jumpRange )` (`assignLevels`) with the containment assertion
evaluated: `none` when it fails for some entry. -/
def assignLevelsAsserted : List JumpRange → List (Nat × JumpData) → List (List (Nat × Nat)) →
    Nat → Option (List (Nat × JumpData) × Nat)
  | [], table, _, maxLevel => some (table, maxLevel)
  | v :: vs, table, levelRanges, maxLevel =>
    match jtFind table v.target with
    | none => assignLevelsAsserted vs table levelRanges maxLevel
    | some e =>
      match placeLevelAsserted e.min e.max levelRanges with
      | none => none
      | some r =>
        assignLevelsAsserted vs (jtModify table v.target (fun d => { d with level := r.1 }))
          r.2 (if r.1 > maxLevel then r.1 else maxLevel)

/-- The post-pass of `Disassemble` (`jumpPostPass`) with the containment assertion
evaluated: `none` when it fails. -/
def jumpPostPassAsserted (sortRanges : List JumpRange → List JumpRange)
    (table : List (Nat × JumpData)) : Option (List (Nat × JumpData) × Nat) :=
  if table.isEmpty then some (table, 0)
  else
    let sorted := table.map (fun e =>
      (e.1, { e.2 with source := e.2.source.insertionSort (fun a b => a ≤ b) }))
    assignLevelsAsserted (sortRanges (jumpRanges sorted)) sorted [] 0

/-- The jump table that the instruction loop of `Disassemble( symAddr, worker )` has
built when the post-pass starts; empty when the function returns before the loop. -/
def loopJumpTable (w : Worker) (cs : Decoder) (symAddr : Nat) : List (Nat × JumpData) :=
  if symAddr == 0 then []
  else if w.GetCpuArch == CpuArch.CpuArchUnknown then []
  else
    match w.GetSymbolCode symAddr with
    | none => []
    | some code =>
      if !cs.cs_open w.GetCpuArch then []
      else
        let insn := cs.cs_disasm w.GetCpuArch code symAddr
        (insn.foldl (disasmStep w.GetCpuArch symAddr code.length insn) ⟨[], [], []⟩).jumpTable

/-- A decoder run of two instructions that jump to each other. -/
def exampleDecoderMutual : Decoder where
  cs_open := fun _ => true
  cs_disasm := fun _ _ _ => [jumpInsn 0x1000 4 0x1004, jumpInsn 0x1004 4 0x1000]

/-- The keys of a jump table with the intervals of their entries. -/
def tableIntervals (table : List (Nat × JumpData)) : List (Nat × Nat × Nat) :=
  table.map (fun e => (e.1, e.2.min, e.2.max))

/-- The invariant of `levelRanges`: the ranges of a level are pairwise disjoint, and a
range of a later level meets some range of every earlier level. -/
def LanesInv : List (List (Nat × Nat)) → Prop
  | [] => True
  | lr :: rest =>
    lr.Pairwise (fun q r => overlaps q.1 q.2 r = false) ∧
    (∀ l ∈ rest, ∀ r ∈ l, lr.any (overlaps r.1 r.2) = true) ∧ LanesInv rest

/-- The decimal digits of `n` as characters, most significant first; `fuel` bounds the
number of digits (ten are enough for a 32-bit value). -/
def decimalDigits : Nat → Nat → List Nat
  | 0, _ => []
  | fuel + 1, n => if n < 10 then [48 + n] else decimalDigits fuel (n / 10) ++ [48 + n % 10]

/-- The characters `sprintf( tmp, "%" PRIu32, v )` writes. -/
def printU32 (v : Nat) : List Nat := decimalDigits 10 (v % 2 ^ 32)

/-- The characters `%i` writes for the `uint32_t` value `v`, read as an `int`. -/
def printInt (v : Nat) : List Nat :=
  if v % 2 ^ 32 < 2 ^ 31 then decimalDigits 10 (v % 2 ^ 32)
  else 45 :: decimalDigits 10 (2 ^ 32 - v % 2 ^ 32)

/-- One iteration of the instruction loop of `Disassemble` as far as `m_maxLine` goes.
`srcLine` is the line `worker.GetLocationForAddress( op.address, srcline )` stores;
`mLineMax` is a local of the loop body, set to `0` in every iteration, and `m_maxLine`
is assigned in every iteration. -/
def maxLineStep (srcLine : Nat → Nat) (_m_maxLine : Nat) (op : Insn) : Nat :=
  let mLineMax := 0
  let srcline := srcLine op.address
  let mLineMax :=
    if srcline != 0 then (if srcline > mLineMax then srcline else mLineMax) else mLineMax
  (printU32 mLineMax).length + 1

/-- The `m_maxLine` that the instruction loop of `Disassemble` leaves, from the value
before the loop. -/
def loopMaxLine (srcLine : Nat → Nat) (insn : List Insn) (m_maxLine : Nat) : Nat :=
  insn.foldl (maxLineStep srcLine) m_maxLine

/-- The `m_maxLine` of the specification: one more than the digit count of the largest
source line number over all decoded instructions. -/
def specMaxLine (srcLine : Nat → Nat) (insn : List Insn) : Nat :=
  (printU32 (insn.foldl (fun m op => max m (srcLine op.address)) 0)).length + 1

/-- The text `RenderAsmLine` writes into `char buf[32]` for the source location of a
line: `"%s:%i"` of the file name and the line when `fnsz < 30 - m_maxLine`, else
`"...%s:%i"` of the tail of the file name from `fnsz - ( 30-3-1-m_maxLine )`. The
terminating NUL is not part of the text. For the values the loop of `Disassemble`
stores (2 to 11) the differences do not go below zero. -/
def chipText (fileName : List Nat) (srcline m_maxLine : Nat) : List Nat :=
  let fnsz := fileName.length
  if fnsz < 30 - m_maxLine then fileName ++ cstr ":" ++ printInt srcline
  else
    cstr "..." ++ fileName.drop (fnsz - (30 - 3 - 1 - m_maxLine)) ++ cstr ":" ++ printInt srcline

/-- Two instructions: the first of line 1234, the last of line 7. -/
def exampleLines (a : Nat) : Nat := if a == 0x1000 then 1234 else if a == 0x1004 then 7 else 0

/-- The two instructions of `exampleLines`. -/
def exampleLineInsn : List Insn := [plainInsn 0x1000 4 "nop" [], plainInsn 0x1004 1 "ret" [3]]

theorem scan_ge (cond : Nat → Bool) (fuel p : Nat) : p ≤ scan cond fuel p := by
  induction fuel generalizing p with
  | zero => simp [scan]
  | succ n ih =>
    simp only [scan]
    split
    · exact Nat.le_trans (Nat.le_succ p) (ih (p + 1))
    · exact Nat.le_refl p

theorem scan_le (cond : Nat → Bool) (stop : Nat)
    (hg : ∀ q, q ≤ stop → cond q = true → q < stop) (fuel p : Nat) (hp : p ≤ stop) :
    scan cond fuel p ≤ stop := by
  induction fuel generalizing p with
  | zero => simpa [scan] using hp
  | succ n ih =>
    simp only [scan]
    split
    · next hc => exact ih (p + 1) (hg p hp hc)
    · exact hp

theorem scan_all (cond : Nat → Bool) (fuel p i : Nat) (h1 : p ≤ i)
    (h2 : i < scan cond fuel p) : cond i = true := by
  induction fuel generalizing p with
  | zero => simp [scan] at h2; omega
  | succ n ih =>
    simp only [scan] at h2
    split at h2
    · next hc =>
      rcases Nat.eq_or_lt_of_le h1 with h | h
      · subst h; exact hc
      · exact ih (p + 1) h h2
    · omega

theorem scan_exit (cond : Nat → Bool) (stop : Nat)
    (hg : ∀ q, cond q = true → q < stop) (fuel p : Nat) (hf : stop - p ≤ fuel) :
    cond (scan cond fuel p) = false := by
  induction fuel generalizing p with
  | zero =>
    simp only [scan]
    cases h : cond p with
    | false => rfl
    | true => have := hg p h; omega
  | succ n ih =>
    simp only [scan]
    split
    · next hc =>
      have := hg p hc
      exact ih (p + 1) (by omega)
    · next hc => simpa using hc

theorem numCond_guard (data : List Nat) (stop q : Nat) (h : numCond data stop q = true) :
    q < stop := by
  simp [numCond] at h; exact h.1

theorem hexCond_guard (data : List Nat) (stop q : Nat) (h : hexCond data stop q = true) :
    q < stop := by
  simp [hexCond] at h; exact h.1

theorem sufCond_guard (data : List Nat) (stop q : Nat) (h : sufCond data stop q = true) :
    q < stop := by
  simp [sufCond] at h; exact h.1

theorem binCond_guard (data : List Nat) (stop : Nat) (ht : Term data stop) (q : Nat)
    (hq : q ≤ stop) (h : binCond data stop q = true) : q < stop := by
  rcases Nat.eq_or_lt_of_le hq with e | l
  · subst e
    rcases ht with t | t | t <;> simp [binCond, t] at h
  · exact l

theorem identCond_guard (data : List Nat) (stop : Nat) (ht : Term data stop) (q : Nat)
    (hq : q ≤ stop) (h : identCond data stop q = true) : q < stop := by
  rcases Nat.eq_or_lt_of_le hq with e | l
  · subst e
    rcases ht with t | t | t <;> simp [identCond, isLower, isUpper, isDigit, t] at h
  · exact l

theorem numberTail_bounds (data : List Nat) (stop p : Nat) (isFloat isBinary : Bool)
    (hp : p ≤ stop) :
    p ≤ (numberTail data stop p isFloat isBinary).2 ∧
      (numberTail data stop p isFloat isBinary).2 ≤ stop := by
  unfold numberTail
  lift_lets
  extract_lets c hasExp p1 p2 p3 isFloat1 c3 p4 p5
  have e1 : hasExp = true → p < stop := by
    intro h; simp [hasExp] at h; exact h.1.2
  have h1 : p ≤ p1 ∧ p1 ≤ stop := by
    simp only [p1]; split
    · next h => have := e1 h; omega
    · omega
  have h2 : p1 ≤ p2 ∧ p2 ≤ stop := by
    simp only [p2]; split
    · next h => simp at h; omega
    · omega
  have h3 : p2 ≤ p3 ∧ p3 ≤ stop := by
    simp only [p3]; split
    · exact ⟨scan_ge _ _ _, scan_le _ _ (fun q _ h => hexCond_guard data stop q h) _ _ h2.2⟩
    · omega
  have h4 : p3 ≤ p4 ∧ p4 ≤ stop := by
    simp only [p4]; split
    · next h => simp at h; omega
    · omega
  have h5 : p4 ≤ p5 ∧ p5 ≤ stop := by
    simp only [p5]; split
    · exact ⟨scan_ge _ _ _, scan_le _ _ (fun q _ h => sufCond_guard data stop q h) _ _ h4.2⟩
    · omega
  split
  · simp only; omega
  · simp only; omega

theorem TokenizeNumber_bounds (data : List Nat) (begin stop : Nat) (hb : begin ≤ stop)
    (ht : Term data stop) (h : (TokenizeNumber data begin stop).1 = true) :
    begin < (TokenizeNumber data begin stop).2 ∧ (TokenizeNumber data begin stop).2 ≤ stop := by
  unfold TokenizeNumber at h ⊢
  lift_lets at h ⊢
  extract_lets c0 startNum p1 p2 hasNum c at h ⊢
  have hlt : ¬ (c0 != 43 && c0 != 45 && !startNum) = true → begin < stop := by
    intro hc
    rcases Nat.eq_or_lt_of_le hb with e | l
    · exfalso; apply hc
      subst e
      rcases ht with t | t | t <;> simp [c0, startNum, isDigit, t]
    · exact l
  split at h
  · simp at h
  · next hc =>
    have hl := hlt hc
    have h2 : p1 ≤ p2 ∧ p2 ≤ stop :=
      ⟨scan_ge _ _ _, scan_le _ _ (fun q _ h => numCond_guard data stop q h) _ _ hl⟩
    rw [if_neg hc]
    split at h
    · simp at h
    · next hn =>
      rw [if_neg hn]
      have key : ∀ q f b, p2 ≤ q → q ≤ stop →
          begin < (numberTail data stop q f b).2 ∧ (numberTail data stop q f b).2 ≤ stop := by
        intro q f b hq1 hq2
        have := numberTail_bounds data stop q f b hq2
        simp only [p1] at h2
        omega
      split
      · next hlt2 =>
        split
        · exact key _ _ _ (Nat.le_trans (Nat.le_succ _) (scan_ge _ _ _))
            (scan_le _ _ (fun q _ h => numCond_guard data stop q h) _ _ hlt2)
        · split
          · exact key _ _ _ (Nat.le_trans (Nat.le_succ _) (scan_ge _ _ _))
              (scan_le _ _ (fun q _ h => hexCond_guard data stop q h) _ _ hlt2)
          · split
            · exact key _ _ _ (Nat.le_trans (Nat.le_succ _) (scan_ge _ _ _))
                (scan_le _ _ (binCond_guard data stop ht) _ _ hlt2)
            · exact key _ _ _ (Nat.le_refl _) h2.2
      · exact key _ _ _ (Nat.le_refl _) h2.2

theorem scanString_bounds (data : List Nat) (stop fuel p : Nat) (hp : p ≤ stop) :
    p ≤ scanString data stop fuel p ∧ scanString data stop fuel p ≤ stop := by
  induction fuel generalizing p with
  | zero => simp [scanString, hp]
  | succ n ih =>
    simp only [scanString]
    split
    · next hlt =>
      split
      · omega
      · split
        · next hc =>
          simp at hc
          have := ih (p + 1 + 1) (by omega)
          omega
        · have := ih (p + 1 + 0) (by omega)
          omega
    · omega

theorem scanBlockComment_spec (data : List Nat) (stop fuel p : Nat) (hp : p ≤ stop)
    (hf : stop - p < fuel) :
    ∃ q u, scanBlockComment data stop fuel p = some (q, u) ∧ p ≤ q ∧ q ≤ stop := by
  induction fuel generalizing p with
  | zero => omega
  | succ n ih =>
    simp only [scanBlockComment]
    have h1 : p ≤ scan (fun q => decide (q < stop) && rd data q != 42) (stop - p) p :=
      scan_ge _ _ _
    have h2 : scan (fun q => decide (q < stop) && rd data q != 42) (stop - p) p ≤ stop :=
      scan_le _ _ (fun q _ h => by simp at h; exact h.1) _ _ hp
    generalize scan (fun q => decide (q < stop) && rd data q != 42) (stop - p) p = p1 at h1 h2
    split
    · next he =>
      simp at he
      exact ⟨p1, true, rfl, h1, h2⟩
    · next he =>
      simp at he
      split
      · next hc =>
        simp at hc
        exact ⟨p1 + 1 + 1, false, rfl, by omega, by omega⟩
      · obtain ⟨q, u, hq, hq1, hq2⟩ := ih (p1 + 1) (by omega) (by omega)
        exact ⟨q, u, hq, by omega, hq2⟩

theorem IdentifyToken_spec (data : List Nat) (pos stop : Nat) (st : Tokenizer)
    (hp : pos ≤ stop) (ht : Term data stop) :
    ∃ col p st1, IdentifyToken data pos stop st = some (col, p, st1) ∧ pos ≤ p ∧ p ≤ stop ∧
      (pos < stop → pos < p) := by
  have hne : rd data pos ≠ 10 → rd data pos ≠ 13 → rd data pos ≠ 0 → pos < stop := by
    intro a b c
    rcases Nat.eq_or_lt_of_le hp with e | l
    · subst e; rcases ht with t | t | t <;> contradiction
    · exact l
  unfold IdentifyToken
  lift_lets
  extract_lets c p1 p2 p3 p4 pid num pp
  split
  · next h =>
    simp [c] at h
    have hl := hne (by omega) (by omega) (by omega)
    have := scanString_bounds data stop (stop - (pos + 1)) (pos + 1) hl
    exact ⟨_, _, _, rfl, by omega, this.2, fun _ => by omega⟩
  · split
    · next h =>
      simp [c] at h
      have hl := hne (by omega) (by omega) (by omega)
      have h2 : p1 ≤ p2 ∧ p2 ≤ stop := by
        simp only [p2, p1]; split
        · next h => simp at h; omega
        · omega
      have h3 : p2 ≤ p3 ∧ p3 ≤ stop := by
        simp only [p3]; split <;> omega
      have h4 : p3 ≤ p4 ∧ p4 ≤ stop := by
        simp only [p4]; split
        · next h => simp at h; omega
        · omega
      simp only [p1] at h2
      exact ⟨_, _, _, rfl, by omega, h4.2, fun _ => by omega⟩
    · split
      · next h =>
        have hl : pos < stop := by
          apply hne <;> intro e <;> simp [c, e, isLower, isUpper] at h
        have h1 : pos + 1 ≤ pid := scan_ge _ _ _
        have h2 : pid ≤ stop := scan_le _ _ (identCond_guard data stop ht) _ _ hl
        exact ⟨_, _, _, rfl, by omega, h2, fun _ => by omega⟩
      · split
        · next h =>
          have := TokenizeNumber_bounds data pos stop hp ht h
          exact ⟨_, _, _, rfl, Nat.le_of_lt this.1, this.2, fun _ => this.1⟩
        · split
          · next h =>
            simp at h
            exact ⟨_, _, _, rfl, hp, Nat.le_refl _, fun h => h⟩
          · split
            · next h =>
              simp at h
              obtain ⟨q, u, hq, hq1, hq2⟩ :=
                scanBlockComment_spec data stop (stop - pos) (pos + 2) (by omega) (by omega)
              rw [hq]
              exact ⟨_, _, _, rfl, by omega, hq2, fun _ => by omega⟩
            · have h1 : pos ≤ pp := scan_ge _ _ _
              have h2 : pp ≤ stop :=
                scan_le _ _ (fun q _ h => by simp at h; exact h.1) _ _ hp
              split
              · next h =>
                simp at h
                exact ⟨_, _, _, rfl, h1, h2, fun _ => by omega⟩
              · exact ⟨_, _, _, rfl, hp, Nat.le_refl _, fun h => h⟩

theorem scanCommentClose_bounds (data : List Nat) (stop fuel p : Nat) (hp : p < stop)
    (hf : stop - p < fuel) :
    ∃ r, scanCommentClose data stop fuel p = some r ∧
      ∀ q, r = some q → p + 2 ≤ q ∧ q ≤ stop := by
  induction fuel generalizing p with
  | zero => omega
  | succ n ih =>
    simp only [scanCommentClose]
    have h1 : p ≤ scan (fun q => q != stop && rd data q != 42) (data.length - p) p :=
      scan_ge _ _ _
    have h2 : scan (fun q => q != stop && rd data q != 42) (data.length - p) p ≤ stop :=
      scan_le _ _ (fun q hq h => by simp at h; omega) _ _ (Nat.le_of_lt hp)
    generalize scan (fun q => q != stop && rd data q != 42) (data.length - p) p = p1 at h1 h2
    split
    · next hlt =>
      split
      · refine ⟨_, rfl, ?_⟩
        intro q hq
        cases hq
        omega
      · obtain ⟨r, hr, hq⟩ := ih (p1 + 1) hlt (by omega)
        refine ⟨r, hr, ?_⟩
        intro q e
        have := hq q e
        omega
    · exact ⟨none, rfl, fun q hq => by cases hq⟩

theorem slice_nil (data : List Nat) (lo : Nat) : slice data lo lo = [] := by
  simp [slice]

theorem slice_split (data : List Nat) (lo mid hi : Nat) (h1 : lo ≤ mid) (h2 : mid ≤ hi) :
    slice data lo hi = slice data lo mid ++ slice data mid hi := by
  unfold slice
  have e : hi - lo = (mid - lo) + (hi - mid) := by omega
  rw [e, List.take_add, List.drop_drop]
  congr 3
  omega

theorem dropSpace_slice_space (data : List Nat) (lo hi : Nat)
    (h : ∀ i, lo ≤ i → i < hi → isspace (rd data i) = true) :
    dropSpace (slice data lo hi) = [] := by
  unfold dropSpace
  rw [List.filter_eq_nil_iff]
  intro x hx
  unfold slice at hx
  obtain ⟨n, hn, rfl⟩ := List.mem_iff_getElem.mp hx
  simp only [List.length_take, List.length_drop] at hn
  rw [List.getElem_take, List.getElem_drop]
  have := h (lo + n) (by omega) (by omega)
  simp only [rd, List.getD_eq_getElem?_getD] at this
  rw [List.getElem?_eq_getElem (by omega)] at this
  simpa using this

theorem dropSpace_append (a b : List Nat) : dropSpace (a ++ b) = dropSpace a ++ dropSpace b := by
  simp [dropSpace]

theorem LoopOK_nil (data : List Nat) (stop : Nat) : LoopOK data stop stop [] := by
  refine ⟨Nat.le_refl _, fun i h1 h2 => by omega, ?_⟩
  simp [slice_nil, tokenBytes]

theorem LoopOK_last (data : List Nat) (begin pos stop : Nat) (col : TokenColor)
    (h1 : begin ≤ pos) (h2 : pos ≤ stop)
    (hs : ∀ i, begin ≤ i → i < pos → isspace (rd data i) = true) :
    LoopOK data begin stop [⟨pos, stop, col⟩] := by
  refine ⟨⟨h1, h2, Nat.le_refl _⟩, ?_, ?_⟩
  · intro i hi1 hi2
    by_cases h : i < pos
    · exact Or.inr (hs i hi1 h)
    · exact Or.inl ⟨_, List.mem_singleton.mpr rfl, by simpa using h, hi2⟩
  · rw [slice_split data begin pos stop h1 h2, dropSpace_append,
      dropSpace_slice_space data begin pos hs]
    simp [tokenBytes]

theorem LoopOK_cons (data : List Nat) (begin pos p stop : Nat) (col : TokenColor)
    (ts : List Token) (h1 : begin ≤ pos) (h2 : pos ≤ p) (h3 : p ≤ stop)
    (hs : ∀ i, begin ≤ i → i < pos → isspace (rd data i) = true)
    (ih : LoopOK data p stop ts) :
    LoopOK data begin stop (⟨pos, p, col⟩ :: ts) := by
  obtain ⟨o, c, d⟩ := ih
  refine ⟨⟨h1, h2, o⟩, ?_, ?_⟩
  · intro i hi1 hi2
    by_cases h : i < pos
    · exact Or.inr (hs i hi1 h)
    · by_cases h' : i < p
      · exact Or.inl ⟨_, List.mem_cons_self _ _, by simpa using h, h'⟩
      · rcases c i (by omega) hi2 with ⟨t, ht, hb⟩ | w
        · exact Or.inl ⟨t, List.mem_cons_of_mem _ ht, hb⟩
        · exact Or.inr w
  · rw [slice_split data begin pos stop h1 (Nat.le_trans h2 h3), dropSpace_append,
      dropSpace_slice_space data begin pos hs, slice_split data pos p stop h2 h3,
      dropSpace_append, d]
    simp [tokenBytes, dropSpace_append]

theorem tokenizeLoop_spec (data : List Nat) (stop : Nat) (first : Bool) (ht : Term data stop)
    (fuel begin : Nat) (st : Tokenizer) (hb : begin ≤ stop) (hf : stop - begin ≤ fuel) :
    ∃ ts st1, tokenizeLoop data stop first fuel begin st = some (ts, st1) ∧
      LoopOK data begin stop ts := by
  induction fuel generalizing begin st with
  | zero =>
    have e : begin = stop := by omega
    subst e
    exact ⟨[], st, by simp [tokenizeLoop], LoopOK_nil data begin⟩
  | succ n ih =>
    simp only [tokenizeLoop]
    split
    · next e => subst e; exact ⟨[], st, rfl, LoopOK_nil data begin⟩
    · next hne =>
      have hlt : begin < stop := by omega
      split
      · obtain ⟨r, hr, hq⟩ :=
          scanCommentClose_bounds data stop (stop - begin + 1) begin hlt (by omega)
        rw [hr]
        cases r with
        | none =>
          exact ⟨_, _, rfl, LoopOK_last data begin begin stop _ (Nat.le_refl _) hb
            (fun i a b => by omega)⟩
        | some p =>
          have hp := hq p rfl
          obtain ⟨ts, st1, e, ok⟩ := ih p { st with isInComment := false } hp.2 (by omega)
          simp only [e]
          exact ⟨_, _, rfl, LoopOK_cons data begin begin p stop _ ts (Nat.le_refl _)
            (by omega) hp.2 (fun i a b => by omega) ok⟩
      · have h1 : begin ≤ scan (fun q => q != stop && isspace (rd data q)) (data.length - begin)
            begin := scan_ge _ _ _
        have h2 : scan (fun q => q != stop && isspace (rd data q)) (data.length - begin) begin
            ≤ stop := scan_le _ _ (fun q hq h => by simp at h; omega) _ _ hb
        have hs : ∀ i, begin ≤ i →
            i < scan (fun q => q != stop && isspace (rd data q)) (data.length - begin) begin →
            isspace (rd data i) = true := by
          intro i a b
          have := scan_all _ _ _ i a b
          simp at this
          exact this.2
        generalize scan (fun q => q != stop && isspace (rd data q)) (data.length - begin) begin
          = pos at h1 h2 hs
        split
        · exact ⟨_, _, rfl, LoopOK_last data begin pos stop _ h1 h2 hs⟩
        · obtain ⟨col, p, st1, e, b1, b2, b3⟩ := IdentifyToken_spec data pos stop st h2 ht
          rw [e]
          have hfp : stop - p ≤ n := by
            rcases Nat.eq_or_lt_of_le h2 with q | q
            · omega
            · have := b3 q; omega
          obtain ⟨ts, st2, e2, ok⟩ := ih p st1 b2 hfp
          simp only [e2]
          exact ⟨_, _, rfl, LoopOK_cons data begin pos p stop col ts h1 b1 b2 hs ok⟩

theorem Tokenize_ok (data : List Nat) (begin stop : Nat) (st : Tokenizer) (hb : begin ≤ stop)
    (ht : Term data stop) :
    ∃ ts st1, Tokenize data begin stop st = some (ts, st1) ∧ LoopOK data begin stop ts := by
  unfold Tokenize
  split
  · split
    · next e => subst e; exact ⟨_, _, rfl, LoopOK_nil data begin⟩
    · exact ⟨_, _, rfl, LoopOK_last data begin begin stop _ (Nat.le_refl _) hb
        (fun i a b => by omega)⟩
  · exact tokenizeLoop_spec data stop _ ht _ begin st hb (by omega)

theorem parseLines_spec (data : List Nat) (sz : Nat) (hz : rd data sz = 0)
    (fuel txt : Nat) (st : Tokenizer) (ht : txt ≤ sz) (hf : sz - txt < fuel) :
    ∃ ls, parseLines data sz fuel txt st = some ls ∧
      ∀ l ∈ ls, l.stop ≤ sz ∧ LoopOK data l.begin l.stop l.tokens := by
  induction fuel generalizing txt st with
  | zero => omega
  | succ n ih =>
    simp only [parseLines]
    have h1 : txt ≤ scan (fun q => rd data q != 10 && rd data q != 13 && decide (q < sz))
        (sz - txt) txt := scan_ge _ _ _
    have h2 : scan (fun q => rd data q != 10 && rd data q != 13 && decide (q < sz))
        (sz - txt) txt ≤ sz := scan_le _ _ (fun q _ h => by simp at h; exact h.2) _ _ ht
    have h3 := scan_exit (fun q => rd data q != 10 && rd data q != 13 && decide (q < sz)) sz
      (fun q h => by simp at h; exact h.2) (sz - txt) txt (Nat.le_refl _)
    generalize scan (fun q => rd data q != 10 && rd data q != 13 && decide (q < sz))
        (sz - txt) txt = stop at h1 h2 h3
    have hterm : Term data stop := by
      by_cases e : stop = sz
      · subst e; exact Or.inr (Or.inr hz)
      · have hl : stop < sz := by omega
        by_cases a : rd data stop = 10
        · exact Or.inl a
        · by_cases b : rd data stop = 13
          · exact Or.inr (Or.inl b)
          · simp [a, b, hl] at h3
    obtain ⟨ts, st1, e, ok⟩ := Tokenize_ok data txt stop st h1 hterm
    rw [e]
    simp only
    have hlt : ∀ q, q ≤ sz → rd data q ≠ 0 → q < sz := by
      intro q a b
      rcases Nat.eq_or_lt_of_le a with e | l
      · subst e; exact absurd hz b
      · exact l
    have hnext : skipTerminator data stop ≤ sz ∧
        (rd data (skipTerminator data stop) ≠ 0 → stop < skipTerminator data stop) := by
      unfold skipTerminator
      split
      · next a =>
        simp at a
        have := hlt stop h2 (by omega)
        split
        · next b =>
          simp at b
          have := hlt (stop + 1) (by omega) (by omega)
          exact ⟨by omega, fun _ => by omega⟩
        · exact ⟨by omega, fun _ => by omega⟩
      · split
        · next a =>
          simp at a
          have := hlt stop h2 (by omega)
          split
          · next b =>
            simp at b
            have := hlt (stop + 1) (by omega) (by omega)
            exact ⟨by omega, fun _ => by omega⟩
          · exact ⟨by omega, fun _ => by omega⟩
        · next a b =>
          simp at a b
          refine ⟨h2, fun c => ?_⟩
          rcases hterm with t | t | t <;> contradiction
    generalize skipTerminator data stop = next at hnext
    split
    · refine ⟨_, rfl, ?_⟩
      intro l hl
      rw [List.mem_singleton] at hl
      subst hl
      exact ⟨h2, ok⟩
    · next hnz =>
      simp at hnz
      have hgt := hnext.2 hnz
      obtain ⟨ls, e2, hls⟩ := ih next st1 hnext.1 (by omega)
      rw [e2]
      refine ⟨_, rfl, ?_⟩
      intro l hl
      rcases List.mem_cons.mp hl with h | h
      · subst h; exact ⟨h2, ok⟩
      · exact hls l h

theorem rd_append (content : List Nat) (tail : List Nat) (i : Nat) (h : i < content.length) :
    rd (content ++ tail) i = rd content i := by
  simp [rd, List.getD_eq_getElem?_getD, List.getElem?_append_left h]

theorem slice_append (content : List Nat) (tail : List Nat) (lo hi : Nat)
    (h : hi ≤ content.length) : slice (content ++ tail) lo hi = slice content lo hi := by
  unfold slice
  by_cases hl : lo ≤ hi
  · rw [List.drop_append_of_le_length (by omega), List.take_append_of_le_length]
    simp; omega
  · have : hi - lo = 0 := by omega
    simp [this]

theorem ParseSource_spec (content : List Nat) :
    ∃ ls, ParseSource content = some ls ∧
      ∀ l ∈ ls, l.stop ≤ content.length ∧ LoopOK (content ++ [0]) l.begin l.stop l.tokens := by
  unfold ParseSource
  exact parseLines_spec (content ++ [0]) content.length (by simp [rd]) _ 0 _
    (Nat.zero_le _) (by omega)

theorem tokenBytes_append (content tail : List Nat) (hi : Nat) (h : hi ≤ content.length) :
    ∀ (lo : Nat) (ts : List Token), tokensOrdered lo ts hi →
      tokenBytes (content ++ tail) ts = tokenBytes content ts := by
  intro lo ts
  induction ts generalizing lo with
  | nil => intro _; rfl
  | cons t ts ih =>
    intro ho
    obtain ⟨a, b, c⟩ := ho
    have hle : ∀ (lo : Nat) (ts : List Token), tokensOrdered lo ts hi → lo ≤ hi := by
      intro lo ts
      induction ts generalizing lo with
      | nil => intro h; exact h
      | cons u us ih2 => intro h; have := ih2 u.stop h.2.2; have := h.1; have := h.2.1; omega
    have := hle _ _ c
    simp only [tokenBytes]
    rw [slice_append content tail _ _ (by omega), ih t.stop c]

theorem scan_exit_le (cond : Nat → Bool) (stop : Nat)
    (hg : ∀ q, q ≤ stop → cond q = true → q < stop) (fuel p : Nat) (hp : p ≤ stop)
    (hf : stop - p ≤ fuel) : cond (scan cond fuel p) = false := by
  induction fuel generalizing p with
  | zero =>
    simp only [scan]
    cases h : cond p with
    | false => rfl
    | true => have := hg p hp h; omega
  | succ n ih =>
    simp only [scan]
    split
    · next hc =>
      have := hg p hp hc
      exact ih (p + 1) (by omega) (by omega)
    · next hc => simpa using hc

theorem rd_lt (data : List Nat) (i : Nat) (h : rd data i ≠ 0) : i < data.length := by
  by_contra hc
  apply h
  simp [rd, List.getD_eq_getElem?_getD, List.getElem?_eq_none (Nat.le_of_not_lt hc)]

theorem scanCommentClose_none (data : List Nat) (stop : Nat) (hs : stop ≤ data.length)
    (fuel p : Nat) (hp : p ≤ stop) (hf : stop - p < fuel) (hn : NoClose data p stop stop) :
    scanCommentClose data stop fuel p = some none := by
  induction fuel generalizing p with
  | zero => omega
  | succ n ih =>
    simp only [scanCommentClose]
    have h1 : p ≤ scan (fun q => q != stop && rd data q != 42) (data.length - p) p :=
      scan_ge _ _ _
    have h2 : scan (fun q => q != stop && rd data q != 42) (data.length - p) p ≤ stop :=
      scan_le _ _ (fun q hq h => by simp at h; omega) _ _ hp
    have h3 := scan_exit_le (fun q => q != stop && rd data q != 42) stop
      (fun q hq h => by simp at h; omega) (data.length - p) p hp (by omega)
    generalize scan (fun q => q != stop && rd data q != 42) (data.length - p) p = p1
      at h1 h2 h3
    split
    · next hlt =>
      have h42 : rd data p1 = 42 := by
        have : p1 ≠ stop := by omega
        simpa [this] using h3
      split
      · next h47 =>
        simp at h47
        exact absurd ⟨h42, h47⟩ (hn p1 h1 (by omega) hlt)
      · exact ih (p1 + 1) (by omega) (by omega)
          (fun i a b c => hn i (by omega) b c)
    · rfl

theorem scanCommentClose_some (data : List Nat) (stop k : Nat) (hk : k + 1 < stop)
    (h42 : rd data k = 42) (h47 : rd data (k + 1) = 47)
    (fuel p : Nat) (hp : p ≤ k) (hf : stop - p < fuel) (hn : NoClose data p k stop) :
    scanCommentClose data stop fuel p = some (some (k + 2)) := by
  induction fuel generalizing p with
  | zero => omega
  | succ n ih =>
    simp only [scanCommentClose]
    have h1 : p ≤ scan (fun q => q != stop && rd data q != 42) (data.length - p) p :=
      scan_ge _ _ _
    have h2 : scan (fun q => q != stop && rd data q != 42) (data.length - p) p ≤ k :=
      scan_le _ _ (fun q hq h => by
        simp at h
        rcases Nat.eq_or_lt_of_le hq with e | l
        · subst e; exact absurd h42 h.2
        · exact l) _ _ hp
    have h3 : ∀ i, p ≤ i →
        i < scan (fun q => q != stop && rd data q != 42) (data.length - p) p →
        rd data i ≠ 42 := by
      intro i a b
      have := scan_all _ _ _ i a b
      simp at this
      exact this.2
    have hkl : k < data.length := rd_lt data k (by omega)
    have h4 := scan_exit_le (fun q => q != stop && rd data q != 42) k
      (fun q hq h => by
        simp at h
        rcases Nat.eq_or_lt_of_le hq with e | l
        · subst e; exact absurd h42 h.2
        · exact l) (data.length - p) p hp (by omega)
    generalize scan (fun q => q != stop && rd data q != 42) (data.length - p) p = p1
      at h1 h2 h3 h4
    have hlt : p1 + 1 < stop := by omega
    rw [if_pos hlt]
    by_cases e : p1 = k
    · subst e
      simp [h47]
    · have hl : p1 < k := by omega
      split
      · next h =>
        simp at h
        have hp1 : rd data p1 = 42 := by
          have : p1 ≠ stop := by omega
          simpa [this] using h4
        exact absurd ⟨hp1, h⟩ (hn p1 h1 hl hlt)
      · exact ih (p1 + 1) (by omega) (by omega) (fun i a b c => hn i (by omega) b c)

theorem scanBlockComment_unterminated (data : List Nat) (stop fuel p : Nat) (hp : p ≤ stop)
    (hf : stop - p < fuel) (hn : NoClose data p stop stop) :
    scanBlockComment data stop fuel p = some (stop, true) := by
  induction fuel generalizing p with
  | zero => omega
  | succ n ih =>
    simp only [scanBlockComment]
    have h1 : p ≤ scan (fun q => decide (q < stop) && rd data q != 42) (stop - p) p :=
      scan_ge _ _ _
    have h2 : scan (fun q => decide (q < stop) && rd data q != 42) (stop - p) p ≤ stop :=
      scan_le _ _ (fun q _ h => by simp at h; exact h.1) _ _ hp
    have h3 := scan_exit (fun q => decide (q < stop) && rd data q != 42) stop
      (fun q h => by simp at h; exact h.1) (stop - p) p (Nat.le_refl _)
    generalize scan (fun q => decide (q < stop) && rd data q != 42) (stop - p) p = p1
      at h1 h2 h3
    split
    · next e => simp at e; subst e; rfl
    · next e =>
      simp at e
      have hlt : p1 < stop := by omega
      have h42 : rd data p1 = 42 := by simpa [hlt] using h3
      split
      · next h =>
        simp at h
        exact absurd ⟨h42, h.2⟩ (hn p1 h1 hlt h.1)
      · exact ih (p1 + 1) (by omega) (by omega) (fun i a b c => hn i (by omega) b c)

theorem IdentifyToken_open_comment (data : List Nat) (pos stop : Nat) (st : Tokenizer)
    (hl : pos + 1 < stop) (h47 : rd data pos = 47) (h42 : rd data (pos + 1) = 42)
    (hn : NoClose data (pos + 2) stop stop) :
    IdentifyToken data pos stop st =
      some (TokenColor.Comment, stop, { st with isInComment := true }) := by
  have hnum : (TokenizeNumber data pos stop).1 = false := by
    simp [TokenizeNumber, h47, isDigit]
  have hgt : stop - pos > 1 := by omega
  simp [IdentifyToken, h47, h42, hnum, isLower, isUpper, hgt,
    scanBlockComment_unterminated data stop (stop - pos) (pos + 2) (by omega) (by omega) hn]

/-! ## Tokenizer claims -/

/-- C3: every line that `ParseSource` produces, for any file content, carries tokens
that are monotonic, non-overlapping and contained in the line:
`line.begin ≤ t0.begin ≤ t0.end ≤ t1.begin ≤ ... ≤ tn.end ≤ line.end`
(and `ParseSource` does produce its lines: the loops end within their fuel). -/
theorem ParseSource_tokens_ordered (content : List Nat) :
    ∃ ls, ParseSource content = some ls ∧
      ∀ l ∈ ls, tokensOrdered l.begin l.tokens l.stop := by
  obtain ⟨ls, e, h⟩ := ParseSource_spec content
  exact ⟨ls, e, fun l hl => (h l hl).2.1⟩

/-- C4: in every line that `ParseSource` produces, every byte of the line that no token
of the line covers is a whitespace byte; hence the token ranges concatenated in order
are the line once whitespace is put aside. -/
theorem ParseSource_tokens_cover (content : List Nat) :
    ∃ ls, ParseSource content = some ls ∧
      ∀ l ∈ ls,
        (∀ i, l.begin ≤ i → i < l.stop → covered l.tokens i ∨ isspace (rd content i) = true) ∧
        dropSpace (slice content l.begin l.stop) = dropSpace (tokenBytes content l.tokens) := by
  obtain ⟨ls, e, h⟩ := ParseSource_spec content
  refine ⟨ls, e, fun l hl => ?_⟩
  obtain ⟨hs, ho, hc, hd⟩ := h l hl
  refine ⟨fun i a b => ?_, ?_⟩
  · rcases hc i a b with c | c
    · exact Or.inl c
    · rw [rd_append content [0] i (by omega)] at c
      exact Or.inr c
  · rw [slice_append content [0] _ _ hs, tokenBytes_append content [0] l.stop hs _ _ ho] at hd
    exact hd

/-- C5 (amended): a line tokenized while `isInComment` is set (and `isInPreprocessor`
is not). An empty line gets no token and the flag stays set. A non-empty line without
`*/` gets exactly one token, a `Comment` spanning the line, and the flag stays set. When
the first `*/` of the line starts at `k`, the first token is a `Comment` running from the
line start up to and including that `*/`, the flag is cleared there, and the rest of the
line goes through the ordinary token loop. A `/*` starting a token, with no `*/` after
it on the line, gives a `Comment` token to the end of the line and sets the flag. -/
theorem Tokenize_block_comment (data : List Nat) (begin stop : Nat) (st : Tokenizer)
    (hc : st.isInComment = true) (hp : st.isInPreprocessor = false)
    (hs : stop ≤ data.length) :
    (begin = stop → Tokenize data begin stop st = some ([], st)) ∧
    (begin < stop → NoClose data begin stop stop →
      Tokenize data begin stop st = some ([⟨begin, stop, TokenColor.Comment⟩], st)) ∧
    (∀ k, begin ≤ k → k + 1 < stop → rd data k = 42 → rd data (k + 1) = 47 →
      NoClose data begin k stop →
      Tokenize data begin stop st =
        (tokenizeLoop data stop false (stop - begin) (k + 2)
            { st with isInComment := false }).map
          (fun r => (⟨begin, k + 2, TokenColor.Comment⟩ :: r.1, r.2))) ∧
    (∀ pos st0, pos + 1 < stop → rd data pos = 47 → rd data (pos + 1) = 42 →
      NoClose data (pos + 2) stop stop →
      IdentifyToken data pos stop st0 =
        some (TokenColor.Comment, stop, { st0 with isInComment := true })) := by
  refine ⟨?_, ?_, ?_, ?_⟩
  · intro e
    subst e
    simp [Tokenize, hp, tokenizeLoop]
  · intro hlt hn
    have hne : begin ≠ stop := by omega
    simp [Tokenize, hp, tokenizeLoop, hne, hc,
      scanCommentClose_none data stop hs (stop - begin + 1) begin (by omega) (by omega) hn]
  · intro k hk1 hk2 h42 h47 hn
    have hne : begin ≠ stop := by omega
    simp only [Tokenize, hp, tokenizeLoop, hne, hc,
      scanCommentClose_some data stop k hk2 h42 h47 (stop - begin + 1) begin hk1 (by omega) hn]
    simp only [Bool.false_eq_true, if_false, if_true, Bool.not_true]
    generalize tokenizeLoop data stop false (stop - begin) (k + 2) _ = r
    cases r with
    | none => rfl
    | some r => rfl
  · intro pos st0 a b c d
    exact IdentifyToken_open_comment data pos stop st0 a b c d

/-- Lines `/* a`, ` b`, ` c */ d` of the buffer `/* a\n b\n c */ d`: the opening line
ends in a `Comment` token and sets the flag, the middle line is one `Comment` token, and
the closing line starts with a `Comment` token through `*/` followed by the token `d`. -/
theorem Tokenize_block_comment_witness :
    IdentifyToken (cstr "/* a\n b\n c */ d") 0 4 ⟨false, false⟩ =
      some (TokenColor.Comment, 4, ⟨true, false⟩) ∧
    Tokenize (cstr "/* a\n b\n c */ d") 5 7 ⟨true, false⟩ =
      some ([⟨5, 7, TokenColor.Comment⟩], ⟨true, false⟩) ∧
    Tokenize (cstr "/* a\n b\n c */ d") 8 15 ⟨true, false⟩ =
      some ([⟨8, 13, TokenColor.Comment⟩, ⟨14, 15, TokenColor.Default⟩], ⟨false, false⟩) := by
  have h := Tokenize_block_comment (cstr "/* a\n b\n c */ d")
  refine ⟨?_, ?_, ?_⟩
  · exact (h 0 4 ⟨true, false⟩ rfl rfl (by decide)).2.2.2 0 ⟨false, false⟩ (by decide)
      (by decide) (by decide) (fun i a b c => by interval_cases i <;> decide)
  · exact (h 5 7 ⟨true, false⟩ rfl rfl (by decide)).2.1 (by decide)
      (fun i a b c => by interval_cases i <;> decide)
  · exact (h 8 15 ⟨true, false⟩ rfl rfl (by decide)).2.2.1 11 (by decide) (by decide)
      (by decide) (by decide) (fun i a b c => by interval_cases i <;> decide)

/-- C5, as stated, fails on an empty line: in `/*\n\n*/` the middle line is tokenized
with the flag set and gets no token at all. -/
theorem Tokenize_block_comment_empty_line :
    ParseSource (cstr "/*\n\n*/") =
      some [⟨0, 2, [⟨0, 2, TokenColor.Comment⟩]⟩, ⟨3, 3, []⟩,
        ⟨4, 6, [⟨4, 6, TokenColor.Comment⟩]⟩] ∧
    Tokenize (cstr "/*\n\n*/") 3 3 ⟨true, false⟩ = some ([], ⟨true, false⟩) := by
  decide

/-- C6 (amended): a line tokenized while `isInPreprocessor` is set. A non-empty line gets
a single `Preprocessor` token spanning the entire line, and afterwards the flag is set
exactly when the last byte of the line is a backslash; when the flag is cleared, the
next line goes through the ordinary token loop. An empty line gets no token and clears
the flag. -/
theorem Tokenize_preprocessor_continuation (data : List Nat) (begin stop : Nat)
    (st : Tokenizer) (hp : st.isInPreprocessor = true) :
    (begin ≠ stop →
      Tokenize data begin stop st =
        some ([⟨begin, stop, TokenColor.Preprocessor⟩],
          { st with isInPreprocessor := rd data (stop - 1) == 92 }) ∧
      (rd data (stop - 1) ≠ 92 → ∀ b2 e2,
        Tokenize data b2 e2 { st with isInPreprocessor := rd data (stop - 1) == 92 } =
          tokenizeLoop data e2 (!st.isInComment) (e2 - b2 + 1) b2
            { st with isInPreprocessor := false })) ∧
    (begin = stop → Tokenize data begin stop st = some ([], { st with isInPreprocessor := false })) := by
  refine ⟨fun hne => ⟨?_, ?_⟩, ?_⟩
  · by_cases h : rd data (stop - 1) = 92
    · simp [Tokenize, hp, hne, h]
      cases st
      simp_all
    · simp [Tokenize, hp, hne, h]
  · intro h b2 e2
    have hb : (rd data (stop - 1) == 92) = false := by simpa using h
    simp [Tokenize, hb]
  · intro e
    simp [Tokenize, hp, e]

/-- The buffer `#define FOO \`, `  bar`, `int x;` (three lines): the first line sets the
flag, the second is one `Preprocessor` token and clears it, the third is tokenized by
the ordinary loop. -/
theorem Tokenize_preprocessor_continuation_witness :
    Tokenize (cstr "#define FOO \\\n  bar\nint x;") 0 13 ⟨false, false⟩ =
      some ([⟨0, 13, TokenColor.Preprocessor⟩], ⟨false, true⟩) ∧
    Tokenize (cstr "#define FOO \\\n  bar\nint x;") 14 19 ⟨false, true⟩ =
      some ([⟨14, 19, TokenColor.Preprocessor⟩], ⟨false, false⟩) ∧
    Tokenize (cstr "#define FOO \\\n  bar\nint x;") 20 26 ⟨false, false⟩ =
      some ([⟨20, 23, TokenColor.Type⟩, ⟨24, 25, TokenColor.Default⟩,
        ⟨25, 26, TokenColor.Punctuation⟩], ⟨false, false⟩) :=
  ⟨by decide,
   ((Tokenize_preprocessor_continuation (cstr "#define FOO \\\n  bar\nint x;") 14 19
      ⟨false, true⟩ rfl).1 (by decide)).1,
   by decide⟩

/-- C6, as stated, fails on an empty line: in `#define A \`, ``, `x` the empty second
line is tokenized with the flag set and gets no token; the flag is cleared. -/
theorem Tokenize_preprocessor_empty_line :
    ParseSource (cstr "#define A \\\n\nx") =
      some [⟨0, 11, [⟨0, 11, TokenColor.Preprocessor⟩]⟩, ⟨12, 12, []⟩,
        ⟨13, 14, [⟨13, 14, TokenColor.Default⟩]⟩] ∧
    Tokenize (cstr "#define A \\\n\nx") 12 12 ⟨false, true⟩ = some ([], ⟨false, false⟩) := by
  decide

/-! ## Jump table -/

theorem foldl_min_le (l : List Nat) (T : Nat) :
    l.foldl min T ≤ T ∧ ∀ s ∈ l, l.foldl min T ≤ s := by
  induction l generalizing T with
  | nil => simp
  | cons a l ih =>
    simp only [List.foldl_cons]
    have h := ih (min T a)
    refine ⟨Nat.le_trans h.1 (Nat.min_le_left _ _), ?_⟩
    intro s hs
    rcases List.mem_cons.mp hs with e | e
    · subst e; exact Nat.le_trans h.1 (Nat.min_le_right _ _)
    · exact h.2 s e

theorem le_foldl_max (l : List Nat) (T : Nat) :
    T ≤ l.foldl max T ∧ ∀ s ∈ l, s ≤ l.foldl max T := by
  induction l generalizing T with
  | nil => simp
  | cons a l ih =>
    simp only [List.foldl_cons]
    have h := ih (max T a)
    refine ⟨Nat.le_trans (Nat.le_max_left _ _) h.1, ?_⟩
    intro s hs
    rcases List.mem_cons.mp hs with e | e
    · subst e; exact Nat.le_trans (Nat.le_max_right _ _) h.1
    · exact h.2 s e

theorem foldl_min_perm (l1 l2 : List Nat) (T : Nat) (h : l1.Perm l2) :
    l1.foldl min T = l2.foldl min T := by
  induction h generalizing T with
  | nil => rfl
  | cons a _ ih => simp only [List.foldl_cons]; exact ih _
  | swap a b l =>
    simp only [List.foldl_cons]
    congr 1
    omega
  | trans _ _ ih1 ih2 => exact (ih1 T).trans (ih2 T)

theorem foldl_max_perm (l1 l2 : List Nat) (T : Nat) (h : l1.Perm l2) :
    l1.foldl max T = l2.foldl max T := by
  induction h generalizing T with
  | nil => rfl
  | cons a _ ih => simp only [List.foldl_cons]; exact ih _
  | swap a b l =>
    simp only [List.foldl_cons]
    congr 1
    omega
  | trans _ _ ih1 ih2 => exact (ih1 T).trans (ih2 T)

theorem mem_jtModify (table : List (Nat × JumpData)) (key : Nat) (f : JumpData → JumpData)
    (k : Nat) (e : JumpData) :
    (k, e) ∈ jtModify table key f ↔
      ∃ e0, (k, e0) ∈ table ∧ e = if k = key then f e0 else e0 := by
  unfold jtModify
  rw [List.mem_map]
  constructor
  · rintro ⟨⟨k0, e0⟩, hm, he⟩
    by_cases hk : k0 = key
    · simp [hk] at he
      obtain ⟨rfl, rfl⟩ := he
      exact ⟨e0, hk ▸ hm, by simp⟩
    · simp [hk] at he
      obtain ⟨rfl, rfl⟩ := he
      exact ⟨e0, hm, by simp [hk]⟩
  · rintro ⟨e0, hm, he⟩
    refine ⟨(k, e0), hm, ?_⟩
    by_cases hk : k = key
    · simp [hk] at he ⊢; exact he.symm
    · simp [hk] at he ⊢; exact he.symm

theorem recordJump_ok (table : List (Nat × JumpData)) (jumpAddr addr : Nat)
    (h : ∀ k e, (k, e) ∈ table → JumpEntryOK k e) :
    ∀ k e, (k, e) ∈ recordJump table jumpAddr addr → JumpEntryOK k e := by
  intro k e hm
  unfold recordJump at hm
  lift_lets at hm
  extract_lets mn mx at hm
  split at hm
  · rcases List.mem_append.mp hm with h1 | h1
    · exact h k e h1
    · simp at h1
      obtain ⟨rfl, rfl⟩ := h1
      exact ⟨rfl, rfl, Nat.min_le_left _ _, Nat.le_max_left _ _⟩
  · rw [mem_jtModify] at hm
    obtain ⟨e0, h0, he⟩ := hm
    have ok := h k e0 h0
    by_cases hk : k = jumpAddr
    · subst hk
      simp only [if_true] at he
      obtain ⟨o1, o2, o3, o4⟩ := ok
      subst he
      simp only [JumpEntryOK]
      split
      · next c =>
        simp only [List.foldl_append, List.foldl_cons, List.foldl_nil, ← o1]
        simp only [mn] at c
        rw [← o2]
        omega
      · next c =>
        split
        · next c2 =>
          simp only [List.foldl_append, List.foldl_cons, List.foldl_nil, ← o1, ← o2]
          simp only [mn, mx] at c c2
          omega
        · next c2 =>
          simp only [List.foldl_append, List.foldl_cons, List.foldl_nil, ← o1, ← o2]
          simp only [mn, mx] at c c2
          omega
    · simp only [hk, if_false] at he
      subst he
      exact ok

theorem disasmStep_ok (arch : CpuArch) (symAddr len : Nat) (insn : List Insn)
    (acc : DisasmAcc) (op : Insn)
    (h : ∀ k e, (k, e) ∈ acc.jumpTable → JumpEntryOK k e) :
    ∀ k e, (k, e) ∈ (disasmStep arch symAddr len insn acc op).jumpTable → JumpEntryOK k e := by
  unfold disasmStep
  lift_lets
  extract_lets mk jumpAddr fit
  split
  · split
    · split
      · exact recordJump_ok _ _ _ h
      · exact h
    · exact h
  · exact h

theorem disasmLoop_ok (arch : CpuArch) (symAddr len : Nat) (insn : List Insn)
    (ops : List Insn) (acc : DisasmAcc)
    (h : ∀ k e, (k, e) ∈ acc.jumpTable → JumpEntryOK k e) :
    ∀ k e, (k, e) ∈ (ops.foldl (disasmStep arch symAddr len insn) acc).jumpTable →
      JumpEntryOK k e := by
  induction ops generalizing acc with
  | nil => exact h
  | cons op ops ih =>
    simp only [List.foldl_cons]
    exact ih _ (disasmStep_ok arch symAddr len insn acc op h)

theorem assignLevels_entries (vs : List JumpRange) (table : List (Nat × JumpData))
    (lrs : List (List (Nat × Nat))) (m : Nat) :
    ∀ k e, (k, e) ∈ (assignLevels vs table lrs m).1 →
      ∃ e0, (k, e0) ∈ table ∧ e.min = e0.min ∧ e.max = e0.max ∧ e.source = e0.source := by
  induction vs generalizing table lrs m with
  | nil => intro k e h; exact ⟨e, h, rfl, rfl, rfl⟩
  | cons v vs ih =>
    intro k e h
    simp only [assignLevels] at h
    split at h
    · exact ih _ _ _ k e h
    · obtain ⟨e1, h1, a, b, c⟩ := ih _ _ _ k e h
      rw [mem_jtModify] at h1
      obtain ⟨e0, h0, he⟩ := h1
      refine ⟨e0, h0, ?_⟩
      split at he <;> subst he <;> exact ⟨a, b, c⟩

theorem jumpPostPass_ok (sortRanges : List JumpRange → List JumpRange)
    (table : List (Nat × JumpData)) (h : ∀ k e, (k, e) ∈ table → JumpEntryOK k e) :
    ∀ k e, (k, e) ∈ (jumpPostPass sortRanges table).1 → JumpEntryOK k e := by
  intro k e hm
  unfold jumpPostPass at hm
  split at hm
  · exact h k e hm
  · obtain ⟨e1, h1, a, b, c⟩ := assignLevels_entries _ _ _ _ k e hm
    rw [List.mem_map] at h1
    obtain ⟨⟨k0, e0⟩, h0, he⟩ := h1
    simp only [Prod.mk.injEq] at he
    obtain ⟨rfl, rfl⟩ := he
    obtain ⟨o1, o2, o3, o4⟩ := h k0 e0 h0
    have p := List.perm_insertionSort (fun a b : Nat => a ≤ b) e0.source
    simp only at a b c
    refine ⟨?_, ?_, ?_, ?_⟩
    · rw [a, c, o1]; exact (foldl_min_perm _ _ _ p).symm
    · rw [b, c, o2]; exact (foldl_max_perm _ _ _ p).symm
    · rw [a]; exact o3
    · rw [b]; exact o4

theorem Disassemble_jumpTable (w : Worker) (cs : Decoder)
    (sortRanges : List JumpRange → List JumpRange) (symAddr : Nat) (s : View) :
    (Disassemble w cs sortRanges symAddr s).2.m_jumpTable = [] ∨
    ∃ arch len insn, (Disassemble w cs sortRanges symAddr s).2.m_jumpTable =
      (jumpPostPass sortRanges
        (List.foldl (disasmStep arch symAddr len insn) ⟨[], [], []⟩ insn).jumpTable).1 := by
  simp only [Disassemble]
  split
  · exact Or.inl rfl
  · split
    · exact Or.inl rfl
    · split
      · exact Or.inl rfl
      · split
        · exact Or.inl rfl
        · split
          · exact Or.inl rfl
          · exact Or.inr ⟨_, _, _, rfl⟩

theorem Disassemble_table_ok (w : Worker) (cs : Decoder)
    (sortRanges : List JumpRange → List JumpRange) (symAddr : Nat) (s : View) :
    ∀ k e, (k, e) ∈ (Disassemble w cs sortRanges symAddr s).2.m_jumpTable →
      JumpEntryOK k e := by
  intro k e hm
  rcases Disassemble_jumpTable w cs sortRanges symAddr s with h | ⟨arch, len, insn, h⟩
  · rw [h] at hm; simp at hm
  · rw [h] at hm
    exact jumpPostPass_ok sortRanges _
      (disasmLoop_ok _ _ _ _ _ _ (fun k e h => by simp at h)) k e hm

theorem placeLevel_spec (mn mx : Nat) (lrs : List (List (Nat × Nat))) :
    (∀ r ∈ lrs.getD (placeLevel mn mx lrs).1 [], overlaps mn mx r = false) ∧
    (mn, mx) ∈ (placeLevel mn mx lrs).2.getD (placeLevel mn mx lrs).1 [] ∧
    ∀ L r, r ∈ lrs.getD L [] → r ∈ (placeLevel mn mx lrs).2.getD L [] := by
  induction lrs with
  | nil =>
    simp [placeLevel]
  | cons lr rest ih =>
    simp only [placeLevel]
    split
    · obtain ⟨a, b, c⟩ := ih
      refine ⟨?_, ?_, ?_⟩
      · simpa using a
      · simpa using b
      · intro L r hr
        cases L with
        | zero => simpa using hr
        | succ n => simpa using c n r (by simpa using hr)
    · next hno =>
      refine ⟨?_, ?_, ?_⟩
      · intro r hr
        simp only [List.getD_cons_zero] at hr
        cases h : overlaps mn mx r with
        | false => rfl
        | true => exact absurd (List.any_eq_true.mpr ⟨r, hr, h⟩) hno
      · simp
      · intro L r hr
        cases L with
        | zero =>
          simp only [List.getD_cons_zero] at hr ⊢
          exact List.mem_append_left _ hr
        | succ n => simpa using hr

theorem jtModify_keys (table : List (Nat × JumpData)) (key : Nat) (f : JumpData → JumpData) :
    (jtModify table key f).map Prod.fst = table.map Prod.fst := by
  unfold jtModify
  rw [List.map_map]
  apply List.map_congr_left
  intro e _
  simp only [Function.comp]
  split <;> rfl

theorem jtFind_none (table : List (Nat × JumpData)) (key : Nat) (h : jtFind table key = none) :
    ∀ e, (key, e) ∉ table := by
  intro e hm
  unfold jtFind at h
  simp only [Option.map_eq_none', List.find?_eq_none] at h
  have := h (key, e) hm
  simp at this

theorem jtFind_some (table : List (Nat × JumpData)) (key : Nat) (e : JumpData)
    (h : jtFind table key = some e) : (key, e) ∈ table := by
  unfold jtFind at h
  simp only [Option.map_eq_some'] at h
  obtain ⟨⟨k0, e0⟩, hf, he⟩ := h
  have hm := List.mem_of_find?_eq_some hf
  have hk := List.find?_some hf
  simp only [beq_iff_eq] at hk he
  subst hk; subst he
  exact hm

theorem keys_unique (table : List (Nat × JumpData)) (hn : (table.map Prod.fst).Nodup)
    (k : Nat) (e1 e2 : JumpData) (h1 : (k, e1) ∈ table) (h2 : (k, e2) ∈ table) : e1 = e2 := by
  induction table with
  | nil => simp at h1
  | cons x xs ih =>
    simp only [List.map_cons, List.nodup_cons] at hn
    rcases List.mem_cons.mp h1 with a | a <;> rcases List.mem_cons.mp h2 with b | b
    · rw [← a] at b; exact ((Prod.mk.inj b).2).symm
    · exfalso; apply hn.1; rw [← a]; exact List.mem_map.mpr ⟨(k, e2), b, rfl⟩
    · exfalso; apply hn.1; rw [← b]; exact List.mem_map.mpr ⟨(k, e1), a, rfl⟩
    · exact ih hn.2 a b

theorem overlaps_symm (a b c d : Nat) : overlaps a b (c, d) = overlaps c d (a, b) := by
  simp only [overlaps, ge_iff_le]
  rw [Bool.and_comm]

theorem assignLevels_sep (vs : List JumpRange) (table : List (Nat × JumpData))
    (lrs : List (List (Nat × Nat))) (m : Nat) (D : List Nat)
    (hn : (table.map Prod.fst).Nodup)
    (hreg : ∀ k e, (k, e) ∈ table → k ∈ D → (e.min, e.max) ∈ lrs.getD e.level [])
    (hsep : ∀ k1 e1 k2 e2, (k1, e1) ∈ table → (k2, e2) ∈ table → k1 ∈ D → k2 ∈ D →
      k1 ≠ k2 → e1.level = e2.level → overlaps e1.min e1.max (e2.min, e2.max) = false) :
    ∀ k1 e1 k2 e2, (k1, e1) ∈ (assignLevels vs table lrs m).1 →
      (k2, e2) ∈ (assignLevels vs table lrs m).1 →
      (k1 ∈ vs.map JumpRange.target ∨ k1 ∈ D) → (k2 ∈ vs.map JumpRange.target ∨ k2 ∈ D) →
      k1 ≠ k2 → e1.level = e2.level → overlaps e1.min e1.max (e2.min, e2.max) = false := by
  induction vs generalizing table lrs m D with
  | nil =>
    intro k1 e1 k2 e2 h1 h2 d1 d2
    simp only [List.map_nil, List.not_mem_nil, false_or] at d1 d2
    exact hsep k1 e1 k2 e2 h1 h2 d1 d2
  | cons v vs ih =>
    simp only [assignLevels]
    split
    · next hf =>
      have hnone := jtFind_none table v.target hf
      have key := ih table lrs m (v.target :: D) hn
        (fun k e h hk => by
          rcases List.mem_cons.mp hk with a | a
          · subst a; exact absurd h (hnone e)
          · exact hreg k e h a)
        (fun k1 e1 k2 e2 h1 h2 d1 d2 => by
          rcases List.mem_cons.mp d1 with a | a
          · subst a; exact absurd h1 (hnone e1)
          · rcases List.mem_cons.mp d2 with b | b
            · subst b; exact absurd h2 (hnone e2)
            · exact hsep k1 e1 k2 e2 h1 h2 a b)
      intro k1 e1 k2 e2 h1 h2 d1 d2
      refine key k1 e1 k2 e2 h1 h2 ?_ ?_
      · simp only [List.map_cons, List.mem_cons] at d1 ⊢; tauto
      · simp only [List.map_cons, List.mem_cons] at d2 ⊢; tauto
    · next e hf =>
      have hmem := jtFind_some table v.target e hf
      obtain ⟨pa, pb, pc⟩ := placeLevel_spec e.min e.max lrs
      have key := ih (jtModify table v.target
          (fun d => { d with level := (placeLevel e.min e.max lrs).1 }))
        (placeLevel e.min e.max lrs).2
        (if (placeLevel e.min e.max lrs).1 > m then (placeLevel e.min e.max lrs).1 else m)
        (v.target :: D)
        (by rw [jtModify_keys]; exact hn)
        (fun k e' h hk => by
          rw [mem_jtModify] at h
          obtain ⟨e0, h0, he⟩ := h
          by_cases c : k = v.target
          · subst c
            have := keys_unique table hn _ _ _ h0 hmem
            subst this
            simp only [if_true] at he
            subst he
            exact pb
          · simp only [c, if_false] at he
            subst he
            rcases List.mem_cons.mp hk with a | a
            · exact absurd a c
            · exact pc _ _ (hreg k e' h0 a))
        (fun k1 e1 k2 e2 h1 h2 d1 d2 hne hl => by
          rw [mem_jtModify] at h1 h2
          obtain ⟨a1, m1, he1⟩ := h1
          obtain ⟨a2, m2, he2⟩ := h2
          by_cases c1 : k1 = v.target
          · have c2 : k2 ≠ v.target := fun c => hne (c1.trans c.symm)
            subst c1
            have := keys_unique table hn _ _ _ m1 hmem
            subst this
            simp only [if_true] at he1
            simp only [c2, if_false] at he2
            subst he1; subst he2
            have d2' : k2 ∈ D := by
              rcases List.mem_cons.mp d2 with a | a
              · exact absurd a c2
              · exact a
            have := hreg k2 e2 m2 d2'
            simp only at hl
            rw [← hl] at this
            exact pa _ this
          · simp only [c1, if_false] at he1
            subst he1
            have d1' : k1 ∈ D := by
              rcases List.mem_cons.mp d1 with a | a
              · exact absurd a c1
              · exact a
            by_cases c2 : k2 = v.target
            · subst c2
              have := keys_unique table hn _ _ _ m2 hmem
              subst this
              simp only [if_true] at he2
              subst he2
              have := hreg k1 e1 m1 d1'
              simp only at hl
              rw [hl] at this
              rw [overlaps_symm]
              exact pa _ this
            · simp only [c2, if_false] at he2
              subst he2
              have d2' : k2 ∈ D := by
                rcases List.mem_cons.mp d2 with a | a
                · exact absurd a c2
                · exact a
              exact hsep k1 e1 k2 e2 m1 m2 d1' d2' hne hl)
      intro k1 e1 k2 e2 h1 h2 d1 d2
      refine key k1 e1 k2 e2 h1 h2 ?_ ?_
      · simp only [List.map_cons, List.mem_cons] at d1 ⊢; tauto
      · simp only [List.map_cons, List.mem_cons] at d2 ⊢; tauto

theorem recordJump_nodup (table : List (Nat × JumpData)) (jumpAddr addr : Nat)
    (hn : (table.map Prod.fst).Nodup) :
    ((recordJump table jumpAddr addr).map Prod.fst).Nodup := by
  unfold recordJump
  lift_lets
  extract_lets mn mx
  split
  · next hf =>
    have hnone := jtFind_none table jumpAddr hf
    rw [List.map_append, List.nodup_append]
    refine ⟨hn, by simp, ?_⟩
    intro a ha hb
    simp only [List.map_cons, List.map_nil, List.mem_singleton] at hb
    subst hb
    obtain ⟨⟨k, e⟩, hm, hk⟩ := List.mem_map.mp ha
    simp only at hk
    subst hk
    exact hnone e hm
  · rw [jtModify_keys]; exact hn

theorem disasmLoop_nodup (arch : CpuArch) (symAddr len : Nat) (insn : List Insn)
    (ops : List Insn) (acc : DisasmAcc) (hn : (acc.jumpTable.map Prod.fst).Nodup) :
    ((ops.foldl (disasmStep arch symAddr len insn) acc).jumpTable.map Prod.fst).Nodup := by
  induction ops generalizing acc with
  | nil => exact hn
  | cons op ops ih =>
    simp only [List.foldl_cons]
    apply ih
    unfold disasmStep
    lift_lets
    extract_lets mk jumpAddr fit
    split
    · split
      · split
        · exact recordJump_nodup _ _ _ hn
        · exact hn
      · exact hn
    · exact hn

theorem jumpPostPass_sep (sortRanges : List JumpRange → List JumpRange)
    (hperm : ∀ l, (sortRanges l).Perm l) (table : List (Nat × JumpData))
    (hn : (table.map Prod.fst).Nodup) :
    ∀ k1 e1 k2 e2, (k1, e1) ∈ (jumpPostPass sortRanges table).1 →
      (k2, e2) ∈ (jumpPostPass sortRanges table).1 → k1 ≠ k2 → e1.level = e2.level →
      overlaps e1.min e1.max (e2.min, e2.max) = false := by
  intro k1 e1 k2 e2 h1 h2 hne hl
  unfold jumpPostPass at h1 h2
  split at h1
  · next he =>
    rw [List.isEmpty_iff] at he
    subst he
    simp at h1
  · rw [if_neg (by assumption)] at h2
    simp only at h1 h2
    have hkeys : ∀ k e, (k, e) ∈ (assignLevels (sortRanges (jumpRanges (table.map (fun e =>
        (e.1, { e.2 with source := e.2.source.insertionSort (fun a b => a ≤ b) })))))
        (table.map (fun e =>
        (e.1, { e.2 with source := e.2.source.insertionSort (fun a b => a ≤ b) }))) [] 0).1 →
        k ∈ (sortRanges (jumpRanges (table.map (fun e =>
        (e.1, { e.2 with source := e.2.source.insertionSort (fun a b => a ≤ b) }))))).map
          JumpRange.target := by
      intro k e h
      obtain ⟨e0, h0, _⟩ := assignLevels_entries _ _ _ _ k e h
      rw [List.mem_map]
      refine ⟨⟨k, e0.max - e0.min⟩, ?_, rfl⟩
      rw [(hperm _).mem_iff]
      unfold jumpRanges
      exact List.mem_map.mpr ⟨(k, e0), h0, rfl⟩
    refine assignLevels_sep _ _ [] 0 [] ?_ (fun k e _ hk => by simp at hk)
      (fun k1 e1 k2 e2 _ _ hk => by simp at hk) k1 e1 k2 e2 h1 h2
      (Or.inl (hkeys k1 e1 h1)) (Or.inl (hkeys k2 e2 h2)) hne hl
    rw [List.map_map]
    exact hn

/-! ## Selection -/

theorem mem_foldl_setEmplace (l : List Nat) (acc : List Nat) (a : Nat) :
    a ∈ l.foldl setEmplace acc ↔ a ∈ acc ∨ a ∈ l := by
  induction l generalizing acc with
  | nil => simp
  | cons x xs ih =>
    simp only [List.foldl_cons]
    rw [ih]
    unfold setEmplace
    split
    · next h =>
      simp only [List.contains_iff_exists_mem_beq, beq_iff_eq, exists_eq_right'] at h
      simp only [List.mem_cons]
      constructor
      · rintro (h1 | h1)
        · exact Or.inl h1
        · exact Or.inr (Or.inr h1)
      · rintro (h1 | h1 | h1)
        · exact Or.inl h1
        · subst h1; exact Or.inl h
        · exact Or.inr h1
    · simp only [List.mem_append, List.mem_singleton, List.mem_cons]
      tauto

theorem nodup_foldl_setEmplace (l : List Nat) (acc : List Nat) (h : acc.Nodup) :
    (l.foldl setEmplace acc).Nodup := by
  induction l generalizing acc with
  | nil => exact h
  | cons x xs ih =>
    simp only [List.foldl_cons]
    apply ih
    unfold setEmplace
    split
    · exact h
    · next hc =>
      simp only [List.contains_iff_exists_mem_beq, beq_iff_eq, exists_eq_right'] at hc
      rw [List.nodup_append]
      refine ⟨h, by simp, ?_⟩
      intro a ha hb
      simp only [List.mem_singleton] at hb
      subst hb
      exact hc ha

theorem inSymbol_iff (s : View) (h : s.m_baseAddr + s.m_codeLen < 2 ^ 64) (v : Nat) :
    inSymbol s v = true ↔ s.m_baseAddr ≤ v ∧ v < s.m_baseAddr + s.m_codeLen := by
  have e : (s.m_baseAddr + s.m_codeLen) % 2 ^ 64 = s.m_baseAddr + s.m_codeLen :=
    Nat.mod_eq_of_lt h
  simp only [inSymbol, e, ge_iff_le, Bool.and_eq_true, decide_eq_true_eq]

theorem SelectLine_selected (w : Worker) (line : Nat) (changeAsmLine : Bool)
    (targetAddr : Nat) (s : View) (hs : s.m_symAddr ≠ 0) :
    (SelectLine w line changeAsmLine targetAddr s).m_selectedAddresses =
      match w.GetAddressesForLocation s.m_fileStringIdx line with
      | none => []
      | some addr => (addr.filter (inSymbol s)).foldl setEmplace [] := by
  have hs' : (s.m_symAddr == 0) = false := by simpa using hs
  simp only [SelectLine, hs', SelectAsmLines]
  cases w.GetAddressesForLocation s.m_fileStringIdx line with
  | none => rfl
  | some addr =>
    simp only [Bool.false_eq_true, if_false]
    have e : inSymbol { s with m_selectedLine := line } = inSymbol s := rfl
    rw [e]

/-! ## Sample statistics -/

theorem GatherIpStats_eq (f : Option String) (w : Worker) (addr : Nat) (a : IpStats) :
    GatherIpStats f w addr a =
      ((w.GetSymbolInstructionPointers addr).getD []).foldl (gatherStep f w) a := by
  unfold GatherIpStats
  cases w.GetSymbolInstructionPointers addr <;> rfl

theorem gatherInline_eq (f : Option String) (w : Worker) (ps : List Nat) (a : IpStats) :
    ps.foldl (fun acc p => GatherIpStats f w p acc) a =
      (ps.foldr (fun p rest => (w.GetSymbolInstructionPointers p).getD [] ++ rest) []).foldl
        (gatherStep f w) a := by
  induction ps generalizing a with
  | nil => rfl
  | cons p ps ih =>
    simp only [List.foldl_cons, List.foldr_cons, List.foldl_append]
    rw [ih, GatherIpStats_eq]

theorem viewIpStats_eq (w : Worker) (s : View) :
    viewIpStats w s =
      if s.m_calcInlineStats then (viewSamples w s).foldl (gatherStep s.m_file w) IpStats.empty
      else
        { (viewSamples w s).foldl (gatherStep s.m_file w) IpStats.empty with
          iptotalSrc := ((viewSamples w s).foldl (gatherStep s.m_file w)
            IpStats.empty).iptotalAsm } := by
  unfold viewIpStats viewSamples
  split
  · rw [GatherIpStats_eq]
  · simp only [gatherInline_eq]
    simp only [GatherIpStats_eq, List.foldl_append]

theorem gatherSrc_asm (line count : Nat) (a : IpStats) :
    (gatherSrc line count a).ipcountAsm = a.ipcountAsm ∧
    (gatherSrc line count a).iptotalAsm = a.iptotalAsm := by
  unfold gatherSrc
  split <;> exact ⟨rfl, rfl⟩

theorem gatherStep_asm (f : Option String) (w : Worker) (a : IpStats) (ip : Nat × Nat) :
    (gatherStep f w a ip).ipcountAsm = mapEmplace a.ipcountAsm (w.GetCanonicalPointer ip.1) ip.2 ∧
    (gatherStep f w a ip).iptotalAsm = (a.iptotalAsm + ip.2) % 2 ^ 32 := by
  unfold gatherStep
  cases f with
  | none => exact ⟨rfl, rfl⟩
  | some file =>
    cases w.GetCallstackFrame ip.1 with
    | none => exact ⟨rfl, rfl⟩
    | some frame =>
      simp only
      split
      · simp only [gatherSrc_asm]
        exact ⟨trivial, trivial⟩
      · exact ⟨rfl, rfl⟩

theorem mapFind_none (map : List (Nat × Nat)) (key : Nat) (h : mapFind map key = none) :
    key ∉ map.map Prod.fst := by
  intro hm
  obtain ⟨⟨k, v⟩, hk, e⟩ := List.mem_map.mp hm
  simp only at e
  subst e
  unfold mapFind at h
  simp only [Option.map_eq_none', List.find?_eq_none] at h
  have := h (k, v) hk
  simp at this

theorem mapFind_of_not_mem (map : List (Nat × Nat)) (key : Nat)
    (h : key ∉ map.map Prod.fst) : mapFind map key = none := by
  unfold mapFind
  simp only [Option.map_eq_none', List.find?_eq_none]
  intro x hx
  simp only [beq_iff_eq]
  intro e
  exact h (List.mem_map.mpr ⟨x, hx, e⟩)

theorem valueSum_append (m : List (Nat × Nat)) (k v : Nat) :
    valueSum (m ++ [(k, v)]) = valueSum m + v := by
  simp [valueSum]

theorem gatherAsm_total (f : Option String) (w : Worker) (samples : List (Nat × Nat))
    (a : IpStats) :
    (samples.foldl (gatherStep f w) a).iptotalAsm % 2 ^ 32 =
      (a.iptotalAsm + countSum samples) % 2 ^ 32 := by
  induction samples generalizing a with
  | nil => simp [countSum]
  | cons ip ips ih =>
    simp only [List.foldl_cons]
    rw [ih, (gatherStep_asm f w a ip).2]
    simp only [countSum, List.map_cons, List.sum_cons]
    omega

theorem gatherAsm_total_lt (f : Option String) (w : Worker) (samples : List (Nat × Nat))
    (a : IpStats) (h : a.iptotalAsm < 2 ^ 32) :
    (samples.foldl (gatherStep f w) a).iptotalAsm < 2 ^ 32 := by
  induction samples generalizing a with
  | nil => exact h
  | cons ip ips ih =>
    simp only [List.foldl_cons]
    apply ih
    rw [(gatherStep_asm f w a ip).2]
    exact Nat.mod_lt _ (by decide)

theorem gatherAsm_count (f : Option String) (w : Worker) (samples : List (Nat × Nat))
    (a : IpStats)
    (hd : (a.ipcountAsm.map Prod.fst ++
      samples.map (fun ip => w.GetCanonicalPointer ip.1)).Nodup) :
    valueSum (samples.foldl (gatherStep f w) a).ipcountAsm =
      valueSum a.ipcountAsm + countSum samples := by
  induction samples generalizing a with
  | nil => simp [countSum]
  | cons ip ips ih =>
    simp only [List.foldl_cons]
    have hnew : w.GetCanonicalPointer ip.1 ∉ a.ipcountAsm.map Prod.fst := by
      intro hm
      rw [List.nodup_append] at hd
      exact hd.2.2 hm (by simp)
    have hc : (gatherStep f w a ip).ipcountAsm =
        a.ipcountAsm ++ [(w.GetCanonicalPointer ip.1, ip.2)] := by
      rw [(gatherStep_asm f w a ip).1]
      unfold mapEmplace
      rw [mapFind_of_not_mem _ _ hnew]
    rw [ih]
    · rw [hc, valueSum_append]
      simp only [countSum, List.map_cons, List.sum_cons]
      omega
    · rw [hc]
      simp only [List.map_append, List.map_cons, List.map_nil, List.append_assoc,
        List.singleton_append]
      simpa using hd

theorem mapSet_keys (m : List (Nat × Nat)) (k v : Nat) :
    (mapSet m k v).map Prod.fst = m.map Prod.fst := by
  unfold mapSet
  rw [List.map_map]
  apply List.map_congr_left
  intro e _
  simp only [Function.comp]
  split <;> rfl

theorem mapSet_of_not_mem (m : List (Nat × Nat)) (k v : Nat) (h : k ∉ m.map Prod.fst) :
    mapSet m k v = m := by
  unfold mapSet
  conv_rhs => rw [← List.map_id m]
  apply List.map_congr_left
  intro e he
  have : e.1 ≠ k := fun c => h (List.mem_map.mpr ⟨e, he, c⟩)
  simp [this]

theorem valueSum_mapSet (m : List (Nat × Nat)) (hn : (m.map Prod.fst).Nodup) (k old v : Nat)
    (hf : mapFind m k = some old) : valueSum (mapSet m k v) + old = valueSum m + v := by
  induction m with
  | nil => simp [mapFind] at hf
  | cons x xs ih =>
    simp only [List.map_cons, List.nodup_cons] at hn
    by_cases c : x.1 = k
    · have ho : old = x.2 := by
        simp [mapFind, List.find?_cons, c] at hf
        exact hf.symm
      have hx : mapSet (x :: xs) k v = (x.1, v) :: xs := by
        have := mapSet_of_not_mem xs k v (c ▸ hn.1)
        unfold mapSet at this ⊢
        simp only [List.map_cons, this, c, beq_self_eq_true, if_true]
      rw [hx, ho]
      simp only [valueSum, List.map_cons, List.sum_cons]
      omega
    · have hf' : mapFind xs k = some old := by
        simpa [mapFind, List.find?_cons, c] using hf
      have hx : mapSet (x :: xs) k v = x :: mapSet xs k v := by
        unfold mapSet
        simp [c]
      have := ih hn.2 hf'
      rw [hx]
      simp only [valueSum, List.map_cons, List.sum_cons] at this ⊢
      omega

theorem gatherSrc_inv (line count : Nat) (a : IpStats) (h : SrcInv a) :
    SrcInv (gatherSrc line count a) ∧
      valueSum (gatherSrc line count a).ipcountSrc ≤ valueSum a.ipcountSrc + count := by
  obtain ⟨hn, ht⟩ := h
  unfold gatherSrc
  split
  · next hf =>
    have hnew := mapFind_none _ _ hf
    refine ⟨⟨?_, ?_⟩, ?_⟩
    · simp only [List.map_append, List.map_cons, List.map_nil]
      rw [List.nodup_append]
      refine ⟨hn, by simp, ?_⟩
      intro x hx hy
      simp only [List.mem_singleton] at hy
      subst hy
      exact hnew hx
    · simp only [valueSum_append, ht]
      omega
    · simp only [valueSum_append]
      exact Nat.le_refl _
  · next old hf =>
    have hv := valueSum_mapSet a.ipcountSrc hn line old ((old + count) % 2 ^ 32) hf
    refine ⟨⟨?_, ?_⟩, ?_⟩
    · simp only [mapSet_keys]; exact hn
    · simp only [ht]
      omega
    · simp only
      have := Nat.mod_le (old + count) (2 ^ 32)
      omega

theorem gatherStep_src (f : Option String) (w : Worker) (a : IpStats) (ip : Nat × Nat)
    (h : SrcInv a) :
    SrcInv (gatherStep f w a ip) ∧
      valueSum (gatherStep f w a ip).ipcountSrc ≤ valueSum a.ipcountSrc + ip.2 := by
  unfold gatherStep
  cases f with
  | none => exact ⟨h, Nat.le_add_right _ _⟩
  | some file =>
    cases w.GetCallstackFrame ip.1 with
    | none => exact ⟨h, Nat.le_add_right _ _⟩
    | some frame =>
      simp only
      split
      · exact gatherSrc_inv frame.2 ip.2 a h
      · exact ⟨h, Nat.le_add_right _ _⟩

theorem gatherLoop_src (f : Option String) (w : Worker) (samples : List (Nat × Nat))
    (a : IpStats) (h : SrcInv a) :
    SrcInv (samples.foldl (gatherStep f w) a) ∧
      valueSum (samples.foldl (gatherStep f w) a).ipcountSrc ≤
        valueSum a.ipcountSrc + countSum samples := by
  induction samples generalizing a with
  | nil => exact ⟨h, Nat.le_add_right _ _⟩
  | cons ip ips ih =>
    simp only [List.foldl_cons]
    obtain ⟨h1, h2⟩ := gatherStep_src f w a ip h
    obtain ⟨h3, h4⟩ := ih _ h1
    refine ⟨h3, ?_⟩
    simp only [countSum, List.map_cons, List.sum_cons] at h4 ⊢
    omega

/-! ## Jump table claims -/

/-- C1: after `Disassemble`, any two jump-table entries with distinct targets that were
assigned the same level have closed intervals `[min, max]` with no common point. The
order in which the sort hands the ranges to the lane loop does not matter: the sort is
any function that permutes its input. -/
theorem Disassemble_levels_disjoint (w : Worker) (cs : Decoder)
    (sortRanges : List JumpRange → List JumpRange) (hperm : ∀ l, (sortRanges l).Perm l)
    (symAddr : Nat) (s : View) (T1 T2 : Nat) (e1 e2 : JumpData)
    (h1 : (T1, e1) ∈ (Disassemble w cs sortRanges symAddr s).2.m_jumpTable)
    (h2 : (T2, e2) ∈ (Disassemble w cs sortRanges symAddr s).2.m_jumpTable)
    (hne : T1 ≠ T2) (hl : e1.level = e2.level) :
    ¬ ∃ x, e1.min ≤ x ∧ x ≤ e1.max ∧ e2.min ≤ x ∧ x ≤ e2.max := by
  rcases Disassemble_jumpTable w cs sortRanges symAddr s with h | ⟨arch, len, insn, h⟩
  · rw [h] at h1; simp at h1
  · rw [h] at h1 h2
    have := jumpPostPass_sep sortRanges hperm _
      (disasmLoop_nodup arch symAddr len insn insn ⟨[], [], []⟩ (by simp))
      T1 e1 T2 e2 h1 h2 hne hl
    rintro ⟨x, a, b, c, d⟩
    simp only [overlaps, ge_iff_le, Bool.and_eq_false_imp, decide_eq_true_eq,
      decide_eq_false_iff_not] at this
    have := this (Nat.le_trans a d)
    omega

/-- Three jumps with the intervals `[0x100A, 0x1014]`, `[0x101E, 0x1028]` and
`[0x1000, 0x1064]`: the two short ones share level 0, the long one has level 1, and the
two at level 0 have no common point. -/
theorem Disassemble_levels_disjoint_witness :
    (Disassemble exampleWorker exampleDecoder sortByLen 0x1000 exampleView).2.m_jumpTable =
      [(0x100A, ⟨0x100A, 0x1014, 0, [0x1014]⟩), (0x1028, ⟨0x101E, 0x1028, 0, [0x101E]⟩),
       (0x1000, ⟨0x1000, 0x1064, 1, [0x1064]⟩)] ∧
    ¬ ∃ x, 0x100A ≤ x ∧ x ≤ 0x1014 ∧ 0x101E ≤ x ∧ x ≤ 0x1028 :=
  ⟨by decide,
   Disassemble_levels_disjoint exampleWorker exampleDecoder sortByLen
    (fun l => List.perm_insertionSort _ l) 0x1000 exampleView 0x100A 0x1028
    ⟨0x100A, 0x1014, 0, [0x1014]⟩ ⟨0x101E, 0x1028, 0, [0x101E]⟩
    (by decide) (by decide) (by decide) rfl⟩

/-- C2: after `Disassemble`, every jump-table entry keyed by the target `T` with source
list `S` has `min = min(T, min S)` and `max = max(T, max S)`, whatever the number and
order of the sources; hence `min ≤ T ≤ max` and `min ≤ s ≤ max` for every source `s`. -/
theorem Disassemble_entry_min_max (w : Worker) (cs : Decoder)
    (sortRanges : List JumpRange → List JumpRange) (symAddr : Nat) (s : View)
    (T : Nat) (e : JumpData) :
    (T, e) ∈ (Disassemble w cs sortRanges symAddr s).2.m_jumpTable →
      e.min = e.source.foldl min T ∧ e.max = e.source.foldl max T ∧
      e.min ≤ T ∧ T ≤ e.max ∧ ∀ x ∈ e.source, e.min ≤ x ∧ x ≤ e.max := by
  intro hm
  obtain ⟨o1, o2, o3, o4⟩ := Disassemble_table_ok w cs sortRanges symAddr s T e hm
  refine ⟨o1, o2, o3, o4, fun x hx => ?_⟩
  rw [o1, o2]
  exact ⟨(foldl_min_le e.source T).2 x hx, (le_foldl_max e.source T).2 x hx⟩

/-- The instruction at `0x1004` is jumped to from `0x1000` and from `0x1008`: its entry has
`min = 0x1000`, `max = 0x1008` and both sources. -/
theorem Disassemble_entry_min_max_witness :
    (Disassemble exampleWorker exampleDecoderTwoSources sortByLen 0x1000
        exampleView).2.m_jumpTable = [(0x1004, ⟨0x1000, 0x1008, 0, [0x1000, 0x1008]⟩)] ∧
    (0x1000 = [0x1000, 0x1008].foldl min 0x1004 ∧ 0x1008 = [0x1000, 0x1008].foldl max 0x1004 ∧
      0x1000 ≤ 0x1004 ∧ 0x1004 ≤ 0x1008 ∧ ∀ x ∈ [0x1000, 0x1008], 0x1000 ≤ x ∧ x ≤ 0x1008) :=
  ⟨by decide,
   Disassemble_entry_min_max exampleWorker exampleDecoderTwoSources sortByLen 0x1000
    exampleView 0x1004 ⟨0x1000, 0x1008, 0, [0x1000, 0x1008]⟩ (by decide)⟩

/-! ## Selection claims -/

/-- C7: for a loaded symbol (`m_symAddr ≠ 0`) whose range `[base, base + code_len)` lies
in the 64-bit address space, after `SelectLine` the set `m_selectedAddresses` is exactly
the set of the addresses of `(m_fileStringIdx, line)` that lie in the range; it is empty
when the capture has no address list for the line, and it has no duplicates. -/
theorem SelectLine_selected_addresses (w : Worker) (line : Nat) (changeAsmLine : Bool)
    (targetAddr : Nat) (s : View) (hs : s.m_symAddr ≠ 0)
    (hr : s.m_baseAddr + s.m_codeLen < 2 ^ 64) :
    (∀ a, a ∈ (SelectLine w line changeAsmLine targetAddr s).m_selectedAddresses ↔
      ∃ addr, w.GetAddressesForLocation s.m_fileStringIdx line = some addr ∧ a ∈ addr ∧
        s.m_baseAddr ≤ a ∧ a < s.m_baseAddr + s.m_codeLen) ∧
    (w.GetAddressesForLocation s.m_fileStringIdx line = none →
      (SelectLine w line changeAsmLine targetAddr s).m_selectedAddresses = []) ∧
    (SelectLine w line changeAsmLine targetAddr s).m_selectedAddresses.Nodup ∧
    (SelectLine w line changeAsmLine targetAddr s).m_selectedLine = line := by
  rw [SelectLine_selected w line changeAsmLine targetAddr s hs]
  refine ⟨?_, ?_, ?_, ?_⟩
  · intro a
    cases w.GetAddressesForLocation s.m_fileStringIdx line with
    | none => simp
    | some addr =>
      simp only [mem_foldl_setEmplace, List.not_mem_nil, false_or, List.mem_filter,
        inSymbol_iff s hr, Option.some.injEq, exists_eq_left']
  · intro h
    rw [h]
  · cases w.GetAddressesForLocation s.m_fileStringIdx line with
    | none => exact List.nodup_nil
    | some addr => exact nodup_foldl_setEmplace _ _ List.nodup_nil
  · have hs' : (s.m_symAddr == 0) = false := by simpa using hs
    simp only [SelectLine, hs', SelectAsmLines]
    cases w.GetAddressesForLocation s.m_fileStringIdx line with
    | none => rfl
    | some addr =>
      simp only [Bool.false_eq_true, if_false]
      split
      · split
        · rfl
        · split <;> rfl
      · rfl

/-- The scenario of the specification: the addresses `[0x1003, 0x1050]` of line 42 with
base `0x1000` and code length `0x40` select exactly `0x1003`. -/
theorem SelectLine_selected_addresses_witness :
    (SelectLine exampleWorker 42 true 0 exampleView).m_selectedAddresses = [0x1003] ∧
    (∀ a, a ∈ (SelectLine exampleWorker 42 true 0 exampleView).m_selectedAddresses ↔
      ∃ addr, exampleWorker.GetAddressesForLocation 5 42 = some addr ∧ a ∈ addr ∧
        0x1000 ≤ a ∧ a < 0x1000 + 0x40) :=
  ⟨by decide,
   (SelectLine_selected_addresses exampleWorker 42 true 0 exampleView (by decide)
      (by decide)).1⟩

/-- C8 (amended): for a loaded symbol whose range lies in the 64-bit address space.
When the capture has an address list for the line: with `changeAsmLine` and a non-zero
`targetAddr`, `m_targetAddr` becomes `targetAddr`; with `changeAsmLine` and no target
(`0`), it becomes the first address of the list that lies in `[base, base + code_len)`
and stays as it was when there is none; without `changeAsmLine` it stays as it was.
When the capture has no address list for the line, `m_targetAddr` stays as it was in
every case. -/
theorem SelectLine_target_addr (w : Worker) (line : Nat) (changeAsmLine : Bool)
    (targetAddr : Nat) (s : View) (hs : s.m_symAddr ≠ 0)
    (hr : s.m_baseAddr + s.m_codeLen < 2 ^ 64) :
    (w.GetAddressesForLocation s.m_fileStringIdx line = none →
      (SelectLine w line changeAsmLine targetAddr s).m_targetAddr = s.m_targetAddr) ∧
    (∀ addr, w.GetAddressesForLocation s.m_fileStringIdx line = some addr →
      (changeAsmLine = true → targetAddr ≠ 0 →
        (SelectLine w line changeAsmLine targetAddr s).m_targetAddr = targetAddr) ∧
      (changeAsmLine = true → targetAddr = 0 →
        (SelectLine w line changeAsmLine targetAddr s).m_targetAddr =
          (addr.find? (fun a =>
            decide (s.m_baseAddr ≤ a ∧ a < s.m_baseAddr + s.m_codeLen))).getD s.m_targetAddr) ∧
      (changeAsmLine = false →
        (SelectLine w line changeAsmLine targetAddr s).m_targetAddr = s.m_targetAddr)) := by
  have hs' : (s.m_symAddr == 0) = false := by simpa using hs
  have hin : inSymbol { s with m_selectedLine := line } =
      fun a => decide (s.m_baseAddr ≤ a ∧ a < s.m_baseAddr + s.m_codeLen) := by
    funext a
    have := inSymbol_iff s hr a
    rw [Bool.eq_iff_iff]
    simpa using this
  refine ⟨?_, ?_⟩
  · intro h
    simp only [SelectLine, hs', SelectAsmLines, h]
    rfl
  · intro addr h
    refine ⟨?_, ?_, ?_⟩
    · intro hc ht
      have ht' : (targetAddr != 0) = true := by simpa using ht
      simp only [SelectLine, hs', SelectAsmLines, h, hc, ht']
      rfl
    · intro hc ht
      subst ht
      simp only [SelectLine, hs', SelectAsmLines, h, hc, hin]
      simp only [Bool.false_eq_true, if_false, if_true, bne_self_eq_false]
      cases addr.find? (fun a =>
          decide (s.m_baseAddr ≤ a ∧ a < s.m_baseAddr + s.m_codeLen)) with
      | none => rfl
      | some v => rfl
    · intro hc
      simp only [SelectLine, hs', SelectAsmLines, h, hc]
      rfl

/-- The scenario of the specification: line 42 with the addresses `[0x1003, 0x1050]`,
base `0x1000`, code length `0x40`, `changeAsmLine` and no target: `m_targetAddr` becomes
`0x1003`. -/
theorem SelectLine_target_addr_witness :
    (SelectLine exampleWorker 42 true 0 exampleView).m_targetAddr =
      ([0x1003, 0x1050].find? (fun a =>
        decide (0x1000 ≤ a ∧ a < 0x1000 + 0x40))).getD 0 ∧
    (SelectLine exampleWorker 42 true 0 exampleView).m_targetAddr = 0x1003 :=
  ⟨((SelectLine_target_addr exampleWorker 42 true 0 exampleView (by decide)
      (by decide)).2 [0x1003, 0x1050] rfl).2.1 rfl rfl,
   by decide⟩

/-- C8, as stated, fails when the capture has no address list for the line: line 7 of
the example has none, and `SelectLine` with `changeAsmLine` and the target `0x1003`
leaves `m_targetAddr` at its old value `0`. -/
theorem SelectLine_target_addr_not_set :
    exampleView.m_symAddr ≠ 0 ∧
    exampleWorker.GetAddressesForLocation exampleView.m_fileStringIdx 7 = none ∧
    (SelectLine exampleWorker 7 true 0x1003 exampleView).m_targetAddr = 0 := by
  decide

/-! ## Sample statistics claims -/

/-- C9 (amended): after `RenderSymbolView` has gathered the statistics, in either mode,
over samples whose canonical addresses are pairwise distinct (the source asserts that
no address is met twice), `iptotalAsm` is the sum of the values stored in `ipcountAsm`
modulo `2^32`, and equals that sum when the counts of the samples add up to less than
`2^32`. -/
theorem viewIpStats_total_asm (w : Worker) (s : View)
    (hd : ((viewSamples w s).map (fun ip => w.GetCanonicalPointer ip.1)).Nodup) :
    (viewIpStats w s).iptotalAsm = valueSum (viewIpStats w s).ipcountAsm % 2 ^ 32 ∧
    (countSum (viewSamples w s) < 2 ^ 32 →
      (viewIpStats w s).iptotalAsm = valueSum (viewIpStats w s).ipcountAsm) := by
  have h1 := gatherAsm_total s.m_file w (viewSamples w s) IpStats.empty
  have h2 := gatherAsm_total_lt s.m_file w (viewSamples w s) IpStats.empty (by decide)
  have h3 := gatherAsm_count s.m_file w (viewSamples w s) IpStats.empty (by simpa using hd)
  have ea : (viewIpStats w s).iptotalAsm =
      ((viewSamples w s).foldl (gatherStep s.m_file w) IpStats.empty).iptotalAsm := by
    rw [viewIpStats_eq]; split <;> rfl
  have ec : (viewIpStats w s).ipcountAsm =
      ((viewSamples w s).foldl (gatherStep s.m_file w) IpStats.empty).ipcountAsm := by
    rw [viewIpStats_eq]; split <;> rfl
  rw [ea, ec, h3]
  rw [Nat.mod_eq_of_lt h2] at h1
  simp only [IpStats.empty, valueSum, List.map_nil, List.sum_nil, Nat.zero_add] at h1 ⊢
  refine ⟨h1, fun hlt => ?_⟩
  rw [h1, Nat.mod_eq_of_lt hlt]

/-- The scenario of the specification: `ipcountAsm = {0x1000: 3, 0x1003: 1}` and
`iptotalAsm = 4`. -/
theorem viewIpStats_total_asm_witness :
    (viewIpStats exampleWorker exampleView).ipcountAsm = [(0x1000, 3), (0x1003, 1)] ∧
    (viewIpStats exampleWorker exampleView).iptotalAsm = 4 ∧
    (viewIpStats exampleWorker exampleView).iptotalAsm =
      valueSum (viewIpStats exampleWorker exampleView).ipcountAsm % 2 ^ 32 :=
  ⟨by decide, by decide, (viewIpStats_total_asm exampleWorker exampleView (by decide)).1⟩

/-- C9, as stated, fails. With the counts `0xFFFFFFFF` and `1` the 32-bit total wraps to
`0` while the stored values sum to `2^32`. With two samples of one canonical address
(which the source asserts not to happen, so only a build without assertions gets this
far) the second count enters the total but not the map: total `4`, stored sum `3`. -/
theorem viewIpStats_total_asm_fails :
    ((viewIpStats overflowWorker exampleView).iptotalAsm = 0 ∧
      valueSum (viewIpStats overflowWorker exampleView).ipcountAsm = 4294967296) ∧
    ((viewIpStats aliasWorker exampleView).iptotalAsm = 4 ∧
      valueSum (viewIpStats aliasWorker exampleView).ipcountAsm = 3) := by
  decide

/-- C10 (amended): in inline-exclusive mode (`m_calcInlineStats` set) the `iptotalSrc`
handed to the renderer is the sum of the values stored in `ipcountSrc` modulo `2^32`,
and equals that sum when the counts of the samples add up to less than `2^32`. In
whole-function mode `iptotalSrc` is `iptotalAsm`, whatever `ipcountSrc` holds. -/
theorem viewIpStats_total_src (w : Worker) (s : View) :
    (s.m_calcInlineStats = true →
      (viewIpStats w s).iptotalSrc = valueSum (viewIpStats w s).ipcountSrc % 2 ^ 32 ∧
      (countSum (viewSamples w s) < 2 ^ 32 →
        (viewIpStats w s).iptotalSrc = valueSum (viewIpStats w s).ipcountSrc)) ∧
    (s.m_calcInlineStats = false →
      (viewIpStats w s).iptotalSrc = (viewIpStats w s).iptotalAsm) := by
  refine ⟨fun hc => ?_, fun hc => ?_⟩
  · obtain ⟨⟨_, h1⟩, h2⟩ := gatherLoop_src s.m_file w (viewSamples w s) IpStats.empty
      ⟨by simp [IpStats.empty], by simp [IpStats.empty, valueSum]⟩
    rw [viewIpStats_eq, if_pos hc]
    refine ⟨h1, fun hlt => ?_⟩
    rw [h1]
    apply Nat.mod_eq_of_lt
    simp only [IpStats.empty, valueSum, List.map_nil, List.sum_nil, Nat.zero_add] at h2
    exact Nat.lt_of_le_of_lt h2 hlt
  · rw [viewIpStats_eq]
    simp [hc]

/-- The example in inline-exclusive mode: one of the two samples resolves to the loaded
file, `ipcountSrc = {42: 3}` and `iptotalSrc = 3`. -/
theorem viewIpStats_total_src_witness :
    (viewIpStats exampleWorker exampleView).ipcountSrc = [(42, 3)] ∧
    (viewIpStats exampleWorker exampleView).iptotalSrc = 3 ∧
    (viewIpStats exampleWorker exampleView).iptotalSrc =
      valueSum (viewIpStats exampleWorker exampleView).ipcountSrc % 2 ^ 32 :=
  ⟨by decide, by decide, ((viewIpStats_total_src exampleWorker exampleView).1 rfl).1⟩

/-- C10, as stated, fails in whole-function mode: the sample at `0x1003` resolves to
another file, so `ipcountSrc = {42: 3}` sums to `3`, while `iptotalSrc` is overwritten
with `iptotalAsm = 4`. In inline-exclusive mode the equality holds up to the width of
the counter only: with the counts `0xFFFFFFFF` and `1` on two lines the stored values
sum to `2^32` and the 32-bit `iptotalSrc` is `0`. -/
theorem viewIpStats_total_src_whole_function :
    ((viewIpStats exampleWorker { exampleView with m_calcInlineStats := false }).ipcountSrc =
        [(42, 3)] ∧
      (viewIpStats exampleWorker { exampleView with m_calcInlineStats := false }).iptotalSrc
        = 4 ∧
      valueSum
        (viewIpStats exampleWorker { exampleView with m_calcInlineStats := false }).ipcountSrc
        = 3) ∧
    ((viewIpStats overflowWorker exampleView).ipcountSrc = [(42, 0xFFFFFFFF), (43, 1)] ∧
      (viewIpStats overflowWorker exampleView).iptotalSrc = 0 ∧
      valueSum (viewIpStats overflowWorker exampleView).ipcountSrc = 4294967296) := by
  decide

/-! ## Largest source-line bin -/

theorem valueMax_append (m : List (Nat × Nat)) (k v : Nat) :
    valueMax (m ++ [(k, v)]) = max (valueMax m) v := by
  induction m with
  | nil => simp [valueMax]
  | cons x xs ih =>
    simp only [valueMax, List.cons_append, List.map_cons, List.foldr_cons] at ih ⊢
    rw [ih]
    omega

theorem mapFind_le_valueSum (m : List (Nat × Nat)) (k old : Nat)
    (hf : mapFind m k = some old) : old ≤ valueSum m := by
  induction m with
  | nil => simp [mapFind] at hf
  | cons x xs ih =>
    by_cases c : x.1 = k
    · have ho : old = x.2 := by
        simp [mapFind, List.find?_cons, c] at hf
        exact hf.symm
      simp only [valueSum, List.map_cons, List.sum_cons]
      omega
    · have hf' : mapFind xs k = some old := by
        simpa [mapFind, List.find?_cons, c] using hf
      have := ih hf'
      simp only [valueSum, List.map_cons, List.sum_cons] at this ⊢
      omega

theorem valueMax_mapSet (m : List (Nat × Nat)) (hn : (m.map Prod.fst).Nodup) (k old v : Nat)
    (hf : mapFind m k = some old) (hv : old ≤ v) :
    valueMax (mapSet m k v) = max (valueMax m) v := by
  induction m with
  | nil => simp [mapFind] at hf
  | cons x xs ih =>
    simp only [List.map_cons, List.nodup_cons] at hn
    by_cases c : x.1 = k
    · have ho : old = x.2 := by
        simp [mapFind, List.find?_cons, c] at hf
        exact hf.symm
      have hx : mapSet (x :: xs) k v = (x.1, v) :: xs := by
        have := mapSet_of_not_mem xs k v (c ▸ hn.1)
        unfold mapSet at this ⊢
        simp only [List.map_cons, this, c, beq_self_eq_true, if_true]
      rw [hx]
      simp only [valueMax, List.map_cons, List.foldr_cons]
      omega
    · have hf' : mapFind xs k = some old := by
        simpa [mapFind, List.find?_cons, c] using hf
      have hx : mapSet (x :: xs) k v = x :: mapSet xs k v := by
        unfold mapSet
        simp [c]
      have := ih hn.2 hf'
      rw [hx]
      simp only [valueMax, List.map_cons, List.foldr_cons] at this ⊢
      rw [this]
      omega

theorem gatherSrc_max (line count : Nat) (a : IpStats) (h : MaxInv a)
    (hb : valueSum a.ipcountSrc + count < 2 ^ 32) :
    MaxInv (gatherSrc line count a) ∧
      valueSum (gatherSrc line count a).ipcountSrc ≤ valueSum a.ipcountSrc + count := by
  obtain ⟨hn, hm⟩ := h
  unfold gatherSrc
  split
  · next hf =>
    have hnew := mapFind_none _ _ hf
    refine ⟨⟨?_, ?_⟩, ?_⟩
    · simp only [List.map_append, List.map_cons, List.map_nil]
      rw [List.nodup_append]
      refine ⟨hn, by simp, ?_⟩
      intro x hx hy
      simp only [List.mem_singleton] at hy
      subst hy
      exact hnew hx
    · simp only [valueMax_append, hm]
      split <;> omega
    · simp only [valueSum_append]
      exact Nat.le_refl _
  · next old hf =>
    have hle := mapFind_le_valueSum _ _ _ hf
    have hs : (old + count) % 2 ^ 32 = old + count := Nat.mod_eq_of_lt (by omega)
    have hv := valueSum_mapSet a.ipcountSrc hn line old (old + count) hf
    have hx := valueMax_mapSet a.ipcountSrc hn line old (old + count) hf (by omega)
    refine ⟨⟨?_, ?_⟩, ?_⟩
    · simp only [mapSet_keys]; exact hn
    · simp only [hs, hx, hm]
      split <;> omega
    · simp only [hs]
      omega

theorem gatherStep_max (f : Option String) (w : Worker) (a : IpStats) (ip : Nat × Nat)
    (h : MaxInv a) (hb : valueSum a.ipcountSrc + ip.2 < 2 ^ 32) :
    MaxInv (gatherStep f w a ip) ∧
      valueSum (gatherStep f w a ip).ipcountSrc ≤ valueSum a.ipcountSrc + ip.2 := by
  unfold gatherStep
  cases f with
  | none => exact ⟨h, Nat.le_add_right _ _⟩
  | some file =>
    cases w.GetCallstackFrame ip.1 with
    | none => exact ⟨h, Nat.le_add_right _ _⟩
    | some frame =>
      simp only
      split
      · exact gatherSrc_max frame.2 ip.2 a h hb
      · exact ⟨h, Nat.le_add_right _ _⟩

theorem gatherLoop_max (f : Option String) (w : Worker) (samples : List (Nat × Nat))
    (a : IpStats) (h : MaxInv a) (hb : valueSum a.ipcountSrc + countSum samples < 2 ^ 32) :
    MaxInv (samples.foldl (gatherStep f w) a) := by
  induction samples generalizing a with
  | nil => exact h
  | cons ip ips ih =>
    simp only [List.foldl_cons]
    simp only [countSum, List.map_cons, List.sum_cons] at hb
    obtain ⟨h1, h2⟩ := gatherStep_max f w a ip h (by omega)
    apply ih _ h1
    simp only [countSum]
    omega

/-- C11: after any sequence of `GatherIpStats` calls on accumulators that start empty,
when the counts of the samples add up to less than `2^32` (so that no 32-bit counter
wraps), `ipmaxSrc` is the largest value stored in `ipcountSrc`, and `0` when the map is
empty. -/
theorem GatherIpStats_ipmax_src (f : Option String) (w : Worker) (addrs : List Nat)
    (h : countSum (callSamples w addrs) < 2 ^ 32) :
    (addrs.foldl (fun acc p => GatherIpStats f w p acc) IpStats.empty).ipmaxSrc =
      valueMax (addrs.foldl (fun acc p => GatherIpStats f w p acc) IpStats.empty).ipcountSrc ∧
    ((addrs.foldl (fun acc p => GatherIpStats f w p acc) IpStats.empty).ipcountSrc = [] →
      (addrs.foldl (fun acc p => GatherIpStats f w p acc) IpStats.empty).ipmaxSrc = 0) := by
  have key := gatherLoop_max f w (callSamples w addrs) IpStats.empty
    ⟨by simp [IpStats.empty], by simp [IpStats.empty, valueMax]⟩
    (by simpa [IpStats.empty, valueSum] using h)
  rw [gatherInline_eq]
  refine ⟨key.2, fun he => ?_⟩
  have := key.2
  unfold callSamples at this
  rw [this, he]
  rfl

/-- Two calls, for `0x1000` and `0x1010`: line 42 is hit by the counts 3 and 2 and line 7
by the count 4; the bins are `{42: 5, 7: 4}` and `ipmaxSrc = 5`, a running sum. -/
theorem GatherIpStats_ipmax_src_witness :
    ([0x1000, 0x1010].foldl (fun acc p => GatherIpStats (some "a.cpp") twoCallWorker p acc)
      IpStats.empty).ipcountSrc = [(42, 5), (7, 4)] ∧
    ([0x1000, 0x1010].foldl (fun acc p => GatherIpStats (some "a.cpp") twoCallWorker p acc)
      IpStats.empty).ipmaxSrc = 5 ∧
    ([0x1000, 0x1010].foldl (fun acc p => GatherIpStats (some "a.cpp") twoCallWorker p acc)
      IpStats.empty).ipmaxSrc =
      valueMax ([0x1000, 0x1010].foldl
        (fun acc p => GatherIpStats (some "a.cpp") twoCallWorker p acc) IpStats.empty).ipcountSrc :=
  ⟨by decide, by decide,
   (GatherIpStats_ipmax_src (some "a.cpp") twoCallWorker [0x1000, 0x1010] (by decide)).1⟩

/-! ## Disassemble: the instruction loop and the return value -/

theorem disasmStep_asm (arch : CpuArch) (symAddr len : Nat) (insn : List Insn)
    (acc : DisasmAcc) (op : Insn) :
    (disasmStep arch symAddr len insn acc op).asm =
      acc.asm ++ [stepLine arch symAddr len insn op] := by
  unfold disasmStep stepLine stepJumpAddr inCode targetFound
  simp only
  split
  · split
    · split <;> rfl
    · rfl
  · rfl

theorem disasmStep_jumpOut (arch : CpuArch) (symAddr len : Nat) (insn : List Insn)
    (acc : DisasmAcc) (op : Insn) :
    (disasmStep arch symAddr len insn acc op).jumpOut =
      if hasJump op && !inCode symAddr len (jumpTarget arch op)
      then setEmplace acc.jumpOut op.address else acc.jumpOut := by
  unfold disasmStep inCode
  simp only
  by_cases h1 : hasJump op = true
  · by_cases h2 : (jumpTarget arch op ≥ symAddr &&
        jumpTarget arch op < (symAddr + len) % 2 ^ 64) = true
    · simp only [h1, h2, if_true]
      split <;> simp
    · simp only [h1, h2, if_true, if_false]
      simp
  · simp only [h1, if_false]
    simp

theorem disasmStep_jumpTable (arch : CpuArch) (symAddr len : Nat) (insn : List Insn)
    (acc : DisasmAcc) (op : Insn) :
    (disasmStep arch symAddr len insn acc op).jumpTable =
      if hasJump op && inCode symAddr len (jumpTarget arch op) &&
          targetFound insn (jumpTarget arch op)
      then recordJump acc.jumpTable (jumpTarget arch op) op.address else acc.jumpTable := by
  unfold disasmStep inCode targetFound
  simp only
  by_cases h1 : hasJump op = true
  · by_cases h2 : (jumpTarget arch op ≥ symAddr &&
        jumpTarget arch op < (symAddr + len) % 2 ^ 64) = true
    · simp only [h1, h2, if_true, Bool.true_and]
      split <;> rfl
    · simp only [h1, h2, if_true, if_false]
      simp
  · simp only [h1, if_false]
    simp

theorem disasmLoop_asm (arch : CpuArch) (symAddr len : Nat) (insn : List Insn)
    (ops : List Insn) (acc : DisasmAcc) :
    (ops.foldl (disasmStep arch symAddr len insn) acc).asm =
      acc.asm ++ ops.map (stepLine arch symAddr len insn) := by
  induction ops generalizing acc with
  | nil => simp
  | cons op ops ih =>
    simp only [List.foldl_cons, List.map_cons]
    rw [ih, disasmStep_asm]
    simp

theorem mem_setEmplace (set : List Nat) (v a : Nat) :
    a ∈ setEmplace set v ↔ a ∈ set ∨ a = v := by
  unfold setEmplace
  split
  · next h =>
    simp only [List.contains_iff_exists_mem_beq, beq_iff_eq, exists_eq_right'] at h
    constructor
    · exact Or.inl
    · rintro (h1 | h1)
      · exact h1
      · subst h1; exact h
  · simp

theorem disasmLoop_jumpOut (arch : CpuArch) (symAddr len : Nat) (insn : List Insn)
    (ops : List Insn) (acc : DisasmAcc) (a : Nat) :
    a ∈ (ops.foldl (disasmStep arch symAddr len insn) acc).jumpOut ↔
      a ∈ acc.jumpOut ∨ ∃ op ∈ ops, op.address = a ∧ hasJump op = true ∧
        inCode symAddr len (jumpTarget arch op) = false := by
  induction ops generalizing acc with
  | nil => simp
  | cons op ops ih =>
    simp only [List.foldl_cons]
    rw [ih, disasmStep_jumpOut]
    by_cases h : (hasJump op && !inCode symAddr len (jumpTarget arch op)) = true
    · simp only [h, if_true, mem_setEmplace]
      simp only [Bool.and_eq_true, Bool.not_eq_true'] at h
      constructor
      · rintro ((h1 | h1) | ⟨o, ho, h2⟩)
        · exact Or.inl h1
        · exact Or.inr ⟨op, List.mem_cons_self _ _, h1.symm, h.1, h.2⟩
        · exact Or.inr ⟨o, List.mem_cons_of_mem _ ho, h2⟩
      · rintro (h1 | ⟨o, ho, h2⟩)
        · exact Or.inl (Or.inl h1)
        · rcases List.mem_cons.mp ho with e | e
          · subst e; exact Or.inl (Or.inr h2.1.symm)
          · exact Or.inr ⟨o, e, h2⟩
    · simp only [h, if_false]
      constructor
      · rintro (h1 | ⟨o, ho, h2⟩)
        · exact Or.inl h1
        · exact Or.inr ⟨o, List.mem_cons_of_mem _ ho, h2⟩
      · rintro (h1 | ⟨o, ho, h2⟩)
        · exact Or.inl h1
        · rcases List.mem_cons.mp ho with e | e
          · subst e
            exfalso; apply h
            simp [h2.2.1, h2.2.2]
          · exact Or.inr ⟨o, e, h2⟩

theorem disasmLoop_jumpOut_nodup (arch : CpuArch) (symAddr len : Nat) (insn : List Insn)
    (ops : List Insn) (acc : DisasmAcc) (h : acc.jumpOut.Nodup) :
    (ops.foldl (disasmStep arch symAddr len insn) acc).jumpOut.Nodup := by
  induction ops generalizing acc with
  | nil => exact h
  | cons op ops ih =>
    simp only [List.foldl_cons]
    apply ih
    rw [disasmStep_jumpOut]
    split
    · unfold setEmplace
      split
      · exact h
      · next hc =>
        simp only [List.contains_iff_exists_mem_beq, beq_iff_eq, exists_eq_right'] at hc
        rw [List.nodup_append]
        refine ⟨h, by simp, ?_⟩
        intro x hx hy
        simp only [List.mem_singleton] at hy
        subst hy
        exact hc hx
    · exact h

theorem recordJump_source (table : List (Nat × JumpData)) (t a : Nat) :
    ∃ e, (t, e) ∈ recordJump table t a ∧ a ∈ e.source := by
  unfold recordJump
  simp only
  split
  · exact ⟨_, List.mem_append_right _ (List.mem_singleton.mpr rfl), by simp⟩
  · next e hf =>
    have hm := jtFind_some table t e hf
    refine ⟨_, (mem_jtModify _ _ _ _ _).mpr ⟨e, hm, rfl⟩, ?_⟩
    simp

theorem recordJump_keeps (table : List (Nat × JumpData)) (t a k s : Nat)
    (h : ∃ e, (k, e) ∈ table ∧ s ∈ e.source) :
    ∃ e, (k, e) ∈ recordJump table t a ∧ s ∈ e.source := by
  obtain ⟨e, hm, hs⟩ := h
  unfold recordJump
  simp only
  split
  · exact ⟨e, List.mem_append_left _ hm, hs⟩
  · refine ⟨_, (mem_jtModify _ _ _ _ _).mpr ⟨e, hm, rfl⟩, ?_⟩
    split
    · simp only [List.mem_append]
      split
      · exact Or.inl hs
      · split <;> exact Or.inl hs
    · exact hs

theorem disasmLoop_keeps (arch : CpuArch) (symAddr len : Nat) (insn : List Insn)
    (ops : List Insn) (acc : DisasmAcc) (k s : Nat)
    (h : ∃ e, (k, e) ∈ acc.jumpTable ∧ s ∈ e.source) :
    ∃ e, (k, e) ∈ (ops.foldl (disasmStep arch symAddr len insn) acc).jumpTable ∧
      s ∈ e.source := by
  induction ops generalizing acc with
  | nil => exact h
  | cons op ops ih =>
    simp only [List.foldl_cons]
    apply ih
    rw [disasmStep_jumpTable]
    split
    · exact recordJump_keeps _ _ _ _ _ h
    · exact h

theorem disasmLoop_records (arch : CpuArch) (symAddr len : Nat) (insn : List Insn)
    (ops : List Insn) (acc : DisasmAcc) (op : Insn) (hop : op ∈ ops)
    (hj : hasJump op = true) (hr : inCode symAddr len (jumpTarget arch op) = true)
    (hf : targetFound insn (jumpTarget arch op) = true) :
    ∃ e, (jumpTarget arch op, e) ∈
        (ops.foldl (disasmStep arch symAddr len insn) acc).jumpTable ∧
      op.address ∈ e.source := by
  induction ops generalizing acc with
  | nil => simp at hop
  | cons o ops ih =>
    simp only [List.foldl_cons]
    rcases List.mem_cons.mp hop with e | e
    · subst e
      apply disasmLoop_keeps
      rw [disasmStep_jumpTable]
      simp only [hj, hr, hf, Bool.and_self, if_true]
      exact recordJump_source _ _ _
    · exact ih _ e

theorem lowerBound_spec (insn : List Insn) (val : Nat)
    (hmono : ∀ i j, i ≤ j → j < insn.length →
      (insn.getD i default).address ≤ (insn.getD j default).address)
    (fuel first len : Nat) (hf : len ≤ fuel) (hn : first + len ≤ insn.length)
    (hlo : ∀ i, i < first → (insn.getD i default).address < val)
    (hhi : ∀ i, first + len ≤ i → i < insn.length → val ≤ (insn.getD i default).address) :
    lowerBound insn val fuel first len ≤ insn.length ∧
    (∀ i, i < lowerBound insn val fuel first len → (insn.getD i default).address < val) ∧
    (∀ i, lowerBound insn val fuel first len ≤ i → i < insn.length →
      val ≤ (insn.getD i default).address) := by
  induction fuel generalizing first len with
  | zero =>
    have : len = 0 := by omega
    subst this
    simp only [lowerBound]
    exact ⟨by omega, hlo, fun i a b => hhi i (by omega) b⟩
  | succ n ih =>
    simp only [lowerBound]
    split
    · next hpos =>
      have hhalf : len / 2 < len := Nat.div_lt_self hpos (by decide)
      split
      · next hlt =>
        apply ih (first + len / 2 + 1) (len - len / 2 - 1) (by omega) (by omega)
        · intro i hi
          have := hmono i (first + len / 2) (by omega) (by omega)
          omega
        · intro i hi1 hi2
          exact hhi i (by omega) hi2
      · next hge =>
        apply ih first (len / 2) (by omega) (by omega) hlo
        intro i hi1 hi2
        have := hmono (first + len / 2) i hi1 hi2
        omega
    · next hz =>
      have : len = 0 := by omega
      subst this
      exact ⟨by omega, hlo, fun i a b => hhi i (by omega) b⟩

theorem sorted_mono (insn : List Insn)
    (hs : (insn.map Insn.address).Pairwise (fun a b => a < b)) :
    ∀ i j, i ≤ j → j < insn.length →
      (insn.getD i default).address ≤ (insn.getD j default).address := by
  intro i j hij hj
  rcases Nat.eq_or_lt_of_le hij with e | l
  · subst e; exact Nat.le_refl _
  · rw [List.pairwise_iff_getElem] at hs
    have := hs i j (by simp; omega) (by simpa using hj) l
    simp only [List.getElem_map] at this
    rw [List.getD_eq_getElem _ _ (by omega), List.getD_eq_getElem _ _ hj]
    exact Nat.le_of_lt this

theorem targetFound_of_sorted (insn : List Insn)
    (hs : (insn.map Insn.address).Pairwise (fun a b => a < b)) (t : Nat)
    (h : ∃ op ∈ insn, op.address = t) : targetFound insn t = true := by
  obtain ⟨op, hop, ht⟩ := h
  obtain ⟨k, hk, hget⟩ := List.mem_iff_getElem.mp hop
  have hmono := sorted_mono insn hs
  obtain ⟨h1, h2, h3⟩ := lowerBound_spec insn t hmono insn.length 0 insn.length
    (Nat.le_refl _) (by omega) (fun i hi => by omega) (fun i a b => by omega)
  have hk' : (insn.getD k default).address = t := by
    rw [List.getD_eq_getElem _ _ hk, hget, ht]
  have hle : lowerBound insn t insn.length 0 insn.length ≤ k := by
    by_contra hc
    have := h2 k (by omega)
    omega
  have ha := h3 _ (Nat.le_refl _) (by omega)
  have hb := hmono _ k hle hk
  unfold targetFound
  simp only [Bool.and_eq_true, bne_iff_ne, ne_eq, beq_iff_eq]
  exact ⟨by omega, by omega⟩

theorem lowerBound_le (insn : List Insn) (val : Nat) (fuel first len : Nat) (n : Nat)
    (hn : first + len ≤ n) : lowerBound insn val fuel first len ≤ n := by
  induction fuel generalizing first len with
  | zero => simp only [lowerBound]; omega
  | succ k ih =>
    simp only [lowerBound]
    split
    · next hpos =>
      have hhalf : len / 2 < len := Nat.div_lt_self hpos (by decide)
      split
      · exact ih _ _ (by omega)
      · exact ih _ _ (by omega)
    · omega

theorem targetFound_address (insn : List Insn) (t : Nat) (h : targetFound insn t = true) :
    ∃ op ∈ insn, op.address = t := by
  unfold targetFound at h
  simp only [Bool.and_eq_true, bne_iff_ne, ne_eq, beq_iff_eq] at h
  have hle := lowerBound_le insn t insn.length 0 insn.length insn.length (by omega)
  have hl : lowerBound insn t insn.length 0 insn.length < insn.length := by omega
  refine ⟨insn[lowerBound insn t insn.length 0 insn.length], List.getElem_mem _, ?_⟩
  rw [← List.getD_eq_getElem _ default hl]
  exact h.2

theorem assignLevels_forward (vs : List JumpRange) (table : List (Nat × JumpData))
    (lrs : List (List (Nat × Nat))) (m : Nat) (k : Nat) (e0 : JumpData)
    (h : (k, e0) ∈ table) :
    ∃ e, (k, e) ∈ (assignLevels vs table lrs m).1 ∧ e.min = e0.min ∧ e.max = e0.max ∧
      e.source = e0.source := by
  induction vs generalizing table lrs m e0 with
  | nil => exact ⟨e0, h, rfl, rfl, rfl⟩
  | cons v vs ih =>
    simp only [assignLevels]
    split
    · exact ih _ _ _ _ h
    · next e1 hf =>
      have := (mem_jtModify table v.target
        (fun d => { d with level := (placeLevel e1.min e1.max lrs).1 }) k _).mpr ⟨e0, h, rfl⟩
      obtain ⟨e, he, a, b, c⟩ := ih _ _ _ _ this
      refine ⟨e, he, ?_, ?_, ?_⟩
      · rw [a]; split <;> rfl
      · rw [b]; split <;> rfl
      · rw [c]; split <;> rfl

theorem jumpPostPass_forward (sortRanges : List JumpRange → List JumpRange)
    (table : List (Nat × JumpData)) (k : Nat) (e0 : JumpData) (h : (k, e0) ∈ table) :
    ∃ e, (k, e) ∈ (jumpPostPass sortRanges table).1 ∧ e.min = e0.min ∧ e.max = e0.max ∧
      ∀ x, x ∈ e.source ↔ x ∈ e0.source := by
  unfold jumpPostPass
  split
  · exact ⟨e0, h, rfl, rfl, fun x => Iff.rfl⟩
  · simp only
    have hm : (k, { e0 with source := e0.source.insertionSort (fun a b => a ≤ b) }) ∈
        table.map (fun e =>
          (e.1, { e.2 with source := e.2.source.insertionSort (fun a b => a ≤ b) })) :=
      List.mem_map.mpr ⟨(k, e0), h, rfl⟩
    obtain ⟨e, he, a, b, c⟩ := assignLevels_forward _ _ [] 0 k _ hm
    refine ⟨e, he, a, b, fun x => ?_⟩
    rw [c]
    exact (List.perm_insertionSort (fun a b : Nat => a ≤ b) e0.source).mem_iff

theorem Disassemble_ok_shape (w : Worker) (cs : Decoder)
    (sortRanges : List JumpRange → List JumpRange) (symAddr : Nat) (s : View)
    (code : List Nat) (h0 : symAddr ≠ 0) (ha : w.GetCpuArch ≠ CpuArch.CpuArchUnknown)
    (hc : w.GetSymbolCode symAddr = some code) (ho : cs.cs_open w.GetCpuArch = true) :
    (Disassemble w cs sortRanges symAddr s).1 = true ∧
    (Disassemble w cs sortRanges symAddr s).2.m_asm =
      (cs.cs_disasm w.GetCpuArch code symAddr).map
        (stepLine w.GetCpuArch symAddr code.length (cs.cs_disasm w.GetCpuArch code symAddr)) ∧
    (Disassemble w cs sortRanges symAddr s).2.m_jumpTable =
      (jumpPostPass sortRanges ((cs.cs_disasm w.GetCpuArch code symAddr).foldl
        (disasmStep w.GetCpuArch symAddr code.length (cs.cs_disasm w.GetCpuArch code symAddr))
        ⟨[], [], []⟩).jumpTable).1 ∧
    (Disassemble w cs sortRanges symAddr s).2.m_jumpOut =
      ((cs.cs_disasm w.GetCpuArch code symAddr).foldl
        (disasmStep w.GetCpuArch symAddr code.length (cs.cs_disasm w.GetCpuArch code symAddr))
        ⟨[], [], []⟩).jumpOut ∧
    (Disassemble w cs sortRanges symAddr s).2.m_maxJumpLevel =
      (jumpPostPass sortRanges ((cs.cs_disasm w.GetCpuArch code symAddr).foldl
        (disasmStep w.GetCpuArch symAddr code.length (cs.cs_disasm w.GetCpuArch code symAddr))
        ⟨[], [], []⟩).jumpTable).2 ∧
    (Disassemble w cs sortRanges symAddr s).2.m_codeLen = code.length ∧
    (Disassemble w cs sortRanges symAddr s).2.m_disasmFail =
      disasmFailOf symAddr code.length (cs.cs_disasm w.GetCpuArch code symAddr) := by
  have h0' : (symAddr == 0) = false := by simpa using h0
  have ha' : (w.GetCpuArch == CpuArch.CpuArchUnknown) = false := by simpa using ha
  simp only [Disassemble, h0', ha', hc, ho, disasmFailOf]
  simp only [Bool.false_eq_true, if_false, Bool.not_true]
  cases hl : (cs.cs_disasm w.GetCpuArch code symAddr).getLast? with
  | none =>
    have he : cs.cs_disasm w.GetCpuArch code symAddr = [] := List.getLast?_eq_none_iff.mp hl
    simp [he, jumpPostPass]
  | some last =>
    simp only [disasmLoop_asm, List.nil_append]
    and_intros <;> first | trivial | rfl | (split <;> rfl)

/-- C16: `Disassemble( symAddr )` returns false if and only if `symAddr == 0`, or the
architecture of the capture is unknown, or the capture has no code for `symAddr`, or the
decoder does not open for the architecture; in every other case it returns true. -/
theorem Disassemble_false_iff (w : Worker) (cs : Decoder)
    (sortRanges : List JumpRange → List JumpRange) (symAddr : Nat) (s : View) :
    ((Disassemble w cs sortRanges symAddr s).1 = false ↔
      symAddr = 0 ∨ w.GetCpuArch = CpuArch.CpuArchUnknown ∨
        w.GetSymbolCode symAddr = none ∨ cs.cs_open w.GetCpuArch = false) ∧
    ((Disassemble w cs sortRanges symAddr s).1 = true ↔
      ¬ (symAddr = 0 ∨ w.GetCpuArch = CpuArch.CpuArchUnknown ∨
        w.GetSymbolCode symAddr = none ∨ cs.cs_open w.GetCpuArch = false)) := by
  have key : (Disassemble w cs sortRanges symAddr s).1 = false ↔
      symAddr = 0 ∨ w.GetCpuArch = CpuArch.CpuArchUnknown ∨
        w.GetSymbolCode symAddr = none ∨ cs.cs_open w.GetCpuArch = false := by
    by_cases h0 : symAddr = 0
    · simp [Disassemble, h0]
    · by_cases ha : w.GetCpuArch = CpuArch.CpuArchUnknown
      · simp [Disassemble, h0, ha]
      · cases hc : w.GetSymbolCode symAddr with
        | none => simp [Disassemble, h0, ha, hc]
        | some code =>
          cases ho : cs.cs_open w.GetCpuArch with
          | false => simp [Disassemble, h0, ha, hc, ho]
          | true =>
            have := (Disassemble_ok_shape w cs sortRanges symAddr s code h0 ha hc ho).1
            simp [this, h0, ha]
  refine ⟨key, ?_⟩
  rw [← key]
  simp

theorem Disassemble_of_true (w : Worker) (cs : Decoder)
    (sortRanges : List JumpRange → List JumpRange) (symAddr : Nat) (s : View)
    (h : (Disassemble w cs sortRanges symAddr s).1 = true) :
    symAddr ≠ 0 ∧ w.GetCpuArch ≠ CpuArch.CpuArchUnknown ∧
      (∃ code, w.GetSymbolCode symAddr = some code) ∧ cs.cs_open w.GetCpuArch = true := by
  by_cases h0 : symAddr = 0
  · simp [Disassemble, h0] at h
  · by_cases ha : w.GetCpuArch = CpuArch.CpuArchUnknown
    · simp [Disassemble, h0, ha] at h
    · cases hc : w.GetSymbolCode symAddr with
      | none => simp [Disassemble, h0, ha, hc] at h
      | some code =>
        cases ho : cs.cs_open w.GetCpuArch with
        | false => simp [Disassemble, h0, ha, hc, ho] at h
        | true => exact ⟨h0, ha, ⟨code, rfl⟩, rfl⟩

/-! ## Disassemble: jump classification -/

theorem jumpTarget_imm (arch : CpuArch) (op : Insn) (o : Operand)
    (ha : arch ≠ CpuArch.CpuArchUnknown) (hops : op.operands = [o])
    (hi : o.type = OpType.imm) : jumpTarget arch op = o.imm := by
  unfold jumpTarget
  cases arch <;> simp_all

theorem inCode_iff (symAddr len t : Nat) (hw : symAddr + len < 2 ^ 64) :
    inCode symAddr len t = true ↔ symAddr ≤ t ∧ t < symAddr + len := by
  have e : (symAddr + len) % 2 ^ 64 = symAddr + len := Nat.mod_eq_of_lt hw
  simp only [inCode, e, ge_iff_le, Bool.and_eq_true, decide_eq_true_eq]

theorem address_inj (insn : List Insn)
    (hs : (insn.map Insn.address).Pairwise (fun a b => a < b)) (a b : Insn)
    (ha : a ∈ insn) (hb : b ∈ insn) (h : a.address = b.address) : a = b := by
  obtain ⟨i, hi, ei⟩ := List.mem_iff_getElem.mp ha
  obtain ⟨j, hj, ej⟩ := List.mem_iff_getElem.mp hb
  rw [List.pairwise_iff_getElem] at hs
  rcases Nat.lt_trichotomy i j with l | e | l
  · have := hs i j (by simpa using hi) (by simpa using hj) l
    simp only [List.getElem_map, ei, ej] at this
    omega
  · subst e; rw [← ei, ← ej]
  · have := hs j i (by simpa using hj) (by simpa using hi) l
    simp only [List.getElem_map, ei, ej] at this
    omega

theorem map_getElem?_stepLine (arch : CpuArch) (symAddr len : Nat) (insn : List Insn)
    (i : Nat) (op : Insn) (h : insn[i]? = some op) :
    (insn.map (stepLine arch symAddr len insn))[i]? =
      some (stepLine arch symAddr len insn op) := by
  simp [List.getElem?_map, h]

/-- C12: after a successful `Disassemble` whose decoded addresses ascend and whose code
range does not wrap, a branch, call or return at address `s` with a single immediate
operand whose target `t` lies in `[symAddr, symAddr + len)` and is the address of a
decoded instruction has an `AsmLine` with `jumpAddr = t`, the jump table has an entry
keyed `t` whose sources contain `s`, and `s` is not in the out-set. -/
theorem Disassemble_intra_jump (w : Worker) (cs : Decoder)
    (sortRanges : List JumpRange → List JumpRange) (symAddr : Nat) (s : View)
    (code : List Nat) (hok : (Disassemble w cs sortRanges symAddr s).1 = true)
    (hc : w.GetSymbolCode symAddr = some code) (hw : symAddr + code.length < 2 ^ 64)
    (hs : ((cs.cs_disasm w.GetCpuArch code symAddr).map Insn.address).Pairwise
      (fun a b => a < b))
    (i : Nat) (op : Insn) (hop : (cs.cs_disasm w.GetCpuArch code symAddr)[i]? = some op)
    (hj : hasJump op = true) (o : Operand) (hops : op.operands = [o])
    (hi : o.type = OpType.imm) (hr : symAddr ≤ o.imm ∧ o.imm < symAddr + code.length)
    (ht : ∃ op' ∈ cs.cs_disasm w.GetCpuArch code symAddr, op'.address = o.imm) :
    (∃ line, (Disassemble w cs sortRanges symAddr s).2.m_asm[i]? = some line ∧
      line.addr = op.address ∧ line.jumpAddr = o.imm) ∧
    (∃ e, (o.imm, e) ∈ (Disassemble w cs sortRanges symAddr s).2.m_jumpTable ∧
      op.address ∈ e.source) ∧
    op.address ∉ (Disassemble w cs sortRanges symAddr s).2.m_jumpOut := by
  obtain ⟨h0, ha, _, ho⟩ := Disassemble_of_true w cs sortRanges symAddr s hok
  obtain ⟨_, s1, s2, s3, _⟩ := Disassemble_ok_shape w cs sortRanges symAddr s code h0 ha hc ho
  have hT := jumpTarget_imm w.GetCpuArch op o ha hops hi
  have hin : inCode symAddr code.length (jumpTarget w.GetCpuArch op) = true := by
    rw [hT]; exact (inCode_iff _ _ _ hw).mpr hr
  have hf : targetFound (cs.cs_disasm w.GetCpuArch code symAddr)
      (jumpTarget w.GetCpuArch op) = true := by
    rw [hT]; exact targetFound_of_sorted _ hs _ ht
  have hmem : op ∈ cs.cs_disasm w.GetCpuArch code symAddr := List.getElem?_mem hop
  refine ⟨?_, ?_, ?_⟩
  · refine ⟨_, by rw [s1]; exact map_getElem?_stepLine _ _ _ _ _ _ hop, rfl, ?_⟩
    simp only [stepLine, stepJumpAddr, hj, hin, hf, if_true]
    exact hT
  · obtain ⟨e0, he0, hs0⟩ := disasmLoop_records w.GetCpuArch symAddr code.length
      (cs.cs_disasm w.GetCpuArch code symAddr) (cs.cs_disasm w.GetCpuArch code symAddr)
      ⟨[], [], []⟩ op hmem hj hin hf
    obtain ⟨e, he, _, _, hsrc⟩ := jumpPostPass_forward sortRanges _ _ e0 he0
    rw [hT] at he
    exact ⟨e, by rw [s2]; exact he, (hsrc _).mpr hs0⟩
  · rw [s3, disasmLoop_jumpOut]
    rintro (h | ⟨op2, hm2, ha2, _, hout⟩)
    · simp at h
    · have := address_inj _ hs op2 op hm2 hmem ha2
      subst this
      rw [hin] at hout
      exact Bool.noConfusion hout

/-- The jump at `0x1014` of the example targets the instruction at `0x100A`: its line has
`jumpAddr = 0x100A`, the entry of `0x100A` has the source `0x1014`, and `0x1014` is not in
the out-set. -/
theorem Disassemble_intra_jump_witness :
    (∃ line, (Disassemble exampleWorker exampleDecoder sortByLen 0x1000
        exampleView).2.m_asm[2]? = some line ∧ line.addr = 0x1014 ∧ line.jumpAddr = 0x100A) ∧
    (∃ e, (0x100A, e) ∈ (Disassemble exampleWorker exampleDecoder sortByLen 0x1000
        exampleView).2.m_jumpTable ∧ 0x1014 ∈ e.source) ∧
    0x1014 ∉ (Disassemble exampleWorker exampleDecoder sortByLen 0x1000
        exampleView).2.m_jumpOut :=
  Disassemble_intra_jump exampleWorker exampleDecoder sortByLen 0x1000 exampleView
    (List.replicate 102 0x90) (by decide) (by decide) (by decide) (by decide) 2
    (jumpInsn 0x1014 10 0x100A) (by decide) (by decide) ⟨OpType.imm, 0x100A, 8, ⟨0, 0, 0⟩⟩
    rfl rfl (by decide) ⟨plainInsn 0x100A 10 "nop" [], by decide, rfl⟩

/-- Function `jumpTarget` gives `0` for an instruction without a single immediate operand. -/
theorem jumpTarget_no_imm (arch : CpuArch) (op : Insn)
    (hno : ¬ ∃ o, op.operands = [o] ∧ o.type = OpType.imm) : jumpTarget arch op = 0 := by
  unfold jumpTarget
  cases arch <;> simp only
  all_goals
    split
    · next o heq =>
      split
      · next hi =>
        exact absurd ⟨o, heq, by simpa using hi⟩ hno
      · rfl
    · rfl

/-- Membership in the out-set after a successful `Disassemble` whose code range does not
wrap. -/
theorem Disassemble_jumpOut_iff (w : Worker) (cs : Decoder)
    (sortRanges : List JumpRange → List JumpRange) (symAddr : Nat) (s : View)
    (code : List Nat) (hok : (Disassemble w cs sortRanges symAddr s).1 = true)
    (hc : w.GetSymbolCode symAddr = some code) (hw : symAddr + code.length < 2 ^ 64)
    (a : Nat) :
    a ∈ (Disassemble w cs sortRanges symAddr s).2.m_jumpOut ↔
      ∃ op ∈ cs.cs_disasm w.GetCpuArch code symAddr, op.address = a ∧ hasJump op = true ∧
        ¬ (symAddr ≤ jumpTarget w.GetCpuArch op ∧
          jumpTarget w.GetCpuArch op < symAddr + code.length) := by
  obtain ⟨h0, ha, _, ho⟩ := Disassemble_of_true w cs sortRanges symAddr s hok
  obtain ⟨_, _, _, s3, _⟩ := Disassemble_ok_shape w cs sortRanges symAddr s code h0 ha hc ho
  rw [s3, disasmLoop_jumpOut]
  simp only [List.not_mem_nil, false_or]
  constructor
  · rintro ⟨op, hm, h1, h2, h3⟩
    refine ⟨op, hm, h1, h2, ?_⟩
    rw [← inCode_iff _ _ _ hw, h3]
    exact Bool.noConfusion
  · rintro ⟨op, hm, h1, h2, h3⟩
    refine ⟨op, hm, h1, h2, ?_⟩
    rw [← inCode_iff _ _ _ hw] at h3
    simpa using h3

/-- C13: after a successful `Disassemble` whose code range does not wrap, the out-set is
exactly the set of the addresses of decoded instructions that are branches and whose
target lies outside `[symAddr, symAddr + len)`; a target equal to `symAddr + len` is
outside; the set has no duplicates. The target of a branch without a single immediate
operand is `0`. -/
theorem Disassemble_out_set (w : Worker) (cs : Decoder)
    (sortRanges : List JumpRange → List JumpRange) (symAddr : Nat) (s : View)
    (code : List Nat) (hok : (Disassemble w cs sortRanges symAddr s).1 = true)
    (hc : w.GetSymbolCode symAddr = some code) (hw : symAddr + code.length < 2 ^ 64) :
    (∀ a, a ∈ (Disassemble w cs sortRanges symAddr s).2.m_jumpOut ↔
      ∃ op ∈ cs.cs_disasm w.GetCpuArch code symAddr, op.address = a ∧ hasJump op = true ∧
        ¬ (symAddr ≤ jumpTarget w.GetCpuArch op ∧
          jumpTarget w.GetCpuArch op < symAddr + code.length)) ∧
    (∀ op ∈ cs.cs_disasm w.GetCpuArch code symAddr, hasJump op = true →
      jumpTarget w.GetCpuArch op = symAddr + code.length →
      op.address ∈ (Disassemble w cs sortRanges symAddr s).2.m_jumpOut) ∧
    (Disassemble w cs sortRanges symAddr s).2.m_jumpOut.Nodup ∧
    (∀ op : Insn, (¬ ∃ o, op.operands = [o] ∧ o.type = OpType.imm) →
      jumpTarget w.GetCpuArch op = 0) := by
  obtain ⟨h0, ha, _, ho⟩ := Disassemble_of_true w cs sortRanges symAddr s hok
  obtain ⟨_, _, _, s3, _⟩ := Disassemble_ok_shape w cs sortRanges symAddr s code h0 ha hc ho
  have key := Disassemble_jumpOut_iff w cs sortRanges symAddr s code hok hc hw
  refine ⟨key, ?_, ?_, ?_⟩
  · intro op hm hj ht
    exact (key _).mpr ⟨op, hm, rfl, hj, by omega⟩
  · rw [s3]
    exact disasmLoop_jumpOut_nodup _ _ _ _ _ _ List.nodup_nil
  · intro op hno
    exact jumpTarget_no_imm _ _ hno

/-- The example with a jump to `0x2000` and a `ret`: both addresses are in the out-set, the
`ret` because its target is taken to be `0`. -/
theorem Disassemble_out_set_witness :
    (Disassemble exampleWorker exampleDecoderOut sortByLen 0x1000 exampleView).2.m_jumpOut =
      [0x1000, 0x1005] ∧
    (∀ a, a ∈ (Disassemble exampleWorker exampleDecoderOut sortByLen 0x1000
        exampleView).2.m_jumpOut ↔
      ∃ op ∈ exampleDecoderOut.cs_disasm CpuArch.CpuArchX64 (List.replicate 102 0x90) 0x1000,
        op.address = a ∧ hasJump op = true ∧
        ¬ (0x1000 ≤ jumpTarget CpuArch.CpuArchX64 op ∧
          jumpTarget CpuArch.CpuArchX64 op < 0x1000 + (List.replicate 102 0x90).length)) :=
  ⟨by decide,
   (Disassemble_out_set exampleWorker exampleDecoderOut sortByLen 0x1000 exampleView
      (List.replicate 102 0x90) (by decide) (by decide) (by decide)).1⟩

/-- C14 (amended): after a successful `Disassemble` whose code range does not wrap, the
`AsmLine` of a branch whose target lies outside `[symAddr, symAddr + len)` has that
target as its `jumpAddr` (the immediate of a single immediate operand, `0` when the
branch has no such operand), and the address of the branch is in the out-set. -/
theorem Disassemble_out_jump_addr (w : Worker) (cs : Decoder)
    (sortRanges : List JumpRange → List JumpRange) (symAddr : Nat) (s : View)
    (code : List Nat) (hok : (Disassemble w cs sortRanges symAddr s).1 = true)
    (hc : w.GetSymbolCode symAddr = some code) (hw : symAddr + code.length < 2 ^ 64)
    (i : Nat) (op : Insn) (hop : (cs.cs_disasm w.GetCpuArch code symAddr)[i]? = some op)
    (hj : hasJump op = true)
    (hout : ¬ (symAddr ≤ jumpTarget w.GetCpuArch op ∧
      jumpTarget w.GetCpuArch op < symAddr + code.length)) :
    (∃ line, (Disassemble w cs sortRanges symAddr s).2.m_asm[i]? = some line ∧
      line.addr = op.address ∧ line.jumpAddr = jumpTarget w.GetCpuArch op ∧
      (∀ o, op.operands = [o] → o.type = OpType.imm → line.jumpAddr = o.imm) ∧
      ((¬ ∃ o, op.operands = [o] ∧ o.type = OpType.imm) → line.jumpAddr = 0)) ∧
    op.address ∈ (Disassemble w cs sortRanges symAddr s).2.m_jumpOut := by
  obtain ⟨h0, ha, _, ho⟩ := Disassemble_of_true w cs sortRanges symAddr s hok
  obtain ⟨_, s1, _, _, _⟩ := Disassemble_ok_shape w cs sortRanges symAddr s code h0 ha hc ho
  have k1 := Disassemble_jumpOut_iff w cs sortRanges symAddr s code hok hc hw
  have hin : inCode symAddr code.length (jumpTarget w.GetCpuArch op) = false := by
    rw [← inCode_iff _ _ _ hw] at hout
    simpa using hout
  have hJ : stepJumpAddr w.GetCpuArch symAddr code.length
      (cs.cs_disasm w.GetCpuArch code symAddr) op = jumpTarget w.GetCpuArch op := by
    simp [stepJumpAddr, hj, hin]
  refine ⟨⟨_, by rw [s1]; exact map_getElem?_stepLine _ _ _ _ _ _ hop, rfl, hJ, ?_, ?_⟩, ?_⟩
  · intro o hops hi
    exact hJ.trans (jumpTarget_imm _ _ _ ha hops hi)
  · intro hno
    exact hJ.trans (jumpTarget_no_imm _ _ hno)
  · exact (k1 _).mpr ⟨op, List.getElem?_mem hop, rfl, hj, hout⟩

/-- The jump to `0x2000` of the example: its line has `jumpAddr = 0x2000`, and `0x1000` is in
the out-set. -/
theorem Disassemble_out_jump_addr_witness :
    (∃ line, (Disassemble exampleWorker exampleDecoderOut sortByLen 0x1000
        exampleView).2.m_asm[0]? = some line ∧ line.addr = 0x1000 ∧ line.jumpAddr = 0x2000) ∧
    0x1000 ∈ (Disassemble exampleWorker exampleDecoderOut sortByLen 0x1000
        exampleView).2.m_jumpOut :=
  ⟨(Disassemble_out_jump_addr exampleWorker exampleDecoderOut sortByLen 0x1000 exampleView
      (List.replicate 102 0x90) (by decide) (by decide) (by decide) 0
      (jumpInsn 0x1000 5 0x2000) (by decide) (by decide) (by decide)).1.imp
      (fun _ h => ⟨h.1, h.2.1, h.2.2.1⟩),
   by decide⟩

/-- C14, as stated, fails: the jump at `0x1000` of the example has the target `0x2000`,
outside the 102 bytes at `0x1000`, and its `AsmLine` has `jumpAddr = 0x2000`, not `0`. -/
theorem Disassemble_out_jump_addr_not_zero :
    (Disassemble exampleWorker exampleDecoderOut sortByLen 0x1000 exampleView).1 = true ∧
    (Disassemble exampleWorker exampleDecoderOut sortByLen 0x1000 exampleView).2.m_asm.map
      (fun l => (l.addr, l.jumpAddr)) = [(0x1000, 0x2000), (0x1005, 0)] ∧
    (Disassemble exampleWorker exampleDecoderOut sortByLen 0x1000 exampleView).2.m_codeLen
      = 102 := by
  decide

/-- C15 (amended): after a successful `Disassemble` whose code range does not wrap and
whose decoded addresses are distinct, the `AsmLine` of a branch whose immediate target
lies inside `[symAddr, symAddr + len)` but is not the address of any decoded instruction
has `jumpAddr = 0`, and the address of the branch is not in the out-set. -/
theorem Disassemble_unmatched_jump (w : Worker) (cs : Decoder)
    (sortRanges : List JumpRange → List JumpRange) (symAddr : Nat) (s : View)
    (code : List Nat) (hok : (Disassemble w cs sortRanges symAddr s).1 = true)
    (hc : w.GetSymbolCode symAddr = some code) (hw : symAddr + code.length < 2 ^ 64)
    (hd : ((cs.cs_disasm w.GetCpuArch code symAddr).map Insn.address).Nodup)
    (i : Nat) (op : Insn) (hop : (cs.cs_disasm w.GetCpuArch code symAddr)[i]? = some op)
    (hj : hasJump op = true) (o : Operand) (hops : op.operands = [o])
    (hi : o.type = OpType.imm) (hr : symAddr ≤ o.imm ∧ o.imm < symAddr + code.length)
    (ht : ¬ ∃ op' ∈ cs.cs_disasm w.GetCpuArch code symAddr, op'.address = o.imm) :
    (∃ line, (Disassemble w cs sortRanges symAddr s).2.m_asm[i]? = some line ∧
      line.addr = op.address ∧ line.jumpAddr = 0) ∧
    op.address ∉ (Disassemble w cs sortRanges symAddr s).2.m_jumpOut := by
  obtain ⟨h0, ha, _, ho⟩ := Disassemble_of_true w cs sortRanges symAddr s hok
  obtain ⟨_, s1, _, _, _⟩ := Disassemble_ok_shape w cs sortRanges symAddr s code h0 ha hc ho
  have k1 := Disassemble_jumpOut_iff w cs sortRanges symAddr s code hok hc hw
  have hT := jumpTarget_imm w.GetCpuArch op o ha hops hi
  have hin : inCode symAddr code.length (jumpTarget w.GetCpuArch op) = true := by
    rw [hT]; exact (inCode_iff _ _ _ hw).mpr hr
  have hf : targetFound (cs.cs_disasm w.GetCpuArch code symAddr)
      (jumpTarget w.GetCpuArch op) = false := by
    cases h : targetFound (cs.cs_disasm w.GetCpuArch code symAddr)
        (jumpTarget w.GetCpuArch op) with
    | false => rfl
    | true =>
      rw [hT] at h
      exact absurd (targetFound_address _ _ h) ht
  have hmem : op ∈ cs.cs_disasm w.GetCpuArch code symAddr := List.getElem?_mem hop
  refine ⟨⟨_, by rw [s1]; exact map_getElem?_stepLine _ _ _ _ _ _ hop, rfl, ?_⟩, ?_⟩
  · simp [stepLine, stepJumpAddr, hj, hin, hf]
  · rw [k1]
    rintro ⟨op2, hm2, ha2, _, hout⟩
    have : op2 = op := by
      have hinj := List.inj_on_of_nodup_map hd
      exact hinj hm2 hmem ha2
    subst this
    rw [hT] at hout
    exact hout hr

/-- The jump at `0x1000` of the example targets `0x1002`, which is inside the code and not
the address of an instruction: its line has `jumpAddr = 0` and `0x1000` is not in the
out-set. -/
theorem Disassemble_unmatched_jump_witness :
    (∃ line, (Disassemble exampleWorker exampleDecoderMid sortByLen 0x1000
        exampleView).2.m_asm[0]? = some line ∧ line.addr = 0x1000 ∧ line.jumpAddr = 0) ∧
    0x1000 ∉ (Disassemble exampleWorker exampleDecoderMid sortByLen 0x1000
        exampleView).2.m_jumpOut :=
  Disassemble_unmatched_jump exampleWorker exampleDecoderMid sortByLen 0x1000 exampleView
    (List.replicate 102 0x90) (by decide) (by decide) (by decide) (by decide) 0
    (jumpInsn 0x1000 4 0x1002) (by decide) (by decide) ⟨OpType.imm, 0x1002, 8, ⟨0, 0, 0⟩⟩
    rfl rfl (by decide) (by decide)

/-- C15, as stated, fails: the jump at `0x1000` of the example has the target `0x1002`,
inside the code and not the address of an instruction; its `jumpAddr` is `0`, but its
address is not recorded in the out-set, which stays empty. -/
theorem Disassemble_unmatched_jump_not_out :
    (Disassemble exampleWorker exampleDecoderMid sortByLen 0x1000 exampleView).1 = true ∧
    (Disassemble exampleWorker exampleDecoderMid sortByLen 0x1000 exampleView).2.m_asm.map
      (fun l => (l.addr, l.jumpAddr)) = [(0x1000, 0), (0x1004, 0)] ∧
    (Disassemble exampleWorker exampleDecoderMid sortByLen 0x1000 exampleView).2.m_jumpOut
      = [] := by
  decide

/-! ## Disassemble: empty code and partial decoding -/

/-- C17 (amended): for a symbol whose captured code is present with length 0,
`Disassemble` returns true exactly when `symAddr` is not 0, the architecture is known and
the decoder opens, and then `m_codeLen` is 0; it returns false for length 0 only under
the conditions under which it returns false for any code. -/
theorem Disassemble_empty_code (w : Worker) (cs : Decoder)
    (sortRanges : List JumpRange → List JumpRange) (symAddr : Nat) (s : View)
    (hc : w.GetSymbolCode symAddr = some []) :
    ((Disassemble w cs sortRanges symAddr s).1 = true ↔
      symAddr ≠ 0 ∧ w.GetCpuArch ≠ CpuArch.CpuArchUnknown ∧ cs.cs_open w.GetCpuArch = true) ∧
    ((Disassemble w cs sortRanges symAddr s).1 = true →
      (Disassemble w cs sortRanges symAddr s).2.m_codeLen = 0) := by
  constructor
  · constructor
    · intro h
      obtain ⟨h0, ha, _, ho⟩ := Disassemble_of_true w cs sortRanges symAddr s h
      exact ⟨h0, ha, ho⟩
    · rintro ⟨h0, ha, ho⟩
      exact (Disassemble_ok_shape w cs sortRanges symAddr s [] h0 ha hc ho).1
  · intro h
    obtain ⟨h0, ha, _, ho⟩ := Disassemble_of_true w cs sortRanges symAddr s h
    exact (Disassemble_ok_shape w cs sortRanges symAddr s [] h0 ha hc ho).2.2.2.2.2.1

/-- The capture with zero bytes of code: `Disassemble` at `0x1000` returns true with
`m_codeLen = 0`, and returns false at address 0. -/
theorem Disassemble_empty_code_witness :
    (((Disassemble emptyCodeWorker exampleDecoderNone sortByLen 0x1000 exampleView).1 = true ↔
      0x1000 ≠ 0 ∧ emptyCodeWorker.GetCpuArch ≠ CpuArch.CpuArchUnknown ∧
        exampleDecoderNone.cs_open emptyCodeWorker.GetCpuArch = true) ∧
    ((Disassemble emptyCodeWorker exampleDecoderNone sortByLen 0x1000 exampleView).1 = true →
      (Disassemble emptyCodeWorker exampleDecoderNone sortByLen 0x1000
        exampleView).2.m_codeLen = 0)) ∧
    (Disassemble emptyCodeWorker exampleDecoderNone sortByLen 0 exampleView).1 = false :=
  ⟨Disassemble_empty_code emptyCodeWorker exampleDecoderNone sortByLen 0x1000 exampleView rfl,
   by decide⟩

/-- C17, as stated, fails: for the capture whose code at `0x1000` is present with zero
bytes, `Disassemble` returns true, with no lines and `m_codeLen = 0`. -/
theorem Disassemble_empty_code_true :
    emptyCodeWorker.GetSymbolCode 0x1000 = some [] ∧
    (Disassemble emptyCodeWorker exampleDecoderNone sortByLen 0x1000 exampleView).1 = true ∧
    (Disassemble emptyCodeWorker exampleDecoderNone sortByLen 0x1000 exampleView).2.m_asm = [] ∧
    (Disassemble emptyCodeWorker exampleDecoderNone sortByLen 0x1000 exampleView).2.m_codeLen
      = 0 := by
  decide

theorem placeLevel_least (mn mx : Nat) (lrs : List (List (Nat × Nat))) :
    (∀ L, L < (placeLevel mn mx lrs).1 → ∃ r ∈ lrs.getD L [], overlaps mn mx r = true) ∧
    ∀ L r, r ∈ (placeLevel mn mx lrs).2.getD L [] →
      r ∈ lrs.getD L [] ∨ (L = (placeLevel mn mx lrs).1 ∧ r = (mn, mx)) := by
  induction lrs with
  | nil =>
    simp only [placeLevel]
    refine ⟨fun L h => absurd h (Nat.not_lt_zero _), ?_⟩
    intro L r hr
    cases L with
    | zero =>
      simp only [List.getD_cons_zero, List.mem_singleton] at hr
      exact Or.inr ⟨rfl, hr⟩
    | succ n => simp at hr
  | cons lr rest ih =>
    simp only [placeLevel]
    split
    · next hany =>
      obtain ⟨a, b⟩ := ih
      refine ⟨?_, ?_⟩
      · intro L hL
        cases L with
        | zero =>
          obtain ⟨r, hr, ho⟩ := List.any_eq_true.mp hany
          exact ⟨r, by simpa using hr, ho⟩
        | succ n =>
          obtain ⟨r, hr, ho⟩ := a n (by simpa using hL)
          exact ⟨r, by simpa using hr, ho⟩
      · intro L r hr
        cases L with
        | zero => left; simpa using hr
        | succ n =>
          rcases b n r (by simpa using hr) with h | ⟨h1, h2⟩
          · left; simpa using h
          · right; exact ⟨by simp only [h1], h2⟩
    · next hno =>
      refine ⟨fun L h => absurd h (Nat.not_lt_zero _), ?_⟩
      intro L r hr
      cases L with
      | zero =>
        simp only [List.getD_cons_zero, List.mem_append, List.mem_singleton] at hr
        rcases hr with h | h
        · left; simpa using h
        · right; exact ⟨rfl, h⟩
      | succ n => left; simpa using hr

theorem assignLevels_unchanged (vs : List JumpRange) (table : List (Nat × JumpData))
    (lrs : List (List (Nat × Nat))) (m : Nat) (k : Nat) (e : JumpData)
    (hk : k ∉ vs.map JumpRange.target) :
    (k, e) ∈ (assignLevels vs table lrs m).1 ↔ (k, e) ∈ table := by
  induction vs generalizing table lrs m with
  | nil => rfl
  | cons v vs ih =>
    simp only [List.map_cons, List.mem_cons, not_or] at hk
    simp only [assignLevels]
    split
    · exact ih _ _ _ hk.2
    · rw [ih _ _ _ hk.2, mem_jtModify]
      simp only [hk.1, if_false]
      constructor
      · rintro ⟨e0, h0, rfl⟩; exact h0
      · intro h; exact ⟨e, h, rfl⟩

theorem assignLevels_keys (vs : List JumpRange) (table : List (Nat × JumpData))
    (lrs : List (List (Nat × Nat))) (m : Nat) :
    (assignLevels vs table lrs m).1.map Prod.fst = table.map Prod.fst := by
  induction vs generalizing table lrs m with
  | nil => rfl
  | cons v vs ih =>
    simp only [assignLevels]
    split
    · exact ih _ _ _
    · rw [ih, jtModify_keys]

theorem mem_jtModify_key (table : List (Nat × JumpData)) (hn : (table.map Prod.fst).Nodup)
    (key : Nat) (f : JumpData → JumpData) (e0 : JumpData) (h0 : (key, e0) ∈ table)
    (e : JumpData) : (key, e) ∈ jtModify table key f ↔ e = f e0 := by
  rw [mem_jtModify]
  simp only [if_true]
  constructor
  · rintro ⟨e1, h1, rfl⟩
    rw [keys_unique table hn key e1 e0 h1 h0]
  · rintro rfl
    exact ⟨e0, h0, rfl⟩

theorem mem_jtModify_other (table : List (Nat × JumpData)) (key : Nat)
    (f : JumpData → JumpData) (k : Nat) (hk : k ≠ key) (e : JumpData) :
    (k, e) ∈ jtModify table key f ↔ (k, e) ∈ table := by
  rw [mem_jtModify]
  simp only [hk, if_false]
  constructor
  · rintro ⟨e0, h0, rfl⟩; exact h0
  · intro h; exact ⟨e, h, rfl⟩

theorem assignLevels_max (vs : List JumpRange) (table : List (Nat × JumpData))
    (lrs : List (List (Nat × Nat))) (m : Nat) (hn : (table.map Prod.fst).Nodup)
    (hd : (vs.map JumpRange.target).Nodup) :
    m ≤ (assignLevels vs table lrs m).2 ∧
    (∀ v ∈ vs, ∀ e, (v.target, e) ∈ (assignLevels vs table lrs m).1 →
      e.level ≤ (assignLevels vs table lrs m).2) ∧
    ((assignLevels vs table lrs m).2 = m ∨ ∃ v ∈ vs, ∃ e,
      (v.target, e) ∈ (assignLevels vs table lrs m).1 ∧
      e.level = (assignLevels vs table lrs m).2) := by
  induction vs generalizing table lrs m with
  | nil => exact ⟨Nat.le_refl _, fun v hv => by simp at hv, Or.inl rfl⟩
  | cons v vs ih =>
    simp only [List.map_cons, List.nodup_cons] at hd
    simp only [assignLevels]
    split
    · next hf =>
      obtain ⟨a, b, c⟩ := ih table lrs m hn hd.2
      refine ⟨a, ?_, ?_⟩
      · intro u hu e he
        rcases List.mem_cons.mp hu with h | h
        · subst h
          rw [assignLevels_unchanged _ _ _ _ _ _ hd.1] at he
          exact absurd he (jtFind_none table _ hf e)
        · exact b u h e he
      · rcases c with c | ⟨u, hu, e, he, hl⟩
        · exact Or.inl c
        · exact Or.inr ⟨u, List.mem_cons_of_mem _ hu, e, he, hl⟩
    · next e0 hf =>
      have hmem := jtFind_some table v.target e0 hf
      obtain ⟨a, b, c⟩ := ih (jtModify table v.target
          (fun d => { d with level := (placeLevel e0.min e0.max lrs).1 }))
        (placeLevel e0.min e0.max lrs).2
        (if (placeLevel e0.min e0.max lrs).1 > m then (placeLevel e0.min e0.max lrs).1 else m)
        (by rw [jtModify_keys]; exact hn) hd.2
      have hm' : m ≤ (if (placeLevel e0.min e0.max lrs).1 > m
          then (placeLevel e0.min e0.max lrs).1 else m) := by
        split <;> omega
      have hr' : (placeLevel e0.min e0.max lrs).1 ≤ (if (placeLevel e0.min e0.max lrs).1 > m
          then (placeLevel e0.min e0.max lrs).1 else m) := by
        split <;> omega
      have hv : ∀ e, (v.target, e) ∈ (assignLevels vs (jtModify table v.target
          (fun d => { d with level := (placeLevel e0.min e0.max lrs).1 }))
          (placeLevel e0.min e0.max lrs).2
          (if (placeLevel e0.min e0.max lrs).1 > m then (placeLevel e0.min e0.max lrs).1
            else m)).1 ↔ e = { e0 with level := (placeLevel e0.min e0.max lrs).1 } := by
        intro e
        rw [assignLevels_unchanged _ _ _ _ _ _ hd.1, mem_jtModify_key table hn _ _ e0 hmem]
      refine ⟨Nat.le_trans hm' a, ?_, ?_⟩
      · intro u hu e he
        rcases List.mem_cons.mp hu with h | h
        · subst h
          rw [hv] at he
          subst he
          exact Nat.le_trans hr' a
        · exact b u h e he
      · rcases c with c | ⟨u, hu, e, he, hl⟩
        · by_cases hgt : (placeLevel e0.min e0.max lrs).1 > m
          · right
            refine ⟨v, List.mem_cons_self _ _, _, (hv _).mpr rfl, ?_⟩
            rw [c, if_pos hgt]
          · left
            rw [c, if_neg hgt]
        · exact Or.inr ⟨u, List.mem_cons_of_mem _ hu, e, he, hl⟩

theorem assignLevels_least (vs : List JumpRange) (table : List (Nat × JumpData))
    (lrs : List (List (Nat × Nat))) (m : Nat) (done : List Nat)
    (hn : (table.map Prod.fst).Nodup)
    (hd : (done ++ vs.map JumpRange.target).Nodup)
    (hreg : ∀ L r, r ∈ lrs.getD L [] ↔
      ∃ k ∈ done, ∃ e, (k, e) ∈ table ∧ e.level = L ∧ r = (e.min, e.max)) :
    ∀ pre v post e, vs = pre ++ v :: post →
      (v.target, e) ∈ (assignLevels vs table lrs m).1 →
      (∀ k ∈ done ++ pre.map JumpRange.target, ∀ p,
        (k, p) ∈ (assignLevels vs table lrs m).1 →
        p.level = e.level → overlaps e.min e.max (p.min, p.max) = false) ∧
      (∀ L, L < e.level → ∃ k ∈ done ++ pre.map JumpRange.target, ∃ p,
        (k, p) ∈ (assignLevels vs table lrs m).1 ∧ p.level = L ∧
        overlaps e.min e.max (p.min, p.max) = true) := by
  induction vs generalizing table lrs m done with
  | nil =>
    intro pre v post e h
    simp at h
  | cons v vs ih =>
    have hd' : ((done ++ [v.target]) ++ vs.map JumpRange.target).Nodup := by
      simpa using hd
    have hv1 : v.target ∉ vs.map JumpRange.target := by
      simp only [List.map_cons] at hd
      have := (List.nodup_append.mp hd).2.1
      exact (List.nodup_cons.mp this).1
    have hv2 : ∀ k ∈ done, k ≠ v.target := by
      intro k hk hkv
      have := (List.nodup_append.mp hd).2.2
      exact this hk (by simp [hkv])
    have hdone : ∀ k ∈ done, k ∉ vs.map JumpRange.target := by
      intro k hk hkv
      have := (List.nodup_append.mp hd).2.2
      exact this hk (by simp only [List.map_cons]; exact List.mem_cons_of_mem _ hkv)
    simp only [assignLevels]
    split
    · next hf =>
      have hnone := jtFind_none table v.target hf
      have key := ih table lrs m (done ++ [v.target]) hn hd' (by
        intro L r
        rw [hreg]
        constructor
        · rintro ⟨k, hk, e, he, h1, h2⟩
          exact ⟨k, List.mem_append_left _ hk, e, he, h1, h2⟩
        · rintro ⟨k, hk, e, he, h1, h2⟩
          rcases List.mem_append.mp hk with h | h
          · exact ⟨k, h, e, he, h1, h2⟩
          · simp only [List.mem_singleton] at h
            subst h
            exact absurd he (hnone e))
      intro pre u post e hsplit he
      cases pre with
      | nil =>
        simp only [List.nil_append, List.cons.injEq] at hsplit
        obtain ⟨rfl, _⟩ := hsplit
        rw [assignLevels_unchanged _ _ _ _ _ _ hv1] at he
        exact absurd he (hnone e)
      | cons x pre =>
        simp only [List.cons_append, List.cons.injEq] at hsplit
        obtain ⟨rfl, hsplit⟩ := hsplit
        have := key pre u post e hsplit he
        simpa using this
    · next e0 hf =>
      have hmem := jtFind_some table v.target e0 hf
      obtain ⟨pa, _, _⟩ := placeLevel_spec e0.min e0.max lrs
      obtain ⟨pb, pc⟩ := placeLevel_least e0.min e0.max lrs
      obtain ⟨_, pd, pe⟩ := placeLevel_spec e0.min e0.max lrs
      have hn' : ((jtModify table v.target
          (fun d => { d with level := (placeLevel e0.min e0.max lrs).1 })).map Prod.fst).Nodup := by
        rw [jtModify_keys]; exact hn
      have key := ih (jtModify table v.target
          (fun d => { d with level := (placeLevel e0.min e0.max lrs).1 }))
        (placeLevel e0.min e0.max lrs).2
        (if (placeLevel e0.min e0.max lrs).1 > m then (placeLevel e0.min e0.max lrs).1 else m)
        (done ++ [v.target]) hn' hd' (by
        intro L r
        constructor
        · intro hr
          rcases pc L r hr with h | ⟨h1, h2⟩
          · obtain ⟨k, hk, e, he, h1, h2⟩ := (hreg L r).mp h
            exact ⟨k, List.mem_append_left _ hk, e,
              (mem_jtModify_other table _ _ k (hv2 k hk) e).mpr he, h1, h2⟩
          · exact ⟨v.target, by simp, _, (mem_jtModify_key table hn _ _ e0 hmem _).mpr rfl,
              h1.symm, h2⟩
        · rintro ⟨k, hk, e, he, h1, h2⟩
          rcases List.mem_append.mp hk with h | h
          · rw [mem_jtModify_other table _ _ k (hv2 k h) e] at he
            exact pe L r ((hreg L r).mpr ⟨k, h, e, he, h1, h2⟩)
          · simp only [List.mem_singleton] at h
            subst h
            rw [mem_jtModify_key table hn _ _ e0 hmem] at he
            subst he
            subst h2
            rw [← h1]
            exact pd)
      intro pre u post e hsplit he
      cases pre with
      | nil =>
        simp only [List.nil_append, List.cons.injEq] at hsplit
        obtain ⟨rfl, _⟩ := hsplit
        rw [assignLevels_unchanged _ _ _ _ _ _ hv1, mem_jtModify_key table hn _ _ e0 hmem] at he
        subst he
        simp only [List.map_nil, List.append_nil]
        constructor
        · intro k hk p hp hl
          rw [assignLevels_unchanged _ _ _ _ _ _ (hdone k hk),
            mem_jtModify_other table _ _ k (hv2 k hk) p] at hp
          exact pa _ ((hreg _ _).mpr ⟨k, hk, p, hp, hl, rfl⟩)
        · intro L hL
          obtain ⟨r, hr, ho⟩ := pb L hL
          obtain ⟨k, hk, p, hp, h1, h2⟩ := (hreg L r).mp hr
          refine ⟨k, hk, p, ?_, h1, ?_⟩
          · rw [assignLevels_unchanged _ _ _ _ _ _ (hdone k hk),
              mem_jtModify_other table _ _ k (hv2 k hk) p]
            exact hp
          · rw [← h2]; exact ho
      | cons x pre =>
        simp only [List.cons_append, List.cons.injEq] at hsplit
        obtain ⟨rfl, hsplit⟩ := hsplit
        have := key pre u post e hsplit he
        simpa using this

theorem foldr_max_eq (l : List Nat) (M : Nat) (hle : ∀ x ∈ l, x ≤ M) (hat : M = 0 ∨ M ∈ l) :
    l.foldr max 0 = M := by
  have hub : ∀ l : List Nat, (∀ x ∈ l, x ≤ M) → l.foldr max 0 ≤ M := by
    intro l
    induction l with
    | nil => intro _; exact Nat.zero_le _
    | cons a t ih =>
      intro h
      simp only [List.foldr_cons]
      have h1 := h a (List.mem_cons_self _ _)
      have h2 := ih (fun x hx => h x (List.mem_cons_of_mem _ hx))
      omega
  have hlb : ∀ l : List Nat, M ∈ l → M ≤ l.foldr max 0 := by
    intro l
    induction l with
    | nil => intro h; simp at h
    | cons a t ih =>
      intro h
      simp only [List.foldr_cons]
      rcases List.mem_cons.mp h with h | h
      · omega
      · have := ih h
        omega
  rcases hat with h | h
  · have := hub l hle
    omega
  · exact Nat.le_antisymm (hub l hle) (hlb l h)

theorem jumpPostPass_eq (sortRanges : List JumpRange → List JumpRange)
    (hperm : ∀ l, (sortRanges l).Perm l) (table : List (Nat × JumpData)) :
    jumpPostPass sortRanges table =
      assignLevels (sortRanges (jumpRanges (table.map (fun e =>
        (e.1, { e.2 with source := e.2.source.insertionSort (fun a b => a ≤ b) })))))
        (table.map (fun e =>
        (e.1, { e.2 with source := e.2.source.insertionSort (fun a b => a ≤ b) }))) [] 0 := by
  unfold jumpPostPass
  split
  · next he =>
    rw [List.isEmpty_iff] at he
    subst he
    simp only [List.map_nil, jumpRanges]
    rw [(hperm []).eq_nil]
    rfl
  · rfl

theorem jumpPostPass_least (sortRanges : List JumpRange → List JumpRange)
    (hperm : ∀ l, (sortRanges l).Perm l)
    (hsort : ∀ l, (sortRanges l).Pairwise (fun a b => a.len ≤ b.len))
    (table : List (Nat × JumpData)) (hn : (table.map Prod.fst).Nodup) :
    ∃ order : List JumpRange,
      (order.map JumpRange.target).Perm ((jumpPostPass sortRanges table).1.map Prod.fst) ∧
      (∀ v ∈ order, ∀ e, (v.target, e) ∈ (jumpPostPass sortRanges table).1 →
        v.len = e.max - e.min) ∧
      order.Pairwise (fun a b => a.len ≤ b.len) ∧
      (∀ pre v post e, order = pre ++ v :: post →
        (v.target, e) ∈ (jumpPostPass sortRanges table).1 →
        (∀ u ∈ pre, ∀ p, (u.target, p) ∈ (jumpPostPass sortRanges table).1 →
          p.level = e.level → overlaps e.min e.max (p.min, p.max) = false) ∧
        (∀ L, L < e.level → ∃ u ∈ pre, ∃ p, (u.target, p) ∈ (jumpPostPass sortRanges table).1 ∧
          p.level = L ∧ overlaps e.min e.max (p.min, p.max) = true)) ∧
      (jumpPostPass sortRanges table).2 =
        ((jumpPostPass sortRanges table).1.map (fun e => e.2.level)).foldr max 0 := by
  rw [jumpPostPass_eq sortRanges hperm table]
  generalize hT : table.map (fun e =>
    (e.1, { e.2 with source := e.2.source.insertionSort (fun a b => a ≤ b) })) = T
  have hnT : (T.map Prod.fst).Nodup := by
    rw [← hT, List.map_map]
    exact hn
  have hkeys : (jumpRanges T).map JumpRange.target = T.map Prod.fst := by
    unfold jumpRanges
    rw [List.map_map]
    rfl
  have hp : ((sortRanges (jumpRanges T)).map JumpRange.target).Perm (T.map Prod.fst) := by
    rw [← hkeys]
    exact (hperm _).map _
  have hd : ((sortRanges (jumpRanges T)).map JumpRange.target).Nodup := hp.nodup_iff.mpr hnT
  refine ⟨sortRanges (jumpRanges T), ?_, ?_, hsort _, ?_, ?_⟩
  · rw [assignLevels_keys]
    exact hp
  · intro v hv e he
    rw [(hperm _).mem_iff] at hv
    unfold jumpRanges at hv
    obtain ⟨⟨k, e0⟩, h0, rfl⟩ := List.mem_map.mp hv
    obtain ⟨e1, h1, a, b, _⟩ := assignLevels_entries _ _ _ _ _ _ he
    have := keys_unique T hnT k e1 e0 h1 h0
    subst this
    simp only [a, b]
  · intro pre v post e hsplit he
    have key := assignLevels_least (sortRanges (jumpRanges T)) T [] 0 [] hnT
      (by simpa using hd) (by intro L r; simp) pre v post e hsplit he
    constructor
    · intro u hu p hp hl
      exact key.1 u.target (by simpa using ⟨u, hu, rfl⟩) p hp hl
    · intro L hL
      obtain ⟨k, hk, p, hp, h1, h2⟩ := key.2 L hL
      simp only [List.nil_append, List.mem_map] at hk
      obtain ⟨u, hu, rfl⟩ := hk
      exact ⟨u, hu, p, hp, h1, h2⟩
  · obtain ⟨_, b, c⟩ := assignLevels_max (sortRanges (jumpRanges T)) T [] 0 hnT hd
    symm
    apply foldr_max_eq
    · intro x hx
      obtain ⟨⟨k, e⟩, he, rfl⟩ := List.mem_map.mp hx
      have hk : k ∈ (sortRanges (jumpRanges T)).map JumpRange.target := by
        rw [hp.mem_iff, ← assignLevels_keys (sortRanges (jumpRanges T)) T [] 0]
        exact List.mem_map.mpr ⟨(k, e), he, rfl⟩
      obtain ⟨v, hv, rfl⟩ := List.mem_map.mp hk
      exact b v hv e he
    · rcases c with c | ⟨v, _, e, he, hl⟩
      · exact Or.inl c
      · exact Or.inr (List.mem_map.mpr ⟨(v.target, e), he, hl⟩)

theorem Disassemble_lanes_shape (w : Worker) (cs : Decoder)
    (sortRanges : List JumpRange → List JumpRange) (symAddr : Nat) (s : View) :
    ∃ table : List (Nat × JumpData), (table.map Prod.fst).Nodup ∧
      (Disassemble w cs sortRanges symAddr s).2.m_jumpTable = (jumpPostPass sortRanges table).1 ∧
      (Disassemble w cs sortRanges symAddr s).2.m_maxJumpLevel =
        (jumpPostPass sortRanges table).2 := by
  simp only [Disassemble]
  split
  · exact ⟨[], by simp, rfl, rfl⟩
  · split
    · exact ⟨[], by simp, rfl, rfl⟩
    · split
      · exact ⟨[], by simp, rfl, rfl⟩
      · split
        · exact ⟨[], by simp, rfl, rfl⟩
        · split
          · exact ⟨[], by simp, rfl, rfl⟩
          · exact ⟨_, disasmLoop_nodup _ _ _ _ _ ⟨[], [], []⟩ (by simp), rfl, rfl⟩

theorem lane_example (sortRanges : List JumpRange → List JumpRange)
    (hperm : ∀ l, (sortRanges l).Perm l)
    (hsort : ∀ l, (sortRanges l).Pairwise (fun a b => a.len ≤ b.len)) :
    jumpPostPass sortRanges [(0, ⟨0, 100, 0, [100]⟩), (10, ⟨10, 20, 0, [20]⟩),
      (40, ⟨30, 40, 0, [30]⟩)] =
      ([(0, ⟨0, 100, 1, [100]⟩), (10, ⟨10, 20, 0, [20]⟩), (40, ⟨30, 40, 0, [30]⟩)], 1) := by
  rw [jumpPostPass_eq sortRanges hperm]
  have hl : jumpRanges (([(0, ⟨0, 100, 0, [100]⟩), (10, ⟨10, 20, 0, [20]⟩),
      (40, ⟨30, 40, 0, [30]⟩)] : List (Nat × JumpData)).map (fun e =>
        (e.1, { e.2 with source := e.2.source.insertionSort (fun a b => a ≤ b) }))) =
      [⟨0, 100⟩, ⟨10, 10⟩, ⟨40, 10⟩] := by decide
  rw [hl]
  have hp := hperm [⟨0, 100⟩, ⟨10, 10⟩, ⟨40, 10⟩]
  have hs := hsort [⟨0, 100⟩, ⟨10, 10⟩, ⟨40, 10⟩]
  obtain ⟨a, b, c, h⟩ := List.length_eq_three.mp (hp.length_eq.trans rfl)
  rw [h] at hp hs ⊢
  have hnd : [a, b, c].Nodup := hp.nodup_iff.mpr (by decide)
  have ha : a ∈ ([⟨0, 100⟩, ⟨10, 10⟩, ⟨40, 10⟩] : List JumpRange) :=
    hp.mem_iff.mp (by simp)
  have hb : b ∈ ([⟨0, 100⟩, ⟨10, 10⟩, ⟨40, 10⟩] : List JumpRange) :=
    hp.mem_iff.mp (by simp)
  have hc : c ∈ ([⟨0, 100⟩, ⟨10, 10⟩, ⟨40, 10⟩] : List JumpRange) :=
    hp.mem_iff.mp (by simp)
  simp only [List.mem_cons, List.mem_singleton, List.not_mem_nil, or_false] at ha hb hc
  rcases ha with rfl | rfl | rfl <;> rcases hb with rfl | rfl | rfl <;>
    rcases hc with rfl | rfl | rfl <;>
    first
    | exact absurd hnd (by decide)
    | exact absurd hs (by decide)
    | decide

theorem sortByLen_sorted (l : List JumpRange) :
    (sortByLen l).Pairwise (fun a b => a.len ≤ b.len) := by
  haveI : IsTotal JumpRange (fun a b => a.len ≤ b.len) := ⟨fun a b => Nat.le_total _ _⟩
  haveI : IsTrans JumpRange (fun a b => a.len ≤ b.len) := ⟨fun _ _ _ h1 h2 => Nat.le_trans h1 h2⟩
  exact List.sorted_insertionSort (fun a b : JumpRange => a.len ≤ b.len) l

/-- C19: given a sort that orders its input by ascending `len`, the levels that
`Disassemble` leaves in the jump table are those of a pass over the entries in an order
of ascending interval length `max - min`, each entry once, in which every entry gets the
smallest level at which no entry placed before it has an interval with a common point
with its `[min, max]`: no earlier entry of the same level meets it, and at every lower
level some earlier entry does. `m_maxJumpLevel` is the largest level given (0 for an
empty table). For the table with the intervals `[0, 100]`, `[10, 20]`, `[30, 40]` the lane
pass gives the two short ones level 0, the long one level 1, and the maximum 1. -/
theorem Disassemble_lane_assignment (w : Worker) (cs : Decoder)
    (sortRanges : List JumpRange → List JumpRange) (hperm : ∀ l, (sortRanges l).Perm l)
    (hsort : ∀ l, (sortRanges l).Pairwise (fun a b => a.len ≤ b.len))
    (symAddr : Nat) (s : View) :
    (∃ order : List JumpRange,
      (order.map JumpRange.target).Perm
        ((Disassemble w cs sortRanges symAddr s).2.m_jumpTable.map Prod.fst) ∧
      (∀ v ∈ order, ∀ e, (v.target, e) ∈ (Disassemble w cs sortRanges symAddr s).2.m_jumpTable →
        v.len = e.max - e.min) ∧
      order.Pairwise (fun a b => a.len ≤ b.len) ∧
      (∀ pre v post e, order = pre ++ v :: post →
        (v.target, e) ∈ (Disassemble w cs sortRanges symAddr s).2.m_jumpTable →
        (∀ u ∈ pre, ∀ p, (u.target, p) ∈ (Disassemble w cs sortRanges symAddr s).2.m_jumpTable →
          p.level = e.level → ¬ ∃ x, e.min ≤ x ∧ x ≤ e.max ∧ p.min ≤ x ∧ x ≤ p.max) ∧
        (∀ L, L < e.level → ∃ u ∈ pre, ∃ p,
          (u.target, p) ∈ (Disassemble w cs sortRanges symAddr s).2.m_jumpTable ∧
          p.level = L ∧ ∃ x, e.min ≤ x ∧ x ≤ e.max ∧ p.min ≤ x ∧ x ≤ p.max)) ∧
      (Disassemble w cs sortRanges symAddr s).2.m_maxJumpLevel =
        ((Disassemble w cs sortRanges symAddr s).2.m_jumpTable.map
          (fun e => e.2.level)).foldr max 0) ∧
    jumpPostPass sortRanges [(0, ⟨0, 100, 0, [100]⟩), (10, ⟨10, 20, 0, [20]⟩),
      (40, ⟨30, 40, 0, [30]⟩)] =
      ([(0, ⟨0, 100, 1, [100]⟩), (10, ⟨10, 20, 0, [20]⟩), (40, ⟨30, 40, 0, [30]⟩)], 1) := by
  refine ⟨?_, lane_example sortRanges hperm hsort⟩
  have hok := Disassemble_table_ok w cs sortRanges symAddr s
  obtain ⟨table, hn, h1, h2⟩ := Disassemble_lanes_shape w cs sortRanges symAddr s
  obtain ⟨order, a, b, c, d, e⟩ := jumpPostPass_least sortRanges hperm hsort table hn
  rw [← h1] at a b d e
  rw [← h2] at e
  refine ⟨order, a, b, c, ?_, e⟩
  intro pre v post en hsplit he
  obtain ⟨d1, d2⟩ := d pre v post en hsplit he
  constructor
  · intro u hu p hp hl
    have := d1 u hu p hp hl
    rintro ⟨x, x1, x2, x3, x4⟩
    simp only [overlaps, ge_iff_le, Bool.and_eq_false_imp, decide_eq_true_eq,
      decide_eq_false_iff_not] at this
    have := this (Nat.le_trans x1 x4)
    omega
  · intro L hL
    obtain ⟨u, hu, p, hp, hl, ho⟩ := d2 L hL
    refine ⟨u, hu, p, hp, hl, max en.min p.min, ?_⟩
    obtain ⟨_, _, a1, a2⟩ := hok _ _ he
    obtain ⟨_, _, b1, b2⟩ := hok _ _ hp
    simp only [overlaps, ge_iff_le, Bool.and_eq_true, decide_eq_true_eq] at ho
    omega

/-- Three jumps with the intervals `[0x100A, 0x1014]`, `[0x101E, 0x1028]` and
`[0x1000, 0x1064]`, sorted by insertion sort: the statement holds, the two short ones get
level 0, the long one level 1 and `m_maxJumpLevel = 1`. -/
theorem Disassemble_lane_assignment_witness :
    (∃ order : List JumpRange,
      (order.map JumpRange.target).Perm
        ((Disassemble exampleWorker exampleDecoder sortByLen 0x1000
          exampleView).2.m_jumpTable.map Prod.fst) ∧
      (∀ v ∈ order, ∀ e, (v.target, e) ∈ (Disassemble exampleWorker exampleDecoder sortByLen
          0x1000 exampleView).2.m_jumpTable → v.len = e.max - e.min) ∧
      order.Pairwise (fun a b => a.len ≤ b.len) ∧
      (∀ pre v post e, order = pre ++ v :: post →
        (v.target, e) ∈ (Disassemble exampleWorker exampleDecoder sortByLen 0x1000
          exampleView).2.m_jumpTable →
        (∀ u ∈ pre, ∀ p, (u.target, p) ∈ (Disassemble exampleWorker exampleDecoder sortByLen
            0x1000 exampleView).2.m_jumpTable →
          p.level = e.level → ¬ ∃ x, e.min ≤ x ∧ x ≤ e.max ∧ p.min ≤ x ∧ x ≤ p.max) ∧
        (∀ L, L < e.level → ∃ u ∈ pre, ∃ p,
          (u.target, p) ∈ (Disassemble exampleWorker exampleDecoder sortByLen 0x1000
            exampleView).2.m_jumpTable ∧
          p.level = L ∧ ∃ x, e.min ≤ x ∧ x ≤ e.max ∧ p.min ≤ x ∧ x ≤ p.max)) ∧
      (Disassemble exampleWorker exampleDecoder sortByLen 0x1000 exampleView).2.m_maxJumpLevel =
        ((Disassemble exampleWorker exampleDecoder sortByLen 0x1000
          exampleView).2.m_jumpTable.map (fun e => e.2.level)).foldr max 0) ∧
    jumpPostPass sortByLen [(0, ⟨0, 100, 0, [100]⟩), (10, ⟨10, 20, 0, [20]⟩),
      (40, ⟨30, 40, 0, [30]⟩)] =
      ([(0, ⟨0, 100, 1, [100]⟩), (10, ⟨10, 20, 0, [20]⟩), (40, ⟨30, 40, 0, [30]⟩)], 1) ∧
    (Disassemble exampleWorker exampleDecoder sortByLen 0x1000 exampleView).2.m_jumpTable.map
      (fun e => (e.2.min, e.2.max, e.2.level)) =
      [(0x100A, 0x1014, 0), (0x101E, 0x1028, 0), (0x1000, 0x1064, 1)] ∧
    (Disassemble exampleWorker exampleDecoder sortByLen 0x1000 exampleView).2.m_maxJumpLevel
      = 1 :=
  ⟨(Disassemble_lane_assignment exampleWorker exampleDecoder sortByLen
    (fun l => List.perm_insertionSort _ l) sortByLen_sorted 0x1000 exampleView).1,
   (Disassemble_lane_assignment exampleWorker exampleDecoder sortByLen
    (fun l => List.perm_insertionSort _ l) sortByLen_sorted 0x1000 exampleView).2,
   by decide, by decide⟩

/-! ## ParseSource: the lines of a file -/

theorem specSplit_nonterm (pair : Nat → Nat → Bool) (cur : List Nat) (c : Nat) (t : List Nat)
    (h : isTerminator c = false) :
    specSplit pair cur (c :: t) = specSplit pair (cur ++ [c]) t := by
  cases t with
  | nil => simp [specSplit, h]
  | cons d rest => simp [specSplit, h]

theorem specSplit_append (pair : Nat → Nat → Bool) (cur pre rest : List Nat)
    (h : ∀ c ∈ pre, isTerminator c = false) :
    specSplit pair cur (pre ++ rest) = specSplit pair (cur ++ pre) rest := by
  induction pre generalizing cur with
  | nil => simp
  | cons c pre ih =>
    rw [List.cons_append, specSplit_nonterm pair cur c _ (h c (List.mem_cons_self _ _)),
      ih _ (fun x hx => h x (List.mem_cons_of_mem _ hx))]
    simp

theorem drop_eq_slice_append (content : List Nat) (txt stop : Nat) (h : txt ≤ stop) :
    content.drop txt = slice content txt stop ++ content.drop stop := by
  unfold slice
  have : content.drop stop = (content.drop txt).drop (stop - txt) := by
    rw [List.drop_drop]
    congr 1
    omega
  rw [this, List.take_append_drop]

theorem rd_eq_getElem (content : List Nat) (i : Nat) (h : i < content.length) :
    rd content i = content[i] := by
  simp [rd, List.getD_eq_getElem?_getD, List.getElem?_eq_getElem h]

theorem specSplit_at (pair : Nat → Nat → Bool) (content cur : List Nat) (stop : Nat)
    (hs : stop < content.length) (hc : isTerminator (rd content stop) = true) :
    specSplit pair cur (content.drop stop) =
      if stop + 1 = content.length then [cur]
      else if pair (rd content stop) (rd content (stop + 1)) then
        (if stop + 2 = content.length then [cur]
          else cur :: specSplit pair [] (content.drop (stop + 2)))
      else cur :: specSplit pair [] (content.drop (stop + 1)) := by
  rw [List.drop_eq_getElem_cons hs]
  rw [rd_eq_getElem content stop hs] at hc ⊢
  by_cases h1 : stop + 1 = content.length
  · rw [if_pos h1, List.drop_eq_nil_of_le (by omega)]
    simp [specSplit, hc]
  · have hs1 : stop + 1 < content.length := by omega
    rw [if_neg h1, List.drop_eq_getElem_cons hs1, rd_eq_getElem content (stop + 1) hs1]
    simp only [specSplit, hc, if_true]
    by_cases hp : pair content[stop] content[stop + 1] = true
    · simp only [hp, if_true]
      by_cases h2 : stop + 2 = content.length
      · rw [if_pos h2, List.drop_eq_nil_of_le (by omega)]
        simp
      · rw [if_neg h2]
        have : (content.drop (stop + 1 + 1)).isEmpty = false := by
          rw [List.isEmpty_eq_false]
          intro hnil
          have := List.drop_eq_nil_iff.mp hnil
          omega
        simp [this]
    · simp only [hp]
      simp

theorem mem_slice_rd (content : List Nat) (lo hi c : Nat) (h : c ∈ slice content lo hi) :
    ∃ i, lo ≤ i ∧ i < hi ∧ i < content.length ∧ rd content i = c := by
  unfold slice at h
  obtain ⟨k, hk, rfl⟩ := List.mem_iff_getElem.mp h
  simp only [List.length_take, List.length_drop] at hk
  refine ⟨lo + k, by omega, by omega, by omega, ?_⟩
  rw [rd_eq_getElem content (lo + k) (by omega)]
  simp [List.getElem_take, List.getElem_drop]

theorem skipTerminator_spec (content : List Nat)
    (hnul : ∀ i, i + 1 < content.length → isTerminator (rd content i) = true →
      rd content (i + 1) ≠ 0)
    (stop : Nat) (hlt : stop < content.length) (hc : isTerminator (rd content stop) = true) :
    skipTerminator (content ++ [0]) stop =
      (if stop + 1 = content.length then stop + 1
        else if crlfOrLfcrPair (rd content stop) (rd content (stop + 1)) then stop + 2
        else stop + 1) ∧
    (rd (content ++ [0]) (skipTerminator (content ++ [0]) stop) = 0 ↔
      skipTerminator (content ++ [0]) stop = content.length) := by
  have hz : rd (content ++ [0]) content.length = 0 := by simp [rd]
  have h0 : rd (content ++ [0]) stop = rd content stop := rd_append content [0] stop hlt
  have hc' : rd content stop = 10 ∨ rd content stop = 13 := by
    simpa [isTerminator] using hc
  by_cases h1 : stop + 1 = content.length
  · have h1z : rd (content ++ [0]) (stop + 1) = 0 := by rw [h1]; exact hz
    have hk : skipTerminator (content ++ [0]) stop = stop + 1 := by
      unfold skipTerminator
      rw [h0, h1z]
      rcases hc' with h | h <;> simp [h]
    rw [hk, if_pos h1]
    exact ⟨rfl, fun _ => h1, fun _ => h1z⟩
  · have hs1 : stop + 1 < content.length := by omega
    have h1d : rd (content ++ [0]) (stop + 1) = rd content (stop + 1) :=
      rd_append content [0] (stop + 1) hs1
    have hd := hnul stop hs1 hc
    rw [if_neg h1]
    by_cases hp : crlfOrLfcrPair (rd content stop) (rd content (stop + 1)) = true
    · have hk : skipTerminator (content ++ [0]) stop = stop + 2 := by
        unfold skipTerminator
        rw [h0, h1d]
        rcases hc' with h | h
        · simp [h, crlfOrLfcrPair] at hp ⊢
          exact hp
        · simp [h, crlfOrLfcrPair] at hp ⊢
          exact hp
      have hdt : isTerminator (rd content (stop + 1)) = true := by
        rcases hc' with h | h
        · simp [h, crlfOrLfcrPair] at hp
          simp [isTerminator, hp]
        · simp [h, crlfOrLfcrPair] at hp
          simp [isTerminator, hp]
      rw [hk, if_pos hp]
      refine ⟨rfl, ?_, ?_⟩
      · intro hzero
        by_contra hne
        have hs2 : stop + 2 < content.length := by omega
        rw [rd_append content [0] (stop + 2) hs2] at hzero
        exact hnul (stop + 1) hs2 hdt hzero
      · intro he
        rw [he]
        exact hz
    · have hk : skipTerminator (content ++ [0]) stop = stop + 1 := by
        unfold skipTerminator
        rw [h0, h1d]
        rcases hc' with h | h
        · simp [h, crlfOrLfcrPair] at hp ⊢
          exact hp
        · simp [h, crlfOrLfcrPair] at hp ⊢
          exact hp
      rw [hk, if_neg hp]
      refine ⟨rfl, ?_, ?_⟩
      · intro hzero
        rw [h1d] at hzero
        exact absurd hzero hd
      · intro he
        exact absurd he h1

theorem parseLines_split (content : List Nat)
    (hnul : ∀ i, i + 1 < content.length → isTerminator (rd content i) = true →
      rd content (i + 1) ≠ 0)
    (fuel txt : Nat) (st : Tokenizer) (ht : txt ≤ content.length)
    (hf : content.length - txt < fuel) :
    ∃ ls, parseLines (content ++ [0]) content.length fuel txt st = some ls ∧
      lineBytes content ls = specSplit crlfOrLfcrPair [] (content.drop txt) := by
  have hz : rd (content ++ [0]) content.length = 0 := by simp [rd]
  induction fuel generalizing txt st with
  | zero => omega
  | succ n ih =>
    simp only [parseLines]
    have h1 : txt ≤ scan (fun q => rd (content ++ [0]) q != 10 && rd (content ++ [0]) q != 13 &&
        decide (q < content.length)) (content.length - txt) txt := scan_ge _ _ _
    have h2 : scan (fun q => rd (content ++ [0]) q != 10 && rd (content ++ [0]) q != 13 &&
        decide (q < content.length)) (content.length - txt) txt ≤ content.length :=
      scan_le _ _ (fun q _ h => by simp at h; exact h.2) _ _ ht
    have h3 := scan_exit (fun q => rd (content ++ [0]) q != 10 && rd (content ++ [0]) q != 13 &&
        decide (q < content.length)) content.length
      (fun q h => by simp at h; exact h.2) (content.length - txt) txt (Nat.le_refl _)
    have hall : ∀ i, txt ≤ i → i < scan (fun q => rd (content ++ [0]) q != 10 &&
        rd (content ++ [0]) q != 13 && decide (q < content.length)) (content.length - txt) txt →
        isTerminator (rd content i) = false := by
      intro i a b
      have := scan_all _ _ _ i a b
      simp only [Bool.and_eq_true, bne_iff_ne, ne_eq, decide_eq_true_eq] at this
      rw [rd_append content [0] i this.2] at this
      simp [isTerminator, this.1.1, this.1.2]
    generalize scan (fun q => rd (content ++ [0]) q != 10 && rd (content ++ [0]) q != 13 &&
        decide (q < content.length)) (content.length - txt) txt = stop at h1 h2 h3 hall
    have hterm : Term (content ++ [0]) stop := by
      by_cases e : stop = content.length
      · subst e; exact Or.inr (Or.inr hz)
      · have hl : stop < content.length := by omega
        by_cases a : rd (content ++ [0]) stop = 10
        · exact Or.inl a
        · by_cases b : rd (content ++ [0]) stop = 13
          · exact Or.inr (Or.inl b)
          · simp [a, b, hl] at h3
    obtain ⟨ts, st1, e, _⟩ := Tokenize_ok (content ++ [0]) txt stop st h1 hterm
    rw [e]
    simp only
    have hsplit : specSplit crlfOrLfcrPair [] (content.drop txt) =
        specSplit crlfOrLfcrPair (slice content txt stop) (content.drop stop) := by
      rw [drop_eq_slice_append content txt stop h1, specSplit_append]
      · simp
      · intro c hc
        obtain ⟨i, a, b, _, rfl⟩ := mem_slice_rd content txt stop c hc
        exact hall i a b
    rw [hsplit]
    by_cases hs : stop = content.length
    · subst hs
      have hk : skipTerminator (content ++ [0]) content.length = content.length := by
        simp [skipTerminator, hz]
      rw [hk, hz]
      refine ⟨_, rfl, ?_⟩
      simp [lineBytes, specSplit]
    · have hlt : stop < content.length := by omega
      have hc : isTerminator (rd content stop) = true := by
        rw [← rd_append content [0] stop hlt]
        rcases hterm with t | t | t
        · simp [isTerminator, t]
        · simp [isTerminator, t]
        · simp [t, hlt] at h3
      obtain ⟨k1, k2⟩ := skipTerminator_spec content hnul stop hlt hc
      rw [specSplit_at crlfOrLfcrPair content _ stop hlt hc]
      have hle : skipTerminator (content ++ [0]) stop ≤ content.length ∧
          stop < skipTerminator (content ++ [0]) stop := by
        rw [k1]
        split
        · omega
        · split
          · next hp =>
            have : stop + 2 ≤ content.length := by omega
            omega
          · omega
      generalize skipTerminator (content ++ [0]) stop = next at k1 k2 hle
      by_cases hb : rd (content ++ [0]) next = 0
      · have hn := k2.mp hb
        simp only [hb, beq_self_eq_true, if_true]
        refine ⟨_, rfl, ?_⟩
        simp only [lineBytes, List.map_cons, List.map_nil]
        by_cases c1 : stop + 1 = content.length
        · rw [if_pos c1]
        · rw [if_neg c1] at k1 ⊢
          by_cases c2 : crlfOrLfcrPair (rd content stop) (rd content (stop + 1)) = true
          · rw [if_pos c2] at k1 ⊢
            rw [if_pos (by omega)]
          · rw [if_neg c2] at k1
            omega
      · have hn : next ≠ content.length := fun h => hb (k2.mpr h)
        have hb' : (rd (content ++ [0]) next == 0) = false := by simpa using hb
        simp only [hb']
        obtain ⟨ls, e2, hls⟩ := ih next st1 hle.1 (by omega)
        rw [e2]
        refine ⟨_, rfl, ?_⟩
        simp only [lineBytes, List.map_cons] at hls ⊢
        rw [hls]
        by_cases c1 : stop + 1 = content.length
        · rw [if_pos c1] at k1
          omega
        · rw [if_neg c1] at k1 ⊢
          by_cases c2 : crlfOrLfcrPair (rd content stop) (rd content (stop + 1)) = true
          · rw [if_pos c2] at k1 ⊢
            rw [if_neg (by omega), k1]
          · rw [if_neg c2] at k1 ⊢
            rw [k1]

theorem specSplit_no_term (pair : Nat → Nat → Bool) (n : Nat) :
    ∀ (cur l : List Nat), l.length ≤ n → (∀ c ∈ cur, isTerminator c = false) →
      ∀ seg ∈ specSplit pair cur l, ∀ c ∈ seg, isTerminator c = false := by
  induction n with
  | zero =>
    intro cur l hl hcur seg hseg
    have : l = [] := List.length_eq_zero.mp (by omega)
    subst this
    simp only [specSplit, List.mem_singleton] at hseg
    subst hseg
    exact hcur
  | succ n ih =>
    intro cur l hl hcur seg hseg
    match l, hl, hseg with
    | [], _, hseg =>
      simp only [specSplit, List.mem_singleton] at hseg
      subst hseg
      exact hcur
    | [c], _, hseg =>
      simp only [specSplit] at hseg
      split at hseg
      · simp only [List.mem_singleton] at hseg
        subst hseg
        exact hcur
      · next hc =>
        simp only [List.mem_singleton] at hseg
        subst hseg
        intro x hx
        rcases List.mem_append.mp hx with h | h
        · exact hcur x h
        · simp only [List.mem_singleton] at h
          subst h
          simpa using hc
    | c :: d :: rest, hl, hseg =>
      simp only [List.length_cons] at hl
      simp only [specSplit] at hseg
      split at hseg
      · split at hseg
        · split at hseg
          · simp only [List.mem_singleton] at hseg
            subst hseg
            exact hcur
          · rcases List.mem_cons.mp hseg with h | h
            · subst h; exact hcur
            · exact ih [] rest (by omega) (fun c hc => by simp at hc) seg h
        · rcases List.mem_cons.mp hseg with h | h
          · subst h; exact hcur
          · exact ih [] (d :: rest) (by simp only [List.length_cons]; omega)
              (fun c hc => by simp at hc) seg h
      · next hc =>
        refine ih (cur ++ [c]) (d :: rest) (by simp only [List.length_cons]; omega) ?_ seg hseg
        intro x hx
        rcases List.mem_append.mp hx with h | h
        · exact hcur x h
        · simp only [List.mem_singleton] at h
          subst h
          simpa using hc

theorem specSplit_congr (p1 p2 : Nat → Nat → Bool) (n : Nat) :
    ∀ (cur l : List Nat), l.length ≤ n →
      (∀ i, i + 1 < l.length → p1 (rd l i) (rd l (i + 1)) = p2 (rd l i) (rd l (i + 1))) →
      specSplit p1 cur l = specSplit p2 cur l := by
  induction n with
  | zero =>
    intro cur l hl _
    have : l = [] := List.length_eq_zero.mp (by omega)
    subst this
    simp [specSplit]
  | succ n ih =>
    intro cur l hl h
    match l, hl, h with
    | [], _, _ => simp [specSplit]
    | [c], _, _ => simp [specSplit]
    | c :: d :: rest, hl, h =>
      simp only [List.length_cons] at hl
      have h0 : p1 c d = p2 c d := by
        have := h 0 (by simp only [List.length_cons]; omega)
        simpa [rd] using this
      have hshift : ∀ i, i + 1 < (d :: rest).length →
          p1 (rd (d :: rest) i) (rd (d :: rest) (i + 1)) =
            p2 (rd (d :: rest) i) (rd (d :: rest) (i + 1)) := by
        intro i hi
        have := h (i + 1) (by simp only [List.length_cons] at hi ⊢; omega)
        simpa [rd] using this
      have hshift2 : ∀ i, i + 1 < rest.length →
          p1 (rd rest i) (rd rest (i + 1)) = p2 (rd rest i) (rd rest (i + 1)) := by
        intro i hi
        have := hshift (i + 1) (by simp only [List.length_cons]; omega)
        simpa [rd] using this
      simp only [specSplit, h0]
      rw [ih [] rest (by omega) hshift2,
        ih [] (d :: rest) (by simp only [List.length_cons]; omega) hshift,
        ih (cur ++ [c]) (d :: rest) (by simp only [List.length_cons]; omega) hshift]

/-- C20 (amended): for every non-empty file content in which no NUL byte directly follows
a `\n` or `\r` byte, the lines produced by `ParseSource` are exactly the segments
obtained by splitting the content at each line terminator `\n`, `\r\n`, `\n\r` or `\r`:
each terminator ends exactly one line, no line contains a terminator byte, and a
terminator at the very end of the file does not add an empty line. When no `\n` is
directly followed by `\r`, these are the segments between the terminators `\n`, `\r\n`
and `\r`. -/
theorem ParseSource_lines (content : List Nat) (_hne : content ≠ [])
    (hnul : ∀ i, i + 1 < content.length → isTerminator (rd content i) = true →
      rd content (i + 1) ≠ 0) :
    ∃ ls, ParseSource content = some ls ∧
      lineBytes content ls = specSplit crlfOrLfcrPair [] content ∧
      (∀ l ∈ ls, ∀ c ∈ slice content l.begin l.stop, c ≠ 10 ∧ c ≠ 13) ∧
      ((∀ i, i + 1 < content.length → ¬ (rd content i = 10 ∧ rd content (i + 1) = 13)) →
        lineBytes content ls = specLines content) := by
  obtain ⟨ls, e, h⟩ := parseLines_split content hnul (content.length + 1) 0 Tokenizer.reset
    (Nat.zero_le _) (by omega)
  rw [List.drop_zero] at h
  refine ⟨ls, e, h, ?_, ?_⟩
  · intro l hl c hc
    have hm : slice content l.begin l.stop ∈ specSplit crlfOrLfcrPair [] content := by
      rw [← h]
      exact List.mem_map.mpr ⟨l, hl, rfl⟩
    have := specSplit_no_term crlfOrLfcrPair content.length [] content (Nat.le_refl _)
      (fun c hc => by simp at hc) _ hm c hc
    simpa [isTerminator] using this
  · intro hno
    rw [h]
    unfold specLines
    apply specSplit_congr _ _ content.length _ _ (Nat.le_refl _)
    intro i hi
    have := hno i hi
    simp only [crlfOrLfcrPair, crlfPair]
    cases h1 : (rd content i == 10 && rd content (i + 1) == 13) with
    | false => simp
    | true =>
      simp only [Bool.and_eq_true, beq_iff_eq] at h1
      exact absurd h1 this

/-- A file with the lines `a`, `b`, `c`, ended by `\r\n`, `\n\r` and `\n`: `ParseSource`
produces these three lines. -/
theorem ParseSource_lines_witness :
    (∃ ls, ParseSource [97, 13, 10, 98, 10, 13, 99, 10] = some ls ∧
      lineBytes [97, 13, 10, 98, 10, 13, 99, 10] ls =
        specSplit crlfOrLfcrPair [] [97, 13, 10, 98, 10, 13, 99, 10] ∧
      (∀ l ∈ ls, ∀ c ∈ slice [97, 13, 10, 98, 10, 13, 99, 10] l.begin l.stop,
        c ≠ 10 ∧ c ≠ 13) ∧
      ((∀ i, i + 1 < [97, 13, 10, 98, 10, 13, 99, 10].length →
          ¬ (rd [97, 13, 10, 98, 10, 13, 99, 10] i = 10 ∧
            rd [97, 13, 10, 98, 10, 13, 99, 10] (i + 1) = 13)) →
        lineBytes [97, 13, 10, 98, 10, 13, 99, 10] ls =
          specLines [97, 13, 10, 98, 10, 13, 99, 10])) ∧
    specSplit crlfOrLfcrPair [] [97, 13, 10, 98, 10, 13, 99, 10] = [[97], [98], [99]] :=
  ⟨ParseSource_lines [97, 13, 10, 98, 10, 13, 99, 10] (by decide)
    (fun i hi => by
      have hi' : i < 7 := by simp only [List.length_cons, List.length_nil] at hi; omega
      interval_cases i <;> decide),
   by decide⟩

/-- C20, as stated, fails: for the content `a\n\rb` the function `ParseSource` produces
the two lines `a` and `b`, while splitting at each terminator `\n`, `\r\n` or `\r` gives
the three segments `a`, the empty one between `\n` and `\r`, and `b`. -/
theorem ParseSource_lines_lfcr_one_terminator :
    (ParseSource [97, 10, 13, 98]).map (lineBytes [97, 10, 13, 98]) = some [[97], [98]] ∧
    specLines [97, 10, 13, 98] = [[97], [], [98]] := by
  decide

/-! ## Identifier tokens -/

set_option maxRecDepth 100000 in
theorem word_lengths :
    (s_keywords ++ s_types ++ s_special).all (fun s => decide ((cstr s).length ≤ 24)) = true := by
  decide

theorem inSet_length (set : List String)
    (hall : set.all (fun s => decide ((cstr s).length ≤ 24)) = true) (buf : List Nat)
    (h : inSet set buf = true) : buf.length ≤ 24 := by
  unfold inSet at h
  obtain ⟨s, hs, he⟩ := List.any_eq_true.mp h
  have := List.all_eq_true.mp hall s hs
  simp only [beq_iff_eq] at he
  rw [← he]
  simpa using this

theorem all_of_append_left {α : Type} (l1 l2 : List α) (p : α → Bool)
    (h : (l1 ++ l2).all p = true) : l1.all p = true ∧ l2.all p = true := by
  rw [List.all_append, Bool.and_eq_true] at h
  exact h

theorem slice_length (data : List Nat) (lo hi : Nat) (h : hi ≤ data.length) :
    (slice data lo hi).length = hi - lo := by
  unfold slice
  rw [List.length_take, List.length_drop]
  omega

theorem identColor_eq (data : List Nat) (tmp p : Nat) (hp : p ≤ data.length) :
    identColor data tmp p =
      if inSet s_keywords (slice data tmp p) then TokenColor.Keyword
      else if inSet s_types (slice data tmp p) then TokenColor.Type
      else if inSet s_special (slice data tmp p) then TokenColor.Special
      else TokenColor.Default := by
  unfold identColor
  split
  · rfl
  · next hgt =>
    have hlen := slice_length data tmp p hp
    have hw := word_lengths
    obtain ⟨h12, h3⟩ := all_of_append_left _ _ _ hw
    obtain ⟨h1, h2⟩ := all_of_append_left _ _ _ h12
    have n1 : inSet s_keywords (slice data tmp p) = false := by
      cases h : inSet s_keywords (slice data tmp p) with
      | false => rfl
      | true => have := inSet_length _ h1 _ h; omega
    have n2 : inSet s_types (slice data tmp p) = false := by
      cases h : inSet s_types (slice data tmp p) with
      | false => rfl
      | true => have := inSet_length _ h2 _ h; omega
    have n3 : inSet s_special (slice data tmp p) = false := by
      cases h : inSet s_special (slice data tmp p) with
      | false => rfl
      | true => have := inSet_length _ h3 _ h; omega
    simp [n1, n2, n3]

theorem isIdentChar_ne_zero (c : Nat) (h : isIdentChar c = true) : c ≠ 0 := by
  intro e
  subst e
  simp [isIdentChar, isLower, isUpper, isDigit] at h

theorem identCond_ident (data : List Nat) (stop q : Nat) (h : identCond data stop q = true) :
    isIdentChar (rd data q) = true := by
  simp only [identCond, Bool.or_eq_true, Bool.and_eq_true, decide_eq_true_eq] at h
  simp only [isIdentChar, Bool.or_eq_true]
  tauto

/-- C21: when the token at `begin` starts with a letter or `_` (on a line that ends at a
terminator or the NUL sentinel), `IdentifyToken` takes the maximal run of letters,
digits and `_` from `begin` inside the line, and colours it Keyword if the run is in the
keyword list, otherwise Type if it is in the type list, otherwise Special if it is in the
special list, otherwise Default: the lookups are those of the whole run, the bound of 24
bytes changes nothing, and no word of the three lists is longer than 24 bytes. -/
theorem IdentifyToken_identifier (data : List Nat) (begin stop : Nat) (st : Tokenizer)
    (hs : begin ≤ stop) (ht : Term data stop)
    (hc : (isLower (rd data begin) || isUpper (rd data begin) || rd data begin == 95) = true) :
    (∃ p, IdentifyToken data begin stop st =
        some (if inSet s_keywords (slice data begin p) then TokenColor.Keyword
          else if inSet s_types (slice data begin p) then TokenColor.Type
          else if inSet s_special (slice data begin p) then TokenColor.Special
          else TokenColor.Default, p, st) ∧
      begin < p ∧ p ≤ stop ∧
      (∀ i, begin ≤ i → i < p → isIdentChar (rd data i) = true) ∧
      (p < stop → isIdentChar (rd data p) = false)) ∧
    ∀ s ∈ s_keywords ++ s_types ++ s_special, (cstr s).length ≤ 24 := by
  refine ⟨?_, fun s hs => by simpa using List.all_eq_true.mp word_lengths s hs⟩
  have hb : isIdentChar (rd data begin) = true := by
    simp only [Bool.or_eq_true] at hc
    simp only [isIdentChar, Bool.or_eq_true]
    tauto
  have hlt : begin < stop := by
    rcases Nat.eq_or_lt_of_le hs with e | l
    · subst e
      rcases ht with t | t | t <;> simp [t, isIdentChar, isLower, isUpper, isDigit] at hb
    · exact l
  have h34 : (rd data begin == 34) = false := by
    cases h : rd data begin == 34 with
    | false => rfl
    | true =>
      simp only [beq_iff_eq] at h
      simp [h, isLower, isUpper] at hc
  have h39 : (rd data begin == 39) = false := by
    cases h : rd data begin == 39 with
    | false => rfl
    | true =>
      simp only [beq_iff_eq] at h
      simp [h, isLower, isUpper] at hc
  have h1 : begin + 1 ≤ scan (identCond data stop) (data.length - (begin + 1)) (begin + 1) :=
    scan_ge _ _ _
  have h2 : scan (identCond data stop) (data.length - (begin + 1)) (begin + 1) ≤ stop :=
    scan_le _ _ (identCond_guard data stop ht) _ _ hlt
  have h3 := scan_exit (identCond data stop) data.length
    (fun q h => rd_lt data q (isIdentChar_ne_zero _ (identCond_ident data stop q h)))
    (data.length - (begin + 1)) (begin + 1) (Nat.le_refl _)
  have hall : ∀ i, begin + 1 ≤ i →
      i < scan (identCond data stop) (data.length - (begin + 1)) (begin + 1) →
      isIdentChar (rd data i) = true :=
    fun i a b => identCond_ident data stop i (scan_all _ _ _ i a b)
  generalize hp : scan (identCond data stop) (data.length - (begin + 1)) (begin + 1) = p
    at h1 h2 h3 hall
  have hall' : ∀ i, begin ≤ i → i < p → isIdentChar (rd data i) = true := by
    intro i a b
    rcases Nat.eq_or_lt_of_le a with e | l
    · subst e; exact hb
    · exact hall i l b
  have hple : p ≤ data.length := by
    have := rd_lt data (p - 1) (isIdentChar_ne_zero _ (hall' (p - 1) (by omega) (by omega)))
    omega
  refine ⟨p, ?_, by omega, h2, hall', ?_⟩
  · unfold IdentifyToken
    simp only [h34, h39, hc, hp, if_true, Bool.false_eq_true, if_false]
    rw [identColor_eq data begin p hple]
  · intro hps
    simp only [identCond, hps, decide_True, Bool.true_and] at h3
    simpa [isIdentChar] using h3

/-- The line `final x`: the token at 0 is the run `final`, a word of the keyword list. -/
theorem IdentifyToken_identifier_witness :
    IdentifyToken (cstr "final x" ++ [0]) 0 7 Tokenizer.reset =
      some (TokenColor.Keyword, 5, Tokenizer.reset) ∧
    ∃ p, IdentifyToken (cstr "final x" ++ [0]) 0 7 Tokenizer.reset =
        some (if inSet s_keywords (slice (cstr "final x" ++ [0]) 0 p) then TokenColor.Keyword
          else if inSet s_types (slice (cstr "final x" ++ [0]) 0 p) then TokenColor.Type
          else if inSet s_special (slice (cstr "final x" ++ [0]) 0 p) then TokenColor.Special
          else TokenColor.Default, p, Tokenizer.reset) ∧
      0 < p ∧ p ≤ 7 ∧
      (∀ i, 0 ≤ i → i < p → isIdentChar (rd (cstr "final x" ++ [0]) i) = true) ∧
      (p < 7 → isIdentChar (rd (cstr "final x" ++ [0]) p) = false) :=
  ⟨by decide,
   (IdentifyToken_identifier (cstr "final x" ++ [0]) 0 7 Tokenizer.reset (by decide)
    (Or.inr (Or.inr (by decide))) (by decide)).1⟩

/-! ## Preprocessor tokens -/

theorem identColor_ne_preprocessor (data : List Nat) (tmp p : Nat) :
    identColor data tmp p ≠ TokenColor.Preprocessor := by
  unfold identColor
  split
  · simp only
    split
    · exact TokenColor.noConfusion
    · split
      · exact TokenColor.noConfusion
      · split <;> exact TokenColor.noConfusion
  · exact TokenColor.noConfusion

theorem IdentifyToken_color (data : List Nat) (pos stop : Nat) (st : Tokenizer)
    (col : TokenColor) (p : Nat) (st1 : Tokenizer)
    (h : IdentifyToken data pos stop st = some (col, p, st1)) :
    col ≠ TokenColor.Preprocessor ∧ st1.isInPreprocessor = st.isInPreprocessor := by
  unfold IdentifyToken at h
  lift_lets at h
  extract_lets c p1 p2 p3 p4 pid num pp at h
  split at h
  · simp only [Option.some.injEq, Prod.mk.injEq] at h
    obtain ⟨rfl, _, rfl⟩ := h
    exact ⟨TokenColor.noConfusion, rfl⟩
  · split at h
    · simp only [Option.some.injEq, Prod.mk.injEq] at h
      obtain ⟨rfl, _, rfl⟩ := h
      exact ⟨TokenColor.noConfusion, rfl⟩
    · split at h
      · simp only [Option.some.injEq, Prod.mk.injEq] at h
        obtain ⟨rfl, _, rfl⟩ := h
        exact ⟨identColor_ne_preprocessor _ _ _, rfl⟩
      · split at h
        · simp only [Option.some.injEq, Prod.mk.injEq] at h
          obtain ⟨rfl, _, rfl⟩ := h
          exact ⟨TokenColor.noConfusion, rfl⟩
        · split at h
          · simp only [Option.some.injEq, Prod.mk.injEq] at h
            obtain ⟨rfl, _, rfl⟩ := h
            exact ⟨TokenColor.noConfusion, rfl⟩
          · split at h
            · split at h
              · simp only [Option.some.injEq, Prod.mk.injEq] at h
                obtain ⟨rfl, _, rfl⟩ := h
                refine ⟨TokenColor.noConfusion, ?_⟩
                split <;> rfl
              · simp at h
            · split at h
              · simp only [Option.some.injEq, Prod.mk.injEq] at h
                obtain ⟨rfl, _, rfl⟩ := h
                exact ⟨TokenColor.noConfusion, rfl⟩
              · simp only [Option.some.injEq, Prod.mk.injEq] at h
                obtain ⟨rfl, _, rfl⟩ := h
                exact ⟨TokenColor.noConfusion, rfl⟩

theorem PreprocOK_cons (data : List Nat) (stop : Nat) (t : Token) (ts : List Token)
    (st1 : Tokenizer) (ht : t.color ≠ TokenColor.Preprocessor)
    (h : PreprocOK data stop ts st1) : PreprocOK data stop (t :: ts) st1 := by
  rcases h with ⟨a, b⟩ | ⟨pre, pos, e, a, b, c, d⟩
  · left
    refine ⟨?_, b⟩
    intro u hu
    rcases List.mem_cons.mp hu with h | h
    · subst h; exact ht
    · exact a u h
  · right
    refine ⟨t :: pre, pos, by rw [e]; rfl, ?_, b, c, d⟩
    intro u hu
    rcases List.mem_cons.mp hu with h | h
    · subst h; exact ht
    · exact a u h

theorem tokenizeLoop_preproc (data : List Nat) (stop : Nat) (first : Bool) (fuel : Nat) :
    ∀ (begin : Nat) (st : Tokenizer) (ts : List Token) (st1 : Tokenizer),
      st.isInPreprocessor = false →
      tokenizeLoop data stop first fuel begin st = some (ts, st1) →
      PreprocOK data stop ts st1 := by
  induction fuel with
  | zero =>
    intro begin st ts st1 hst h
    simp only [tokenizeLoop] at h
    split at h
    · simp only [Option.some.injEq, Prod.mk.injEq] at h
      obtain ⟨rfl, rfl⟩ := h
      exact Or.inl ⟨fun t ht => by simp at ht, hst⟩
    · simp at h
  | succ n ih =>
    intro begin st ts st1 hst h
    simp only [tokenizeLoop] at h
    split at h
    · simp only [Option.some.injEq, Prod.mk.injEq] at h
      obtain ⟨rfl, rfl⟩ := h
      exact Or.inl ⟨fun t ht => by simp at ht, hst⟩
    · split at h
      · split at h
        · simp at h
        · simp only [Option.some.injEq, Prod.mk.injEq] at h
          obtain ⟨rfl, rfl⟩ := h
          left
          refine ⟨?_, hst⟩
          intro t ht
          simp only [List.mem_singleton] at ht
          subst ht
          exact TokenColor.noConfusion
        · next p hp =>
          split at h
          · simp at h
          · next ts2 st2 hrec =>
            simp only [Option.some.injEq, Prod.mk.injEq] at h
            obtain ⟨rfl, rfl⟩ := h
            exact PreprocOK_cons data stop _ ts2 _ TokenColor.noConfusion
              (ih p { st with isInComment := false } ts2 _ hst hrec)
      · generalize scan (fun q => q != stop && isspace (rd data q)) (data.length - begin) begin
          = pos at h
        split at h
        · next hc =>
          simp only [Bool.and_eq_true, decide_eq_true_eq, beq_iff_eq] at hc
          simp only [Option.some.injEq, Prod.mk.injEq] at h
          obtain ⟨rfl, rfl⟩ := h
          right
          refine ⟨[], pos, rfl, fun u hu => by simp at hu, hc.2, hc.1.2, ?_⟩
          split
          · next h92 => simp [h92]
          · next h92 => simp [h92, hst]
        · split at h
          · simp at h
          · next col p stI hI =>
            split at h
            · simp at h
            · next ts2 st2 hrec =>
              simp only [Option.some.injEq, Prod.mk.injEq] at h
              obtain ⟨rfl, rfl⟩ := h
              obtain ⟨c1, c2⟩ := IdentifyToken_color data pos stop st col p stI hI
              exact PreprocOK_cons data stop _ ts2 _ c1 (ih p stI ts2 _ (c2.trans hst) hrec)

theorem scan_eq (cond : Nat → Bool) (q : Nat) (hq : cond q = false) (fuel p : Nat)
    (hp : p ≤ q) (hf : q - p ≤ fuel) (hall : ∀ i, p ≤ i → i < q → cond i = true) :
    scan cond fuel p = q := by
  induction fuel generalizing p with
  | zero =>
    simp only [scan]
    omega
  | succ n ih =>
    simp only [scan]
    rcases Nat.eq_or_lt_of_le hp with e | l
    · subst e
      simp [hq]
    · rw [if_pos (hall p (Nat.le_refl _) l)]
      exact ih (p + 1) l (by omega) (fun i a b => hall i (by omega) b)

/-- C27 (amended): for a line tokenized with both tokenizer flags clear, if the first
non-whitespace byte is `#`, the only token is a `Preprocessor` token from that `#` to the
end of the line, and `isInPreprocessor` is set exactly when the last byte of the line is
a backslash. In general the line gets at most one `Preprocessor` token: it is then the
last token, begins at a `#`, ends at the end of the line, and `isInPreprocessor` is set
exactly when there is such a token and the last byte of the line is a backslash. -/
theorem Tokenize_preprocessor (data : List Nat) (begin stop : Nat) (hb : begin ≤ stop)
    (ht : Term data stop) :
    (∀ pos, begin ≤ pos → pos < stop →
      (∀ i, begin ≤ i → i < pos → isspace (rd data i) = true) → rd data pos = 35 →
      Tokenize data begin stop ⟨false, false⟩ =
        some ([⟨pos, stop, TokenColor.Preprocessor⟩], ⟨false, rd data (stop - 1) == 92⟩)) ∧
    ∃ ts st1, Tokenize data begin stop ⟨false, false⟩ = some (ts, st1) ∧
      (((∀ t ∈ ts, t.color ≠ TokenColor.Preprocessor) ∧ st1.isInPreprocessor = false) ∨
       ∃ pre pos, ts = pre ++ [⟨pos, stop, TokenColor.Preprocessor⟩] ∧
        (∀ u ∈ pre, u.color ≠ TokenColor.Preprocessor) ∧ rd data pos = 35 ∧ pos < stop ∧
        st1.isInPreprocessor = (rd data (stop - 1) == 92)) := by
  constructor
  · intro pos h1 h2 hsp h35
    have hne : ¬ begin = stop := by omega
    have hlen : pos < data.length := rd_lt data pos (by omega)
    have hscan : scan (fun q => q != stop && isspace (rd data q)) (data.length - begin) begin
        = pos := by
      apply scan_eq _ pos _ _ _ h1 (by omega)
      · intro i a b
        have : i ≠ stop := by omega
        simp [this, hsp i a b]
      · simp [h35, isspace]
    unfold Tokenize
    simp only [Bool.false_eq_true, if_false, Bool.not_false, tokenizeLoop, hne, hscan,
      Bool.true_and, h2, decide_True, h35, beq_self_eq_true, if_true]
    split
    · next h92 => simp [h92]
    · next h92 => simp [h92]
  · obtain ⟨ts, st1, e, _⟩ := Tokenize_ok data begin stop ⟨false, false⟩ hb ht
    refine ⟨ts, st1, e, ?_⟩
    unfold Tokenize at e
    simp only [Bool.false_eq_true, if_false] at e
    exact tokenizeLoop_preproc data stop _ _ begin ⟨false, false⟩ ts st1 rfl e

/-- The line `  #define A \`: its only token is the `Preprocessor` token from the `#` to
the end of the line, and `isInPreprocessor` is set. -/
theorem Tokenize_preprocessor_witness :
    Tokenize (cstr "  #define A \\" ++ [0]) 0 13 ⟨false, false⟩ =
      some ([⟨2, 13, TokenColor.Preprocessor⟩], ⟨false, true⟩) :=
  (Tokenize_preprocessor (cstr "  #define A \\" ++ [0]) 0 13 (by decide)
    (Or.inr (Or.inr (by decide)))).1 2 (by decide) (by decide)
    (fun i _ hi => by interval_cases i <;> decide) (by decide)

/-- C27, as stated, fails: the first non-whitespace byte of the line `a #b` is `a`, and
the line gets the `Preprocessor` token `#b` after the token `a`. -/
theorem Tokenize_preprocessor_later_hash :
    Tokenize (cstr "a #b" ++ [0]) 0 4 ⟨false, false⟩ =
      some ([⟨0, 1, TokenColor.Default⟩, ⟨2, 4, TokenColor.Preprocessor⟩], ⟨false, false⟩) ∧
    rd (cstr "a #b" ++ [0]) 0 = 97 ∧ isspace 97 = false := by
  decide

/-! ## Termination of the line loop and the token loop -/

theorem tokenizeLoop_advance (data : List Nat) (stop : Nat) (first : Bool)
    (ht : Term data stop) (fuel begin : Nat) (st : Tokenizer) (hb : begin ≤ stop)
    (hf : stop - begin ≤ fuel) :
    ∃ ts st1, tokenizeLoop data stop first fuel begin st = some (ts, st1) ∧
      cursorsAdvance begin ts stop := by
  induction fuel generalizing begin st with
  | zero =>
    have e : begin = stop := by omega
    subst e
    exact ⟨[], st, by simp [tokenizeLoop], rfl⟩
  | succ n ih =>
    simp only [tokenizeLoop]
    split
    · next e => subst e; exact ⟨[], st, rfl, rfl⟩
    · next hne =>
      have hlt : begin < stop := by omega
      split
      · obtain ⟨r, hr, hq⟩ :=
          scanCommentClose_bounds data stop (stop - begin + 1) begin hlt (by omega)
        rw [hr]
        cases r with
        | none => exact ⟨_, _, rfl, Nat.le_refl _, hlt, Nat.le_refl _, rfl⟩
        | some p =>
          have hp := hq p rfl
          obtain ⟨ts, st1, e, ok⟩ := ih p { st with isInComment := false } hp.2 (by omega)
          simp only [e]
          exact ⟨_, _, rfl, Nat.le_refl _, by simp only; omega, hp.2, ok⟩
      · have h1 : begin ≤ scan (fun q => q != stop && isspace (rd data q)) (data.length - begin)
            begin := scan_ge _ _ _
        have h2 : scan (fun q => q != stop && isspace (rd data q)) (data.length - begin) begin
            ≤ stop := scan_le _ _ (fun q hq h => by simp at h; omega) _ _ hb
        generalize scan (fun q => q != stop && isspace (rd data q)) (data.length - begin) begin
          = pos at h1 h2
        split
        · exact ⟨_, _, rfl, h1, hlt, Nat.le_refl _, rfl⟩
        · obtain ⟨col, p, st1, e, b1, b2, b3⟩ := IdentifyToken_spec data pos stop st h2 ht
          rw [e]
          have hadv : begin < p := by
            rcases Nat.eq_or_lt_of_le h2 with q | q
            · omega
            · have := b3 q; omega
          obtain ⟨ts, st2, e2, ok⟩ := ih p st1 b2 (by omega)
          simp only [e2]
          exact ⟨_, _, rfl, h1, hadv, b2, ok⟩

theorem Tokenize_advance (data : List Nat) (begin stop : Nat) (st : Tokenizer)
    (hb : begin ≤ stop) (ht : Term data stop) :
    ∃ ts st1, Tokenize data begin stop st = some (ts, st1) ∧ cursorsAdvance begin ts stop := by
  unfold Tokenize
  split
  · split
    · next e => subst e; exact ⟨_, _, rfl, rfl⟩
    · next hne =>
      exact ⟨_, _, rfl, Nat.le_refl _, by simp only; omega, Nat.le_refl _, rfl⟩
  · exact tokenizeLoop_advance data stop _ ht _ begin st hb (by omega)

theorem parseLines_fuel (data : List Nat) (sz : Nat) (fuel : Nat) :
    ∀ (txt : Nat) (st : Tokenizer) (ls : List Line),
      parseLines data sz fuel txt st = some ls →
      ∀ k, parseLines data sz (fuel + k) txt st = some ls := by
  induction fuel with
  | zero =>
    intro txt st ls h
    simp [parseLines] at h
  | succ n ih =>
    intro txt st ls h k
    have e : n + 1 + k = (n + k) + 1 := by omega
    rw [e]
    simp only [parseLines] at h ⊢
    split at h
    · simp at h
    · next toks st1 ht =>
      split at h
      · next hz => rw [if_pos hz]; exact h
      · next hz =>
        rw [if_neg hz]
        split at h
        · simp at h
        · next ls2 h2 =>
          rw [ih _ _ _ h2 k]
          exact h

theorem parseLines_advance (data : List Nat) (sz : Nat) (hz : rd data sz = 0)
    (fuel txt : Nat) (st : Tokenizer) (ht : txt ≤ sz) (hf : sz - txt < fuel) :
    ∃ ls, parseLines data sz fuel txt st = some ls ∧
      (∃ l rest, ls = l :: rest ∧ l.begin = txt) ∧
      ls.Chain' (fun a b => a.stop < b.begin) ∧
      ∀ l ∈ ls, l.begin ≤ l.stop ∧ l.stop ≤ sz ∧ Term data l.stop ∧
        cursorsAdvance l.begin l.tokens l.stop := by
  induction fuel generalizing txt st with
  | zero => omega
  | succ n ih =>
    simp only [parseLines]
    have h1 : txt ≤ scan (fun q => rd data q != 10 && rd data q != 13 && decide (q < sz))
        (sz - txt) txt := scan_ge _ _ _
    have h2 : scan (fun q => rd data q != 10 && rd data q != 13 && decide (q < sz))
        (sz - txt) txt ≤ sz := scan_le _ _ (fun q _ h => by simp at h; exact h.2) _ _ ht
    have h3 := scan_exit (fun q => rd data q != 10 && rd data q != 13 && decide (q < sz)) sz
      (fun q h => by simp at h; exact h.2) (sz - txt) txt (Nat.le_refl _)
    generalize scan (fun q => rd data q != 10 && rd data q != 13 && decide (q < sz))
        (sz - txt) txt = stop at h1 h2 h3
    have hterm : Term data stop := by
      by_cases e : stop = sz
      · subst e; exact Or.inr (Or.inr hz)
      · have hl : stop < sz := by omega
        by_cases a : rd data stop = 10
        · exact Or.inl a
        · by_cases b : rd data stop = 13
          · exact Or.inr (Or.inl b)
          · simp [a, b, hl] at h3
    obtain ⟨ts, st1, e, ok⟩ := Tokenize_advance data txt stop st h1 hterm
    rw [e]
    simp only
    have hlt : ∀ q, q ≤ sz → rd data q ≠ 0 → q < sz := by
      intro q a b
      rcases Nat.eq_or_lt_of_le a with e | l
      · subst e; exact absurd hz b
      · exact l
    have hnext : skipTerminator data stop ≤ sz ∧
        (rd data (skipTerminator data stop) ≠ 0 → stop < skipTerminator data stop) := by
      unfold skipTerminator
      split
      · next a =>
        simp at a
        have := hlt stop h2 (by omega)
        split
        · next b =>
          simp at b
          have := hlt (stop + 1) (by omega) (by omega)
          exact ⟨by omega, fun _ => by omega⟩
        · exact ⟨by omega, fun _ => by omega⟩
      · split
        · next a =>
          simp at a
          have := hlt stop h2 (by omega)
          split
          · next b =>
            simp at b
            have := hlt (stop + 1) (by omega) (by omega)
            exact ⟨by omega, fun _ => by omega⟩
          · exact ⟨by omega, fun _ => by omega⟩
        · next a b =>
          simp at a b
          refine ⟨h2, fun c => ?_⟩
          rcases hterm with t | t | t <;> contradiction
    generalize skipTerminator data stop = next at hnext
    split
    · refine ⟨_, rfl, ⟨_, _, rfl, rfl⟩, List.chain'_singleton _, ?_⟩
      intro l hl
      rw [List.mem_singleton] at hl
      subst hl
      exact ⟨h1, h2, hterm, ok⟩
    · next hnz =>
      simp at hnz
      have hgt := hnext.2 hnz
      obtain ⟨ls, e2, ⟨l0, rest, hl0, hb0⟩, hch, hls⟩ := ih next st1 hnext.1 (by omega)
      rw [e2]
      refine ⟨_, rfl, ⟨_, _, rfl, rfl⟩, ?_, ?_⟩
      · subst hl0
        exact List.Chain'.cons (by simp only; omega) hch
      · intro l hl
        rcases List.mem_cons.mp hl with h | h
        · subst h; exact ⟨h1, h2, hterm, ok⟩
        · exact hls l h

/-- C30: for every file content, with the NUL sentinel after it, the line loop of
`ParseSource` ends and gives its lines, with the fuel of one more than the number of
bytes and with any larger fuel: every line starts after the end of the line before it
and ends inside the content at a line terminator or the sentinel. Every `Tokenize` call
made on a line ends and gives its tokens, and each iteration of its token loop leaves the
cursor further on than it found it, and never past the end of the line. -/
theorem ParseSource_terminates (content : List Nat) :
    ∃ ls, ParseSource content = some ls ∧
      (∀ fuel, content.length < fuel →
        parseLines (content ++ [0]) content.length fuel 0 Tokenizer.reset = some ls) ∧
      (∃ l rest, ls = l :: rest ∧ l.begin = 0) ∧
      ls.Chain' (fun a b => a.stop < b.begin) ∧
      ∀ l ∈ ls, l.begin ≤ l.stop ∧ l.stop ≤ content.length ∧
        Term (content ++ [0]) l.stop ∧ cursorsAdvance l.begin l.tokens l.stop := by
  obtain ⟨ls, e, a, b, c⟩ := parseLines_advance (content ++ [0]) content.length
    (by simp [rd]) (content.length + 1) 0 Tokenizer.reset (Nat.zero_le _) (by omega)
  refine ⟨ls, e, ?_, a, b, c⟩
  intro fuel hf
  have := parseLines_fuel _ _ _ _ _ _ e (fuel - (content.length + 1))
  rw [← this]
  congr 1
  omega

/-! ## The variant lookup of `RenderAsmLine` -/

theorem lookupMnemonic_lea (leaIndex : LeaData → Nat) (hidx : ∀ k, leaIndex k = leaOrder k)
    (line : AsmLine) (hm : upperMnemonic line.mnemonic = "LEA") :
    lookupMnemonic leaIndex line =
      match line.leaData with
      | LeaData.none => "LEA"
      | LeaData.b => "LEA_B"
      | LeaData.bd => "LEA_BD"
      | LeaData.bi => "LEA_BI"
      | LeaData.bid => "LEA_BID"
      | LeaData.d => "LEA_D"
      | LeaData.i => "LEA_I"
      | LeaData.id => "LEA_ID"
      | LeaData.r => "LEA_R"
      | LeaData.rd => "LEA_RD" := by
  unfold lookupMnemonic
  rw [hm, hidx]
  cases line.leaData <;> rfl

/-- C23: after a successful `Disassemble` for x86 or x64, the line of a `lea` instruction
(mnemonic `lea` in any case, second operand `o1`) is classified by the memory operand of
`o1`, and the mnemonic looked up for the variant is `LEA_` with the kind in upper case:
no base and no index gives `d` and `LEA_D`; no base and an index gives `i` and `LEA_I`
for a zero displacement, else `id` and `LEA_ID`; the base `RIP` gives `r` and `LEA_R` or
`rd` and `LEA_RD`; another base without index gives `b` and `LEA_B` or `bd` and
`LEA_BD`; another base with an index gives `bi` and `LEA_BI` or `bid` and `LEA_BID`.
The enumerators of `LeaData` are taken to be numbered in the order of `LeaTable`. -/
theorem Disassemble_lea_lookup (w : Worker) (cs : Decoder)
    (sortRanges : List JumpRange → List JumpRange) (symAddr : Nat) (s : View)
    (code : List Nat) (leaIndex : LeaData → Nat) (hidx : ∀ k, leaIndex k = leaOrder k)
    (hok : (Disassemble w cs sortRanges symAddr s).1 = true)
    (hc : w.GetSymbolCode symAddr = some code)
    (harch : w.GetCpuArch = CpuArch.CpuArchX64 ∨ w.GetCpuArch = CpuArch.CpuArchX86)
    (i : Nat) (op : Insn) (hop : (cs.cs_disasm w.GetCpuArch code symAddr)[i]? = some op)
    (hlea : op.isLea = true) (hm : upperMnemonic op.mnemonic = "LEA")
    (o0 o1 : Operand) (hops : op.operands = [o0, o1]) :
    ∃ line, (Disassemble w cs sortRanges symAddr s).2.m_asm[i]? = some line ∧
      line.addr = op.address ∧
      (line.leaData, lookupMnemonic leaIndex line) =
        if o1.mem.base = X86_REG_INVALID then
          if o1.mem.index = X86_REG_INVALID then (LeaData.d, "LEA_D")
          else if o1.mem.disp = 0 then (LeaData.i, "LEA_I") else (LeaData.id, "LEA_ID")
        else if o1.mem.base = X86_REG_RIP then
          if o1.mem.disp = 0 then (LeaData.r, "LEA_R") else (LeaData.rd, "LEA_RD")
        else if o1.mem.index = X86_REG_INVALID then
          if o1.mem.disp = 0 then (LeaData.b, "LEA_B") else (LeaData.bd, "LEA_BD")
        else if o1.mem.disp = 0 then (LeaData.bi, "LEA_BI") else (LeaData.bid, "LEA_BID") := by
  obtain ⟨h0, ha, _, ho⟩ := Disassemble_of_true w cs sortRanges symAddr s hok
  obtain ⟨_, s1, _⟩ := Disassemble_ok_shape w cs sortRanges symAddr s code h0 ha hc ho
  refine ⟨_, by rw [s1]; exact map_getElem?_stepLine _ _ _ _ _ _ hop, rfl, ?_⟩
  have hl : (stepLine w.GetCpuArch symAddr code.length
      (cs.cs_disasm w.GetCpuArch code symAddr) op).leaData = leaKind o1.mem := by
    simp only [stepLine, asmLeaData, hlea, hops]
    rcases harch with h | h <;> simp [h]
  rw [lookupMnemonic_lea leaIndex hidx _ (by simpa [stepLine] using hm), hl]
  unfold leaKind
  simp only [beq_iff_eq]
  split
  · split
    · rfl
    · split <;> rfl
  · split
    · split <;> rfl
    · split
      · split <;> rfl
      · split <;> rfl

/-- The instruction `lea rax, [rip+0x10]` is classified `rd` and looked up as `LEA_RD`. -/
theorem Disassemble_lea_lookup_witness :
    ∃ line, (Disassemble leaWorker exampleDecoderLea sortByLen 0x1000
        exampleView).2.m_asm[0]? = some line ∧ line.addr = 0x1000 ∧
      (line.leaData, lookupMnemonic leaOrder line) = (LeaData.rd, "LEA_RD") :=
  Disassemble_lea_lookup leaWorker exampleDecoderLea sortByLen 0x1000 exampleView
    [0x48, 0x8D, 0x05, 0x10, 0, 0, 0, 0xC3] leaOrder (fun _ => rfl) (by decide) (by decide)
    (Or.inl rfl) 0 leaInsn (by decide) (by decide) (by decide)
    ⟨OpType.reg, 0, 8, ⟨0, 0, 0⟩⟩ ⟨OpType.mem, 0, 8, ⟨X86_REG_RIP, X86_REG_INVALID, 0x10⟩⟩ rfl

theorem variantPenalty_iff (desc : List AsmDesc) :
    ∀ (params : List AsmOpParams) (pen q : Nat), desc.length = params.length →
      (variantPenalty desc params pen = some q ↔
        (∀ j, j < desc.length → (desc.getD j ⟨0, 0⟩).type = (params.getD j ⟨0, 0⟩).type) ∧
          q = pen + widthMismatches desc params) := by
  induction desc with
  | nil =>
    intro params pen q hl
    cases params with
    | nil =>
      simp only [variantPenalty, widthMismatches, Option.some.injEq, List.length_nil,
        Nat.not_lt_zero, false_implies, implies_true, true_and, Nat.add_zero]
      exact eq_comm
    | cons p ps => simp at hl
  | cons d ds ih =>
    intro params pen q hl
    cases params with
    | nil => simp at hl
    | cons p ps =>
      simp only [List.length_cons, Nat.add_right_cancel_iff] at hl
      simp only [variantPenalty, widthMismatches]
      by_cases ht : d.type = p.type
      · have hne : (d.type != p.type) = false := by simp [ht]
        simp only [hne, Bool.false_eq_true, if_false]
        rw [ih ps _ q hl]
        constructor
        · rintro ⟨a, b⟩
          refine ⟨?_, ?_⟩
          · intro j hj
            cases j with
            | zero => simpa using ht
            | succ k =>
              simp only [List.getD_cons_succ]
              exact a k (by simpa using hj)
          · rw [b]
            by_cases hw : d.width = p.width
            · simp [hw]
            · simp [hw]; omega
        · rintro ⟨a, b⟩
          refine ⟨?_, ?_⟩
          · intro j hj
            have := a (j + 1) (by simp only [List.length_cons]; omega)
            simpa using this
          · rw [b]
            by_cases hw : d.width = p.width
            · simp [hw]
            · simp [hw]; omega
      · have hne : (d.type != p.type) = true := by simp [ht]
        simp only [hne, if_true]
        constructor
        · intro h; simp at h
        · rintro ⟨a, _⟩
          have := a 0 (by simp)
          simp only [List.getD_cons_zero] at this
          exact absurd this ht

theorem mem_variantCandidates (params : List AsmOpParams) (vars : List AsmVar) :
    ∀ (k i p : Nat), (i, p) ∈ variantCandidates params k vars ↔
      ∃ j, j < vars.length ∧ i = k + j ∧ kindsMatch (vars.getD j default).desc params ∧
        p = widthMismatches (vars.getD j default).desc params := by
  induction vars with
  | nil =>
    intro k i p
    simp [variantCandidates]
  | cons v vs ih =>
    intro k i p
    simp only [variantCandidates, List.mem_append]
    rw [ih (k + 1) i p]
    constructor
    · rintro (h | ⟨j, hj, e, a, b⟩)
      · split at h
        · next hlen =>
          simp only [beq_iff_eq] at hlen
          cases hpen : variantPenalty v.desc params 0 with
          | none => rw [hpen] at h; simp at h
          | some pen =>
            rw [hpen] at h
            simp only [List.mem_singleton, Prod.mk.injEq] at h
            obtain ⟨rfl, rfl⟩ := h
            have := (variantPenalty_iff v.desc params 0 p hlen).mp hpen
            exact ⟨0, by simp, rfl, ⟨hlen, this.1⟩, by simpa using this.2⟩
        · simp at h
      · exact ⟨j + 1, by simp only [List.length_cons]; omega, by omega,
          by simpa using a, by simpa using b⟩
    · rintro ⟨j, hj, e, a, b⟩
      cases j with
      | zero =>
        left
        simp only [List.getD_cons_zero] at a b
        have hlen : (v.desc.length == params.length) = true := by simpa using a.1
        have := (variantPenalty_iff v.desc params 0 p a.1).mpr ⟨a.2, by simpa using b⟩
        simp only [hlen, if_true, this, List.mem_singleton, Prod.mk.injEq]
        exact ⟨by omega, trivial⟩
      | succ m =>
        right
        exact ⟨m, by simpa using hj, by omega, by simpa using a, by simpa using b⟩

theorem variantCandidates_pairwise (params : List AsmOpParams) (vars : List AsmVar) :
    ∀ k, (variantCandidates params k vars).Pairwise (fun a b => a.1 < b.1) := by
  induction vars with
  | nil => intro k; simp [variantCandidates]
  | cons v vs ih =>
    intro k
    simp only [variantCandidates]
    rw [List.pairwise_append]
    refine ⟨?_, ih (k + 1), ?_⟩
    · split
      · split <;> simp
      · simp
    · intro a ha b hb
      obtain ⟨j, _, e, _⟩ := (mem_variantCandidates params vs (k + 1) b.1 b.2).mp hb
      have : a.1 = k := by
        split at ha
        · split at ha
          · simp only [List.mem_singleton] at ha
            rw [ha]
          · simp at ha
        · simp at ha
      omega

theorem sort_head (sortRes : List (Nat × Nat) → List (Nat × Nat))
    (hperm : ∀ l, (sortRes l).Perm l)
    (hsort : ∀ l, (sortRes l).Pairwise (fun a b => a.2 ≤ b.2))
    (hstable : ∀ l p, (sortRes l).filter (fun r => r.2 == p) = l.filter (fun r => r.2 == p))
    (l : List (Nat × Nat)) (hl : l ≠ []) (hpw : l.Pairwise (fun a b => a.1 < b.1)) :
    ∃ r, (sortRes l).head? = some r ∧ r ∈ l ∧
      ∀ x ∈ l, r.2 < x.2 ∨ (r.2 = x.2 ∧ r.1 ≤ x.1) := by
  cases hs : sortRes l with
  | nil =>
    have := (hperm l).symm
    rw [hs] at this
    exact absurd this.eq_nil hl
  | cons r t =>
    have hr : r ∈ l := (hperm l).mem_iff.mp (by rw [hs]; exact List.mem_cons_self _ _)
    refine ⟨r, rfl, hr, ?_⟩
    intro x hx
    have hx' : x ∈ r :: t := by rw [← hs]; exact (hperm l).mem_iff.mpr hx
    have hle : r.2 ≤ x.2 := by
      rcases List.mem_cons.mp hx' with h | h
      · rw [h]
      · have := hsort l
        rw [hs, List.pairwise_cons] at this
        exact this.1 x h
    rcases Nat.lt_or_eq_of_le hle with h | h
    · exact Or.inl h
    · right
      refine ⟨h, ?_⟩
      have hf := hstable l r.2
      rw [hs] at hf
      simp only [List.filter_cons, beq_self_eq_true, if_true] at hf
      have hxf : x ∈ l.filter (fun y => y.2 == r.2) := by
        rw [List.mem_filter]
        exact ⟨hx, by simp [h]⟩
      have hpf : (l.filter (fun y => y.2 == r.2)).Pairwise (fun a b => a.1 < b.1) :=
        hpw.sublist (List.filter_sublist l)
      rw [← hf] at hxf hpf
      rcases List.mem_cons.mp hxf with e | e
      · rw [e]
      · rw [List.pairwise_cons] at hpf
        exact Nat.le_of_lt (hpf.1 x e)

theorem selectVariant_some (sortRes : List (Nat × Nat) → List (Nat × Nat))
    (hperm : ∀ l, (sortRes l).Perm l)
    (hsort : ∀ l, (sortRes l).Pairwise (fun a b => a.2 ≤ b.2))
    (hstable : ∀ l p, (sortRes l).filter (fun r => r.2 == p) = l.filter (fun r => r.2 == p))
    (op : AsmOp) (params : List AsmOpParams) (i : Nat) :
    selectVariant sortRes op params = some i ↔
      i < op.variant.length ∧ kindsMatch (op.variant.getD i default).desc params ∧
      ∀ j, j < op.variant.length → kindsMatch (op.variant.getD j default).desc params →
        widthMismatches (op.variant.getD i default).desc params <
            widthMismatches (op.variant.getD j default).desc params ∨
          (widthMismatches (op.variant.getD i default).desc params =
            widthMismatches (op.variant.getD j default).desc params ∧ i ≤ j) := by
  unfold selectVariant
  simp only
  split
  · next he =>
    rw [List.isEmpty_iff] at he
    constructor
    · intro h; simp at h
    · rintro ⟨a, b, _⟩
      have : (i, widthMismatches (op.variant.getD i default).desc params) ∈
          variantCandidates params 0 op.variant :=
        (mem_variantCandidates params op.variant 0 _ _).mpr ⟨i, a, by omega, b, rfl⟩
      rw [he] at this
      simp at this
  · next hne =>
    have hne' : variantCandidates params 0 op.variant ≠ [] := by
      intro h; apply hne; rw [h]; rfl
    obtain ⟨r, hh, hr, hmin⟩ := sort_head sortRes hperm hsort hstable _ hne'
      (variantCandidates_pairwise params op.variant 0)
    rw [hh]
    simp only [Option.map_some', Option.some.injEq]
    obtain ⟨jr, hjr, ejr, kr, pr⟩ := (mem_variantCandidates params op.variant 0 r.1 r.2).mp hr
    have ejr' : jr = r.1 := by omega
    subst ejr'
    constructor
    · intro e
      subst e
      refine ⟨hjr, kr, ?_⟩
      intro j hj kj
      have := hmin (j, widthMismatches (op.variant.getD j default).desc params)
        ((mem_variantCandidates params op.variant 0 _ _).mpr ⟨j, hj, by omega, kj, rfl⟩)
      simp only at this
      rw [pr] at this
      exact this
    · rintro ⟨a, b, c⟩
      have h1 := c r.1 hjr kr
      have h2 := hmin (i, widthMismatches (op.variant.getD i default).desc params)
        ((mem_variantCandidates params op.variant 0 _ _).mpr ⟨i, a, by omega, b, rfl⟩)
      simp only at h2
      rw [pr] at h2
      omega

theorem selectVariant_none (sortRes : List (Nat × Nat) → List (Nat × Nat))
    (hperm : ∀ l, (sortRes l).Perm l) (op : AsmOp) (params : List AsmOpParams) :
    selectVariant sortRes op params = none ↔
      ∀ j, j < op.variant.length → ¬ kindsMatch (op.variant.getD j default).desc params := by
  unfold selectVariant
  simp only
  split
  · next he =>
    rw [List.isEmpty_iff] at he
    refine ⟨fun _ j hj kj => ?_, fun _ => rfl⟩
    have : (j, widthMismatches (op.variant.getD j default).desc params) ∈
        variantCandidates params 0 op.variant :=
      (mem_variantCandidates params op.variant 0 _ _).mpr ⟨j, hj, by omega, kj, rfl⟩
    rw [he] at this
    simp at this
  · next hne =>
    have hne' : variantCandidates params 0 op.variant ≠ [] := by
      intro h; apply hne; rw [h]; rfl
    constructor
    · intro h
      exfalso
      simp only [Option.map_eq_none', List.head?_eq_none_iff] at h
      have := (hperm (variantCandidates params 0 op.variant)).symm
      rw [h] at this
      exact hne' this.eq_nil
    · intro h
      exfalso
      obtain ⟨r, t, e⟩ := List.exists_cons_of_ne_nil hne'
      have hr : r ∈ variantCandidates params 0 op.variant := by rw [e]; exact List.mem_cons_self _ _
      obtain ⟨j, hj, _, kj, _⟩ := (mem_variantCandidates params op.variant 0 r.1 r.2).mp hr
      exact h j hj kj

theorem lowerBoundId_spec (ids : List Nat) (val : Nat)
    (hmono : ∀ i j, i ≤ j → j < ids.length → ids.getD i 0 ≤ ids.getD j 0)
    (fuel first len : Nat) (hf : len ≤ fuel) (hn : first + len ≤ ids.length)
    (hlo : ∀ i, i < first → ids.getD i 0 < val)
    (hhi : ∀ i, first + len ≤ i → i < ids.length → val ≤ ids.getD i 0) :
    lowerBoundId ids val fuel first len ≤ ids.length ∧
    (∀ i, i < lowerBoundId ids val fuel first len → ids.getD i 0 < val) ∧
    (∀ i, lowerBoundId ids val fuel first len ≤ i → i < ids.length → val ≤ ids.getD i 0) := by
  induction fuel generalizing first len with
  | zero =>
    have : len = 0 := by omega
    subst this
    simp only [lowerBoundId]
    exact ⟨by omega, hlo, fun i a b => hhi i (by omega) b⟩
  | succ n ih =>
    simp only [lowerBoundId]
    split
    · next hpos =>
      have hhalf : len / 2 < len := Nat.div_lt_self hpos (by decide)
      split
      · next hlt =>
        apply ih (first + len / 2 + 1) (len - len / 2 - 1) (by omega) (by omega)
        · intro i hi
          have := hmono i (first + len / 2) (by omega) (by omega)
          omega
        · intro i hi1 hi2
          exact hhi i (by omega) hi2
      · next hge =>
        apply ih first (len / 2) (by omega) (by omega) hlo
        intro i hi1 hi2
        have := hmono (first + len / 2) i hi1 hi2
        omega
    · next hz =>
      have : len = 0 := by omega
      subst this
      exact ⟨by omega, hlo, fun i a b => hhi i (by omega) b⟩

theorem ids_mono (ids : List Nat) (hs : ids.Pairwise (fun a b => a < b)) :
    ∀ i j, i ≤ j → j < ids.length → ids.getD i 0 ≤ ids.getD j 0 := by
  intro i j hij hj
  rcases Nat.eq_or_lt_of_le hij with e | l
  · subst e; exact Nat.le_refl _
  · rw [List.pairwise_iff_getElem] at hs
    have := hs i j (by omega) hj l
    rw [List.getD_eq_getElem _ _ (by omega), List.getD_eq_getElem _ _ hj]
    exact Nat.le_of_lt this

theorem getD_map_id (uarch : List AsmOp) (i : Nat) (h : i < uarch.length) :
    (uarch.map AsmOp.id).getD i 0 = (uarch.getD i default).id := by
  rw [List.getD_eq_getElem _ _ (by simpa using h), List.getD_eq_getElem _ _ h]
  simp

theorem opLookup (uarch : List AsmOp)
    (hs : (uarch.map AsmOp.id).Pairwise (fun a b => a < b)) (opid : Nat) (op : AsmOp) :
    (lowerBoundId (uarch.map AsmOp.id) opid uarch.length 0 uarch.length ≠ uarch.length ∧
      uarch.getD (lowerBoundId (uarch.map AsmOp.id) opid uarch.length 0 uarch.length) default
        = op ∧ op.id = opid) ↔ (op ∈ uarch ∧ op.id = opid) := by
  have hmono := ids_mono _ hs
  obtain ⟨h1, h2, h3⟩ := lowerBoundId_spec (uarch.map AsmOp.id) opid hmono uarch.length 0
    uarch.length (Nat.le_refl _) (by simp) (fun i hi => by omega) (fun i a b => by
      simp only [List.length_map] at b; omega)
  simp only [List.length_map] at h1 h3
  generalize lowerBoundId (uarch.map AsmOp.id) opid uarch.length 0 uarch.length = fit
    at h1 h2 h3
  constructor
  · rintro ⟨a, b, c⟩
    have hlt : fit < uarch.length := by omega
    refine ⟨?_, c⟩
    rw [← b, List.getD_eq_getElem _ _ hlt]
    exact List.getElem_mem _
  · rintro ⟨hm, hid⟩
    obtain ⟨k, hk, hget⟩ := List.mem_iff_getElem.mp hm
    have hkid : (uarch.map AsmOp.id).getD k 0 = opid := by
      rw [getD_map_id uarch k hk, List.getD_eq_getElem _ _ hk, hget, hid]
    have hfk : fit ≤ k := by
      by_contra hc
      have := h2 k (by omega)
      omega
    have hlt : fit < uarch.length := by omega
    have hfit : (uarch.map AsmOp.id).getD fit 0 = opid := by
      have a := h3 fit (Nat.le_refl _) hlt
      have b := hmono fit k hfk (by simpa using hk)
      omega
    have hkf : k = fit := by
      by_contra hne
      have hl : fit < k := by omega
      rw [List.pairwise_iff_getElem] at hs
      have := hs fit k (by simpa using hlt) (by simpa using hk) hl
      rw [List.getD_eq_getElem _ _ (by simpa using hlt)] at hfit
      rw [List.getD_eq_getElem _ _ (by simpa using hk)] at hkid
      omega
    subst hkf
    refine ⟨by omega, ?_, hid⟩
    rw [List.getD_eq_getElem _ _ hk, hget]

theorem filter_orderedInsert (p : Nat) (a : Nat × Nat) (t : List (Nat × Nat)) :
    (t.orderedInsert (fun a b => a.2 ≤ b.2) a).filter (fun r => r.2 == p) =
      if a.2 == p then a :: t.filter (fun r => r.2 == p) else t.filter (fun r => r.2 == p) := by
  induction t with
  | nil =>
    simp only [List.orderedInsert, List.filter_cons, List.filter_nil]
  | cons b t ih =>
    simp only [List.orderedInsert]
    split
    · simp only [List.filter_cons]
    · next hr =>
      simp only [List.filter_cons]
      rw [ih]
      by_cases ha : a.2 = p
      · have hb : (b.2 == p) = false := by
          simp only [beq_eq_false_iff_ne, ne_eq]
          omega
        simp [ha, hb]
      · have ha' : (a.2 == p) = false := by simpa using ha
        simp [ha']

theorem sortByPenalty_stable (l : List (Nat × Nat)) (p : Nat) :
    (sortByPenalty l).filter (fun r => r.2 == p) = l.filter (fun r => r.2 == p) := by
  unfold sortByPenalty
  induction l with
  | nil => rfl
  | cons a l ih =>
    simp only [List.insertionSort]
    rw [filter_orderedInsert, ih]
    simp only [List.filter_cons]

/-- For a sort of the candidates by penalty that also keeps candidates of equal penalty
in their order (a stable sort; nothing in the sources makes `pdqsort_branchless` one):
the variant `i` of the operation `op` is selected exactly when `op` is the operation of
the table whose id the map gives for the mnemonic, variant `i` passes the filter of
descriptor count and kinds, and every variant `j` that passes it has more width
mismatches than `i`, or as many and `i ≤ j`. -/
theorem asmVariant_lowest_index_of_stable (uarch : List AsmOp) (opsList : List String)
    (leaIndex : LeaData → Nat) (sortRes : List (Nat × Nat) → List (Nat × Nat))
    (hperm : ∀ l, (sortRes l).Perm l)
    (hsort : ∀ l, (sortRes l).Pairwise (fun a b => a.2 ≤ b.2))
    (hstable : ∀ l p, (sortRes l).filter (fun r => r.2 == p) = l.filter (fun r => r.2 == p))
    (hs : (uarch.map AsmOp.id).Pairwise (fun a b => a < b))
    (arch : CpuArch) (harch : arch = CpuArch.CpuArchX64 ∨ arch = CpuArch.CpuArchX86)
    (line : AsmLine) :
    (∀ op i, asmVariant uarch opsList leaIndex sortRes arch line = some (op, i) ↔
      op ∈ uarch ∧ opMapFind opsList (lookupMnemonic leaIndex line) = some op.id ∧
      i < op.variant.length ∧ kindsMatch (op.variant.getD i default).desc line.params ∧
      ∀ j, j < op.variant.length → kindsMatch (op.variant.getD j default).desc line.params →
        widthMismatches (op.variant.getD i default).desc line.params <
            widthMismatches (op.variant.getD j default).desc line.params ∨
          (widthMismatches (op.variant.getD i default).desc line.params =
            widthMismatches (op.variant.getD j default).desc line.params ∧ i ≤ j)) ∧
    (asmVariant uarch opsList leaIndex sortRes arch line = none ↔
      opMapFind opsList (lookupMnemonic leaIndex line) = none ∨
      (∃ opid, opMapFind opsList (lookupMnemonic leaIndex line) = some opid ∧
        ∀ op ∈ uarch, op.id ≠ opid) ∨
      (∃ op ∈ uarch, opMapFind opsList (lookupMnemonic leaIndex line) = some op.id ∧
        ∀ j, j < op.variant.length →
          ¬ kindsMatch (op.variant.getD j default).desc line.params)) := by
  have ha : (arch == CpuArch.CpuArchX64 || arch == CpuArch.CpuArchX86) = true := by
    rcases harch with h | h <;> simp [h]
  unfold asmVariant
  simp only [ha, if_true]
  cases hfind : opMapFind opsList (lookupMnemonic leaIndex line) with
  | none =>
    simp only
    refine ⟨fun op i => ⟨fun h => by simp at h, fun h => by simp at h⟩, ?_⟩
    simp
  | some opid =>
    simp only
    by_cases hfound : (lowerBoundId (uarch.map AsmOp.id) opid uarch.length 0 uarch.length
        != uarch.length &&
        (uarch.getD (lowerBoundId (uarch.map AsmOp.id) opid uarch.length 0 uarch.length)
          default).id == opid) = true
    · rw [if_pos hfound]
      simp only [Bool.and_eq_true, bne_iff_ne, ne_eq, beq_iff_eq] at hfound
      have hop := (opLookup uarch hs opid _).mp ⟨hfound.1, rfl, hfound.2⟩
      have huniq : ∀ op, op ∈ uarch → op.id = opid →
          op = uarch.getD (lowerBoundId (uarch.map AsmOp.id) opid uarch.length 0 uarch.length)
            default := by
        intro op hm hid
        exact ((opLookup uarch hs opid op).mpr ⟨hm, hid⟩).2.1.symm
      generalize uarch.getD (lowerBoundId (uarch.map AsmOp.id) opid uarch.length 0
        uarch.length) default = theOp at hop huniq
      constructor
      · intro op i
        simp only [Option.map_eq_some', Prod.mk.injEq, Option.some.injEq]
        constructor
        · rintro ⟨k, hsel, rfl, rfl⟩
          exact ⟨hop.1, by rw [hop.2],
            (selectVariant_some sortRes hperm hsort hstable _ _ _).mp hsel⟩
        · rintro ⟨hm, hid, rest⟩
          have := huniq op hm hid.symm
          subst this
          exact ⟨i, (selectVariant_some sortRes hperm hsort hstable _ _ _).mpr rest, rfl, rfl⟩
      · simp only [Option.map_eq_none']
        rw [selectVariant_none sortRes hperm]
        constructor
        · intro h
          exact Or.inr (Or.inr ⟨theOp, hop.1, by rw [hop.2], h⟩)
        · rintro (h | ⟨o, ho, hno⟩ | ⟨op, hm, hid, h⟩)
          · simp at h
          · simp only [Option.some.injEq] at ho
            subst ho
            exact absurd hop.2 (hno theOp hop.1)
          · simp only [Option.some.injEq] at hid
            have := huniq op hm hid.symm
            subst this
            exact h
    · rw [if_neg hfound]
      simp only [Bool.and_eq_true, bne_iff_ne, ne_eq, beq_iff_eq, not_and] at hfound
      have hno : ∀ op ∈ uarch, op.id ≠ opid := by
        intro op hm hid
        obtain ⟨a, b, _⟩ := (opLookup uarch hs opid op).mpr ⟨hm, hid⟩
        exact hfound a (by rw [b]; exact hid)
      constructor
      · intro op i
        constructor
        · intro h; simp at h
        · rintro ⟨hm, hid, _⟩
          simp only [Option.some.injEq] at hid
          exact absurd hid.symm (hno op hm)
      · exact ⟨fun _ => Or.inr (Or.inl ⟨opid, rfl, hno⟩), fun _ => rfl⟩

theorem recordJump_origin (table : List (Nat × JumpData)) (t a k : Nat) (e : JumpData)
    (h : (k, e) ∈ recordJump table t a) :
    (∃ e0, (k, e0) ∈ table ∧ ∀ s, s ∈ e.source → s ∈ e0.source ∨ (k = t ∧ s = a)) ∨
      (k = t ∧ e.source = [a]) := by
  unfold recordJump at h
  simp only at h
  split at h
  · rcases List.mem_append.mp h with h1 | h1
    · exact Or.inl ⟨e, h1, fun s hs => Or.inl hs⟩
    · simp only [List.mem_singleton, Prod.mk.injEq] at h1
      obtain ⟨rfl, rfl⟩ := h1
      exact Or.inr ⟨rfl, rfl⟩
  · rw [mem_jtModify] at h
    obtain ⟨e0, h0, he⟩ := h
    left
    refine ⟨e0, h0, ?_⟩
    intro s hs
    by_cases hk : k = t
    · simp only [hk, if_true] at he
      subst he
      simp only [List.mem_append, List.mem_singleton] at hs
      rcases hs with h1 | h1
      · left
        split at h1
        · exact h1
        · split at h1 <;> exact h1
      · exact Or.inr ⟨hk, h1⟩
    · simp only [hk, if_false] at he
      subst he
      exact Or.inl hs

theorem disasmLoop_origin (arch : CpuArch) (symAddr len : Nat) (insn : List Insn)
    (ops : List Insn) (acc : DisasmAcc) (k : Nat) (e : JumpData)
    (h : (k, e) ∈ (ops.foldl (disasmStep arch symAddr len insn) acc).jumpTable) :
    ((∃ e0, (k, e0) ∈ acc.jumpTable) ∨
      ∃ op ∈ ops, hasJump op = true ∧ inCode symAddr len (jumpTarget arch op) = true ∧
        targetFound insn (jumpTarget arch op) = true ∧ jumpTarget arch op = k) ∧
    ∀ s, s ∈ e.source → (∃ e0, (k, e0) ∈ acc.jumpTable ∧ s ∈ e0.source) ∨
      ∃ op ∈ ops, op.address = s ∧ hasJump op = true ∧
        inCode symAddr len (jumpTarget arch op) = true ∧
        targetFound insn (jumpTarget arch op) = true ∧ jumpTarget arch op = k := by
  induction ops generalizing acc with
  | nil =>
    simp only [List.foldl_nil] at h
    exact ⟨Or.inl ⟨e, h⟩, fun s hs => Or.inl ⟨e, h, hs⟩⟩
  | cons op ops ih =>
    simp only [List.foldl_cons] at h
    obtain ⟨a, b⟩ := ih _ h
    have lift : ∀ {P : Insn → Prop}, (∃ o ∈ ops, P o) → ∃ o ∈ op :: ops, P o := by
      rintro P ⟨o, ho, hp⟩
      exact ⟨o, List.mem_cons_of_mem _ ho, hp⟩
    rw [disasmStep_jumpTable] at a b
    by_cases hc : (hasJump op && inCode symAddr len (jumpTarget arch op) &&
        targetFound insn (jumpTarget arch op)) = true
    · simp only [hc, if_true] at a b
      simp only [Bool.and_eq_true] at hc
      constructor
      · rcases a with ⟨e1, h1⟩ | a
        · rcases recordJump_origin _ _ _ _ _ h1 with ⟨e0, h0, _⟩ | ⟨hk, _⟩
          · exact Or.inl ⟨e0, h0⟩
          · exact Or.inr ⟨op, List.mem_cons_self _ _, hc.1.1, hc.1.2, hc.2, hk.symm⟩
        · exact Or.inr (lift a)
      · intro s hs
        rcases b s hs with ⟨e1, h1, hs1⟩ | b
        · rcases recordJump_origin _ _ _ _ _ h1 with ⟨e0, h0, hsrc⟩ | ⟨hk, hsrc⟩
          · rcases hsrc s hs1 with h2 | ⟨hk, hsa⟩
            · exact Or.inl ⟨e0, h0, h2⟩
            · exact Or.inr ⟨op, List.mem_cons_self _ _, hsa.symm, hc.1.1, hc.1.2, hc.2, hk.symm⟩
          · rw [hsrc] at hs1
            simp only [List.mem_singleton] at hs1
            exact Or.inr ⟨op, List.mem_cons_self _ _, hs1.symm, hc.1.1, hc.1.2, hc.2, hk.symm⟩
        · exact Or.inr (lift b)
    · simp only [hc, if_false] at a b
      constructor
      · rcases a with a | a
        · exact Or.inl a
        · exact Or.inr (lift a)
      · intro s hs
        rcases b s hs with b | b
        · exact Or.inl b
        · exact Or.inr (lift b)

theorem jumpPostPass_backward (sortRanges : List JumpRange → List JumpRange)
    (table : List (Nat × JumpData)) (k : Nat) (e : JumpData)
    (h : (k, e) ∈ (jumpPostPass sortRanges table).1) :
    ∃ e0, (k, e0) ∈ table ∧ e.min = e0.min ∧ e.max = e0.max ∧
      ∀ x, x ∈ e.source ↔ x ∈ e0.source := by
  unfold jumpPostPass at h
  split at h
  · exact ⟨e, h, rfl, rfl, fun x => Iff.rfl⟩
  · obtain ⟨e1, h1, a, b, c⟩ := assignLevels_entries _ _ _ _ k e h
    rw [List.mem_map] at h1
    obtain ⟨⟨k0, e0⟩, h0, he⟩ := h1
    simp only [Prod.mk.injEq] at he
    obtain ⟨rfl, rfl⟩ := he
    refine ⟨e0, h0, a, b, fun x => ?_⟩
    rw [c]
    exact (List.perm_insertionSort (fun a b : Nat => a ≤ b) e0.source).mem_iff

theorem Disassemble_table_shape (w : Worker) (cs : Decoder)
    (sortRanges : List JumpRange → List JumpRange) (symAddr : Nat) (s : View) :
    ((Disassemble w cs sortRanges symAddr s).2.m_jumpTable = [] ∧
      (Disassemble w cs sortRanges symAddr s).2.m_asm = []) ∨
    ∃ arch len insn,
      (Disassemble w cs sortRanges symAddr s).2.m_jumpTable =
        (jumpPostPass sortRanges
          (List.foldl (disasmStep arch symAddr len insn) ⟨[], [], []⟩ insn).jumpTable).1 ∧
      (Disassemble w cs sortRanges symAddr s).2.m_asm =
        insn.map (stepLine arch symAddr len insn) := by
  simp only [Disassemble]
  split
  · exact Or.inl ⟨rfl, rfl⟩
  · split
    · exact Or.inl ⟨rfl, rfl⟩
    · split
      · exact Or.inl ⟨rfl, rfl⟩
      · split
        · exact Or.inl ⟨rfl, rfl⟩
        · split
          · exact Or.inl ⟨rfl, rfl⟩
          · refine Or.inr ⟨_, _, _, rfl, ?_⟩
            simp only
            rw [disasmLoop_asm]
            rfl

theorem Disassemble_keys_asm (w : Worker) (cs : Decoder)
    (sortRanges : List JumpRange → List JumpRange) (symAddr : Nat) (s : View) (T : Nat)
    (e : JumpData) (h : (T, e) ∈ (Disassemble w cs sortRanges symAddr s).2.m_jumpTable) :
    ∃ l ∈ (Disassemble w cs sortRanges symAddr s).2.m_asm, l.addr = T := by
  rcases Disassemble_table_shape w cs sortRanges symAddr s with ⟨h1, _⟩ | ⟨arch, len, insn, h1, h2⟩
  · rw [h1] at h; simp at h
  · rw [h1] at h
    rw [h2]
    obtain ⟨e0, h0, _⟩ := jumpPostPass_backward _ _ _ _ h
    rcases (disasmLoop_origin arch symAddr len insn insn ⟨[], [], []⟩ T e0 h0).1 with
      ⟨_, hm⟩ | ⟨op, _, _, _, hf, ht⟩
    · simp at hm
    · rw [ht] at hf
      obtain ⟨o, ho, ha⟩ := targetFound_address insn T hf
      exact ⟨stepLine arch symAddr len insn o, List.mem_map.mpr ⟨o, ho, rfl⟩, ha⟩

/-- C28: after a successful `Disassemble` whose decoded addresses are distinct and whose
code range does not wrap, the address `a` is in the source list of the jump-table entry
keyed `T` if and only if the `AsmLine` at `a` has `jumpAddr = T` with
`symAddr ≤ T < symAddr + len`; there is one `AsmLine` per address, and every key of the
jump table is the address of an `AsmLine`. -/
theorem Disassemble_sources (w : Worker) (cs : Decoder)
    (sortRanges : List JumpRange → List JumpRange) (symAddr : Nat) (s : View)
    (code : List Nat) (hok : (Disassemble w cs sortRanges symAddr s).1 = true)
    (hc : w.GetSymbolCode symAddr = some code) (hw : symAddr + code.length < 2 ^ 64)
    (hd : ((cs.cs_disasm w.GetCpuArch code symAddr).map Insn.address).Nodup) :
    (∀ T a, (∃ e, (T, e) ∈ (Disassemble w cs sortRanges symAddr s).2.m_jumpTable ∧
        a ∈ e.source) ↔
      ∃ line ∈ (Disassemble w cs sortRanges symAddr s).2.m_asm,
        line.addr = a ∧ line.jumpAddr = T ∧ symAddr ≤ T ∧ T < symAddr + code.length) ∧
    (∀ l1 ∈ (Disassemble w cs sortRanges symAddr s).2.m_asm,
      ∀ l2 ∈ (Disassemble w cs sortRanges symAddr s).2.m_asm, l1.addr = l2.addr → l1 = l2) ∧
    (∀ T e, (T, e) ∈ (Disassemble w cs sortRanges symAddr s).2.m_jumpTable →
      ∃ line ∈ (Disassemble w cs sortRanges symAddr s).2.m_asm, line.addr = T) := by
  obtain ⟨h0, ha, _, ho⟩ := Disassemble_of_true w cs sortRanges symAddr s hok
  obtain ⟨_, s1, s2, _⟩ := Disassemble_ok_shape w cs sortRanges symAddr s code h0 ha hc ho
  refine ⟨?_, ?_, fun T e h => Disassemble_keys_asm w cs sortRanges symAddr s T e h⟩
  · intro T a
    rw [s1, s2]
    constructor
    · rintro ⟨e, he, hs⟩
      obtain ⟨e0, h0', _, _, hsrc⟩ := jumpPostPass_backward _ _ _ _ he
      rcases (disasmLoop_origin _ _ _ _ _ ⟨[], [], []⟩ T e0 h0').2 a ((hsrc a).mp hs) with
        ⟨_, hm, _⟩ | ⟨op, hop, hadr, hj, hin, hf, ht⟩
      · simp at hm
      · refine ⟨_, List.mem_map.mpr ⟨op, hop, rfl⟩, hadr, ?_, ?_⟩
        · simp only [stepLine, stepJumpAddr, hj, hin, hf, if_true]
          exact ht
        · rw [← ht]
          exact (inCode_iff _ _ _ hw).mp hin
    · rintro ⟨line, hl, hadr, hjmp, hr⟩
      obtain ⟨op, hop, rfl⟩ := List.mem_map.mp hl
      have hin : inCode symAddr code.length T = true := (inCode_iff _ _ _ hw).mpr hr
      have hT : T ≠ 0 := by omega
      simp only [stepLine, stepJumpAddr] at hjmp hadr
      by_cases hj : hasJump op = true
      · by_cases hi : inCode symAddr code.length (jumpTarget w.GetCpuArch op) = true
        · by_cases hf : targetFound (cs.cs_disasm w.GetCpuArch code symAddr)
              (jumpTarget w.GetCpuArch op) = true
          · simp only [hj, hi, hf, if_true] at hjmp
            obtain ⟨e, he, hs⟩ := disasmLoop_records w.GetCpuArch symAddr code.length
              (cs.cs_disasm w.GetCpuArch code symAddr) (cs.cs_disasm w.GetCpuArch code symAddr)
              ⟨[], [], []⟩ op hop hj hi hf
            rw [hjmp] at he
            obtain ⟨e', he', _, _, hsrc⟩ := jumpPostPass_forward sortRanges _ T e he
            exact ⟨e', he', (hsrc a).mpr (hadr ▸ hs)⟩
          · simp only [hj, hi, hf, if_true, Bool.false_eq_true, if_false] at hjmp
            exact absurd hjmp.symm hT
        · simp only [hj, hi, if_true, Bool.false_eq_true, if_false] at hjmp
          rw [hjmp] at hi
          exact absurd hin hi
      · simp only [hj, Bool.false_eq_true, if_false] at hjmp
        exact absurd hjmp.symm hT
  · rw [s1]
    intro l1 h1 l2 h2 heq
    obtain ⟨o1, ho1, rfl⟩ := List.mem_map.mp h1
    obtain ⟨o2, ho2, rfl⟩ := List.mem_map.mp h2
    have : o1 = o2 := List.inj_on_of_nodup_map hd ho1 ho2 heq
    rw [this]

/-- The example with the jumps `0x1008 → 0x1004` and `0x1000 → 0x1004`: both addresses are
sources of the entry keyed `0x1004`, and their lines have `jumpAddr = 0x1004`. -/
theorem Disassemble_sources_witness :
    ((∃ e, (0x1004, e) ∈ (Disassemble exampleWorker exampleDecoderTwoSources sortByLen 0x1000
        exampleView).2.m_jumpTable ∧ 0x1008 ∈ e.source) ↔
      ∃ line ∈ (Disassemble exampleWorker exampleDecoderTwoSources sortByLen 0x1000
          exampleView).2.m_asm,
        line.addr = 0x1008 ∧ line.jumpAddr = 0x1004 ∧ 0x1000 ≤ 0x1004 ∧
          0x1004 < 0x1000 + (List.replicate 102 0x90).length) ∧
    (Disassemble exampleWorker exampleDecoderTwoSources sortByLen 0x1000
      exampleView).2.m_jumpTable = [(0x1004, ⟨0x1000, 0x1008, 0, [0x1000, 0x1008]⟩)] ∧
    (Disassemble exampleWorker exampleDecoderTwoSources sortByLen 0x1000
      exampleView).2.m_asm.map (fun l => (l.addr, l.jumpAddr)) =
      [(0x1000, 0x1004), (0x1004, 0), (0x1008, 0x1004)] :=
  ⟨(Disassemble_sources exampleWorker exampleDecoderTwoSources sortByLen 0x1000 exampleView
      (List.replicate 102 0x90) (by decide) (by decide) (by decide) (by decide)).1
      0x1004 0x1008,
   by decide, by decide⟩

/-! ## Opening a source file -/

theorem Disassemble_flag (w : Worker) (cs : Decoder)
    (sortRanges : List JumpRange → List JumpRange) (symAddr : Nat) (s t : View)
    (h : (Disassemble w cs sortRanges symAddr s).1 = true) :
    (Disassemble w cs sortRanges symAddr t).1 = true := by
  obtain ⟨h0, ha, ⟨code, hc⟩, ho⟩ := Disassemble_of_true w cs sortRanges symAddr s h
  exact (Disassemble_ok_shape w cs sortRanges symAddr t code h0 ha hc ho).1

theorem fitLevel_some (mn mx : Nat) (lr : List (Nat × Nat)) (b : Bool)
    (h : fitLevel mn mx lr = some b) : lr.any (overlaps mn mx) = !b := by
  induction lr with
  | nil =>
    simp only [fitLevel, Option.some.injEq] at h
    subst h
    rfl
  | cons r rest ih =>
    simp only [fitLevel] at h
    rw [List.any_cons]
    split at h
    · exact absurd h (by simp)
    · split at h
      · rename_i ho
        simp only [Option.some.injEq] at h
        subst h
        rw [ho]
        rfl
      · rename_i ho
        rw [ih h]
        have ho' : overlaps mn mx r = false := by simpa using ho
        rw [ho']
        rfl

theorem placeLevelAsserted_some (mn mx : Nat) (lrs : List (List (Nat × Nat)))
    (r : Nat × List (List (Nat × Nat))) (h : placeLevelAsserted mn mx lrs = some r) :
    r = placeLevel mn mx lrs := by
  induction lrs generalizing r with
  | nil =>
    simp only [placeLevelAsserted, Option.some.injEq] at h
    subst h
    rfl
  | cons lr rest ih =>
    simp only [placeLevelAsserted] at h
    cases hf : fitLevel mn mx lr with
    | none => rw [hf] at h; exact absurd h (by simp)
    | some b =>
      rw [hf] at h
      have hb := fitLevel_some mn mx lr b hf
      cases b with
      | true =>
        simp only [Option.some.injEq] at h
        subst h
        simp only [placeLevel, hb, Bool.not_true, Bool.false_eq_true, if_false]
      | false =>
        simp only [Option.map_eq_some'] at h
        obtain ⟨r0, h0, hr⟩ := h
        subst hr
        rw [ih r0 h0]
        simp only [placeLevel, hb, Bool.not_false, if_true]

theorem assignLevelsAsserted_some (vs : List JumpRange) (table : List (Nat × JumpData))
    (lrs : List (List (Nat × Nat))) (m : Nat) (r : List (Nat × JumpData) × Nat)
    (h : assignLevelsAsserted vs table lrs m = some r) : r = assignLevels vs table lrs m := by
  induction vs generalizing table lrs m with
  | nil =>
    simp only [assignLevelsAsserted, Option.some.injEq] at h
    simp [assignLevels, ← h]
  | cons v vs ih =>
    simp only [assignLevelsAsserted] at h
    simp only [assignLevels]
    cases hf : jtFind table v.target with
    | none =>
      rw [hf] at h
      exact ih _ _ _ h
    | some e =>
      rw [hf] at h
      simp only at h ⊢
      cases hp : placeLevelAsserted e.min e.max lrs with
      | none => rw [hp] at h; simp at h
      | some p =>
        rw [hp] at h
        simp only at h
        rw [← placeLevelAsserted_some _ _ _ _ hp]
        exact ih _ _ _ h

theorem jumpPostPassAsserted_some (sortRanges : List JumpRange → List JumpRange)
    (table : List (Nat × JumpData)) (r : List (Nat × JumpData) × Nat)
    (h : jumpPostPassAsserted sortRanges table = some r) :
    r = jumpPostPass sortRanges table := by
  unfold jumpPostPassAsserted at h
  unfold jumpPostPass
  split at h
  · rename_i he
    simp only [Option.some.injEq] at h
    subst h
    rw [if_pos he]
  · rename_i he
    rw [if_neg he]
    exact assignLevelsAsserted_some _ _ _ _ _ h

theorem Disassemble_loopJumpTable (w : Worker) (cs : Decoder)
    (sortRanges : List JumpRange → List JumpRange) (symAddr : Nat) (s : View) :
    (Disassemble w cs sortRanges symAddr s).2.m_jumpTable =
      (jumpPostPass sortRanges (loopJumpTable w cs symAddr)).1 := by
  have h0 : (jumpPostPass sortRanges []).1 = [] := by simp [jumpPostPass]
  unfold Disassemble loopJumpTable
  dsimp only
  by_cases h1 : (symAddr == 0) = true
  · simp only [h1, if_true]
    exact h0.symm
  · simp only [h1, if_false]
    by_cases h2 : (w.GetCpuArch == CpuArch.CpuArchUnknown) = true
    · simp only [h2, if_true]
      exact h0.symm
    · simp only [h2, if_false]
      cases hc : w.GetSymbolCode symAddr with
      | none => exact h0.symm
      | some code =>
        dsimp only
        by_cases h3 : (!cs.cs_open w.GetCpuArch) = true
        · simp only [h3, if_true]
          exact h0.symm
        · simp only [h3, if_false]
          cases hl : (cs.cs_disasm w.GetCpuArch code symAddr).getLast? with
          | none =>
            rw [List.getLast?_eq_none_iff] at hl
            simp only [hl, List.foldl_nil]
            exact h0.symm
          | some last => rfl

/-- C26, the failing input: the lane assertion fails for two instructions that jump to
each other. The table built by the instruction loop has the entries `0x1004` and
`0x1000`, both with the interval `[0x1000, 0x1004]`, and the second one placed is tested
against the equal interval of the first at level 0. Without the assertion the post-pass
puts the two at levels 0 and 1. -/
theorem Disassemble_lane_assertion_fails :
    loopJumpTable exampleWorker exampleDecoderMutual 0x1000 =
      [(0x1004, ⟨0x1000, 0x1004, 0, [0x1000]⟩), (0x1000, ⟨0x1000, 0x1004, 0, [0x1004]⟩)] ∧
    jumpPostPassAsserted sortByLen (loopJumpTable exampleWorker exampleDecoderMutual 0x1000) =
      none ∧
    (Disassemble exampleWorker exampleDecoderMutual sortByLen 0x1000 exampleView).2.m_jumpTable =
      [(0x1004, ⟨0x1000, 0x1004, 0, [0x1000]⟩), (0x1000, ⟨0x1000, 0x1004, 1, [0x1004]⟩)] := by
  decide

theorem tableIntervals_jtModify (table : List (Nat × JumpData)) (key L : Nat) :
    tableIntervals (jtModify table key (fun d => { d with level := L })) =
      tableIntervals table := by
  unfold tableIntervals jtModify
  rw [List.map_map]
  apply List.map_congr_left
  intro e _
  simp only [Function.comp]
  split <;> rfl

theorem tableIntervals_keys (table : List (Nat × JumpData)) :
    (tableIntervals table).map Prod.fst = table.map Prod.fst := by
  unfold tableIntervals
  rw [List.map_map]
  rfl

theorem mem_tableIntervals (table : List (Nat × JumpData)) (k : Nat) (e : JumpData)
    (h : (k, e) ∈ table) : (k, e.min, e.max) ∈ tableIntervals table :=
  List.mem_map.mpr ⟨(k, e), h, rfl⟩

theorem triples_unique (K : List (Nat × Nat × Nat)) (hn : (K.map Prod.fst).Nodup)
    (x y : Nat × Nat × Nat) (hx : x ∈ K) (hy : y ∈ K) (h : x.1 = y.1) : x = y :=
  List.inj_on_of_nodup_map hn hx hy h

theorem contained_self (mn mx : Nat) : contained mn mx (mn, mx) = true := by
  simp [contained]

theorem contained_eq (mn mx : Nat) (r : Nat × Nat) (h : contained mn mx r = true)
    (hle : mn ≤ mx) (hlen : r.2 - r.1 ≤ mx - mn) : r = (mn, mx) := by
  simp only [contained, ge_iff_le, Bool.and_eq_true, decide_eq_true_eq] at h
  obtain ⟨a, b⟩ := r
  simp only at h hlen
  have h1 : a = mn := by omega
  have h2 : b = mx := by omega
  rw [h1, h2]

theorem fitLevel_isSome (mn mx : Nat) (lr : List (Nat × Nat))
    (h : ∀ q ∈ lr, contained mn mx q = false) : ∃ b, fitLevel mn mx lr = some b := by
  induction lr with
  | nil => exact ⟨true, rfl⟩
  | cons q rest ih =>
    simp only [fitLevel]
    rw [h q (List.mem_cons_self _ _)]
    simp only [Bool.false_eq_true, if_false]
    split
    · exact ⟨false, rfl⟩
    · exact ih (fun q' hq => h q' (List.mem_cons_of_mem _ hq))

theorem fitLevel_mem (mn mx : Nat) (lr : List (Nat × Nat))
    (hp : lr.Pairwise (fun q r => overlaps q.1 q.2 r = false)) (hm : (mn, mx) ∈ lr) :
    fitLevel mn mx lr = none := by
  induction lr with
  | nil => simp at hm
  | cons q rest ih =>
    simp only [fitLevel]
    rw [List.pairwise_cons] at hp
    rcases List.mem_cons.mp hm with h | h
    · rw [← h, contained_self]
      rfl
    · split
      · rfl
      · have ho : overlaps mn mx q = false := by
          have := hp.1 (mn, mx) h
          obtain ⟨a, b⟩ := q
          rw [overlaps_symm]
          exact this
        rw [ho]
        simp only [Bool.false_eq_true, if_false]
        exact ih hp.2 h

theorem placeLevelAsserted_isSome (mn mx : Nat) (lrs : List (List (Nat × Nat)))
    (h : ∀ lr ∈ lrs, ∀ q ∈ lr, contained mn mx q = false) :
    ∃ r, placeLevelAsserted mn mx lrs = some r := by
  induction lrs with
  | nil => exact ⟨_, rfl⟩
  | cons lr rest ih =>
    simp only [placeLevelAsserted]
    obtain ⟨b, hb⟩ := fitLevel_isSome mn mx lr (h lr (List.mem_cons_self _ _))
    rw [hb]
    cases b with
    | true => exact ⟨_, rfl⟩
    | false =>
      obtain ⟨r, hr⟩ := ih (fun l hl => h l (List.mem_cons_of_mem _ hl))
      rw [hr]
      exact ⟨_, rfl⟩

theorem placeLevelAsserted_ranges (mn mx : Nat) (lrs : List (List (Nat × Nat)))
    (r : Nat × List (List (Nat × Nat))) (h : placeLevelAsserted mn mx lrs = some r) :
    (∀ l ∈ r.2, ∀ q ∈ l, q = (mn, mx) ∨ ∃ l0 ∈ lrs, q ∈ l0) ∧
    (∃ l ∈ r.2, (mn, mx) ∈ l) ∧ ∀ l0 ∈ lrs, ∀ q ∈ l0, ∃ l ∈ r.2, q ∈ l := by
  induction lrs generalizing r with
  | nil =>
    simp only [placeLevelAsserted, Option.some.injEq] at h
    subst h
    simp
  | cons lr rest ih =>
    simp only [placeLevelAsserted] at h
    cases hf : fitLevel mn mx lr with
    | none => rw [hf] at h; exact absurd h (by simp)
    | some b =>
      rw [hf] at h
      cases b with
      | true =>
        simp only [Option.some.injEq] at h
        subst h
        refine ⟨?_, ?_, ?_⟩
        · intro l hl q hq
          rcases List.mem_cons.mp hl with rfl | hl
          · rcases List.mem_append.mp hq with hq | hq
            · exact Or.inr ⟨lr, List.mem_cons_self _ _, hq⟩
            · exact Or.inl (List.mem_singleton.mp hq)
          · exact Or.inr ⟨l, List.mem_cons_of_mem _ hl, hq⟩
        · exact ⟨_, List.mem_cons_self _ _, List.mem_append_right _ (List.mem_singleton_self _)⟩
        · intro l0 hl0 q hq
          rcases List.mem_cons.mp hl0 with rfl | hl0
          · exact ⟨_, List.mem_cons_self _ _, List.mem_append_left _ hq⟩
          · exact ⟨l0, List.mem_cons_of_mem _ hl0, hq⟩
      | false =>
        simp only [Option.map_eq_some'] at h
        obtain ⟨r0, h0, hr⟩ := h
        subst hr
        obtain ⟨a, b, c⟩ := ih r0 h0
        refine ⟨?_, ?_, ?_⟩
        · intro l hl q hq
          rcases List.mem_cons.mp hl with rfl | hl
          · exact Or.inr ⟨l, List.mem_cons_self _ _, hq⟩
          · rcases a l hl q hq with h1 | ⟨l0, hl0, hq0⟩
            · exact Or.inl h1
            · exact Or.inr ⟨l0, List.mem_cons_of_mem _ hl0, hq0⟩
        · obtain ⟨l, hl, hq⟩ := b
          exact ⟨l, List.mem_cons_of_mem _ hl, hq⟩
        · intro l0 hl0 q hq
          rcases List.mem_cons.mp hl0 with rfl | hl0
          · exact ⟨l0, List.mem_cons_self _ _, hq⟩
          · obtain ⟨l, hl, hq'⟩ := c l0 hl0 q hq
            exact ⟨l, List.mem_cons_of_mem _ hl, hq'⟩

theorem placeLevelAsserted_inv (mn mx : Nat) (lrs : List (List (Nat × Nat)))
    (r : Nat × List (List (Nat × Nat))) (h : placeLevelAsserted mn mx lrs = some r)
    (hinv : LanesInv lrs) : LanesInv r.2 := by
  induction lrs generalizing r with
  | nil =>
    simp only [placeLevelAsserted, Option.some.injEq] at h
    subst h
    simp [LanesInv]
  | cons lr rest ih =>
    simp only [placeLevelAsserted] at h
    obtain ⟨i1, i2, i3⟩ := hinv
    cases hf : fitLevel mn mx lr with
    | none => rw [hf] at h; exact absurd h (by simp)
    | some b =>
      rw [hf] at h
      have hany := fitLevel_some mn mx lr b hf
      cases b with
      | true =>
        simp only [Option.some.injEq] at h
        subst h
        refine ⟨?_, ?_, i3⟩
        · rw [List.pairwise_append]
          refine ⟨i1, List.pairwise_singleton _ _, ?_⟩
          intro q hq q' hq'
          rw [List.mem_singleton] at hq'
          subst hq'
          have : overlaps mn mx q = false := by
            cases hx : overlaps mn mx q with
            | false => rfl
            | true =>
              have : lr.any (overlaps mn mx) = true := List.any_eq_true.mpr ⟨q, hq, hx⟩
              rw [hany] at this
              exact absurd this (by simp)
          obtain ⟨a, b⟩ := q
          rw [overlaps_symm]
          exact this
        · intro l hl q hq
          rw [List.any_append, i2 l hl q hq]
          rfl
      | false =>
        simp only [Option.map_eq_some'] at h
        obtain ⟨r0, h0, hr⟩ := h
        subst hr
        refine ⟨i1, ?_, ih r0 h0 i3⟩
        intro l hl q hq
        rcases (placeLevelAsserted_ranges mn mx rest r0 h0).1 l hl q hq with h1 | ⟨l0, hl0, hq0⟩
        · rw [h1]
          simpa using hany
        · exact i2 l0 hl0 q hq0

theorem placeLevelAsserted_fresh (mn mx : Nat) (lrs : List (List (Nat × Nat)))
    (r : Nat × List (List (Nat × Nat))) (h : placeLevelAsserted mn mx lrs = some r)
    (hinv : LanesInv lrs) : ∀ l ∈ lrs, (mn, mx) ∉ l := by
  induction lrs generalizing r with
  | nil => simp
  | cons lr rest ih =>
    simp only [placeLevelAsserted] at h
    obtain ⟨i1, i2, i3⟩ := hinv
    cases hf : fitLevel mn mx lr with
    | none => rw [hf] at h; exact absurd h (by simp)
    | some b =>
      rw [hf] at h
      have hany := fitLevel_some mn mx lr b hf
      have h0 : (mn, mx) ∉ lr := by
        intro hm
        rw [fitLevel_mem mn mx lr i1 hm] at hf
        exact absurd hf (by simp)
      intro l hl
      rcases List.mem_cons.mp hl with rfl | hl
      · exact h0
      · cases b with
        | true =>
          intro hm
          have := i2 l hl (mn, mx) hm
          rw [hany] at this
          exact absurd this (by simp)
        | false =>
          simp only [Option.map_eq_some'] at h
          obtain ⟨r0, h1, _⟩ := h
          exact ih r0 h1 i3 l hl

theorem assignLevelsAsserted_isSome (K : List (Nat × Nat × Nat))
    (hiv : (K.map Prod.snd).Nodup) (hle : ∀ x ∈ K, x.2.1 ≤ x.2.2)
    (vs : List JumpRange) (table : List (Nat × JumpData)) (lrs : List (List (Nat × Nat)))
    (m : Nat) (hT : tableIntervals table = K)
    (hlen : ∀ v ∈ vs, ∀ x ∈ K, x.1 = v.target → v.len = x.2.2 - x.2.1)
    (hs : vs.Pairwise (fun a b => a.len ≤ b.len))
    (htn : (vs.map JumpRange.target).Nodup)
    (hlr : ∀ l ∈ lrs, ∀ q ∈ l, ∃ x ∈ K, x.2 = q ∧ x.1 ∉ vs.map JumpRange.target ∧
      ∀ v ∈ vs, q.2 - q.1 ≤ v.len) :
    ∃ r, assignLevelsAsserted vs table lrs m = some r := by
  induction vs generalizing table lrs m with
  | nil => exact ⟨_, rfl⟩
  | cons v vs ih =>
    simp only [assignLevelsAsserted]
    rw [List.pairwise_cons] at hs
    rw [List.map_cons, List.nodup_cons] at htn
    have hlen' : ∀ v' ∈ vs, ∀ x ∈ K, x.1 = v'.target → v'.len = x.2.2 - x.2.1 :=
      fun v' hv' => hlen v' (List.mem_cons_of_mem _ hv')
    cases hf : jtFind table v.target with
    | none =>
      simp only
      apply ih table lrs m hT hlen' hs.2 htn.2
      intro l hl q hq
      obtain ⟨x, hx, hxq, hxn, hxl⟩ := hlr l hl q hq
      exact ⟨x, hx, hxq, fun hc => hxn (List.mem_cons_of_mem _ hc),
        fun v' hv' => hxl v' (List.mem_cons_of_mem _ hv')⟩
    | some e =>
      simp only
      have hm := jtFind_some table v.target e hf
      have hx0 : (v.target, e.min, e.max) ∈ K := hT ▸ mem_tableIntervals table v.target e hm
      have hl0 : v.len = e.max - e.min := hlen v (List.mem_cons_self _ _) _ hx0 rfl
      have hle0 : e.min ≤ e.max := hle _ hx0
      have hc : ∀ l ∈ lrs, ∀ q ∈ l, contained e.min e.max q = false := by
        intro l hl q hq
        cases hcq : contained e.min e.max q with
        | false => rfl
        | true =>
          exfalso
          obtain ⟨x, hx, hxq, hxn, hxl⟩ := hlr l hl q hq
          have hq' : q = (e.min, e.max) := by
            apply contained_eq e.min e.max q hcq hle0
            rw [← hl0]
            exact hxl v (List.mem_cons_self _ _)
          have hxe : x = (v.target, e.min, e.max) :=
            List.inj_on_of_nodup_map hiv hx hx0 (by rw [hxq, hq'])
          apply hxn
          rw [hxe]
          exact List.mem_cons_self _ _
      obtain ⟨p, hp⟩ := placeLevelAsserted_isSome e.min e.max lrs hc
      rw [hp]
      simp only
      apply ih _ p.2 _ ((tableIntervals_jtModify table v.target p.1).trans hT) hlen' hs.2 htn.2
      intro l hl q hq
      rcases (placeLevelAsserted_ranges e.min e.max lrs p hp).1 l hl q hq with h1 | ⟨l0, hl0', hq0⟩
      · refine ⟨_, hx0, h1.symm, htn.1, ?_⟩
        intro v' hv'
        rw [h1]
        simp only
        rw [← hl0]
        exact hs.1 v' hv'
      · obtain ⟨x, hx, hxq, hxn, hxl⟩ := hlr l0 hl0' q hq0
        exact ⟨x, hx, hxq, fun hc => hxn (List.mem_cons_of_mem _ hc),
          fun v' hv' => hxl v' (List.mem_cons_of_mem _ hv')⟩

theorem assignLevelsAsserted_fresh (K : List (Nat × Nat × Nat))
    (hk : (K.map Prod.fst).Nodup)
    (vs : List JumpRange) (table : List (Nat × JumpData)) (lrs : List (List (Nat × Nat)))
    (m : Nat) (hT : tableIntervals table = K) (hinv : LanesInv lrs)
    (r : List (Nat × JumpData) × Nat) (h : assignLevelsAsserted vs table lrs m = some r) :
    vs.Pairwise (fun a b => ∀ x ∈ K, ∀ y ∈ K, x.1 = a.target → y.1 = b.target → x.2 ≠ y.2) ∧
    ∀ v ∈ vs, ∀ x ∈ K, x.1 = v.target → ∀ l ∈ lrs, x.2 ∉ l := by
  induction vs generalizing table lrs m with
  | nil => exact ⟨List.Pairwise.nil, fun v hv => absurd hv (List.not_mem_nil _)⟩
  | cons v vs ih =>
    simp only [assignLevelsAsserted] at h
    cases hf : jtFind table v.target with
    | none =>
      rw [hf] at h
      simp only at h
      obtain ⟨a, b⟩ := ih table lrs m hT hinv h
      have hno : ∀ x ∈ K, x.1 ≠ v.target := by
        intro x hx hxv
        rw [← hT] at hx
        obtain ⟨⟨k, e⟩, hm, he⟩ := List.mem_map.mp hx
        rw [← he] at hxv
        simp only at hxv
        rw [hxv] at hm
        exact jtFind_none table v.target hf e hm
      refine ⟨List.pairwise_cons.mpr ⟨?_, a⟩, ?_⟩
      · intro b' _ x hx y _ hxv
        exact absurd hxv (hno x hx)
      · intro u hu x hx hxu
        rcases List.mem_cons.mp hu with rfl | hu
        · exact absurd hxu (hno x hx)
        · exact b u hu x hx hxu
    | some e =>
      rw [hf] at h
      simp only at h
      have hm := jtFind_some table v.target e hf
      have hx0 : (v.target, e.min, e.max) ∈ K := hT ▸ mem_tableIntervals table v.target e hm
      cases hp : placeLevelAsserted e.min e.max lrs with
      | none => rw [hp] at h; exact absurd h (by simp)
      | some p =>
        rw [hp] at h
        simp only at h
        obtain ⟨a, b⟩ := ih _ p.2 _ ((tableIntervals_jtModify table v.target p.1).trans hT)
          (placeLevelAsserted_inv e.min e.max lrs p hp hinv) h
        obtain ⟨_, ⟨l1, hl1, hq1⟩, r3⟩ := placeLevelAsserted_ranges e.min e.max lrs p hp
        have huniq : ∀ x ∈ K, x.1 = v.target → x.2 = (e.min, e.max) := by
          intro x hx hxv
          rw [triples_unique K hk x _ hx hx0 hxv]
        refine ⟨List.pairwise_cons.mpr ⟨?_, a⟩, ?_⟩
        · intro b' hb' x hx y hy hxv hyb hxy
          apply b b' hb' y hy hyb l1 hl1
          rw [← hxy, huniq x hx hxv]
          exact hq1
        · intro u hu x hx hxu l hl hxl
          rcases List.mem_cons.mp hu with rfl | hu
          · rw [huniq x hx hxu] at hxl
            exact placeLevelAsserted_fresh e.min e.max lrs p hp hinv l hl hxl
          · obtain ⟨l', hl', hq'⟩ := r3 l hl x.2 hxl
            exact b u hu x hx hxu l' hl' hq'

theorem jumpPostPassAsserted_iff (sortRanges : List JumpRange → List JumpRange)
    (hperm : ∀ l, (sortRanges l).Perm l)
    (hsort : ∀ l, (sortRanges l).Pairwise (fun a b => a.len ≤ b.len))
    (table : List (Nat × JumpData)) (hkeys : (table.map Prod.fst).Nodup)
    (hle : ∀ k e, (k, e) ∈ table → e.min ≤ e.max) :
    (∃ r, jumpPostPassAsserted sortRanges table = some r) ↔
      (table.map (fun e => (e.2.min, e.2.max))).Nodup := by
  unfold jumpPostPassAsserted
  by_cases he : table.isEmpty = true
  · rw [if_pos he]
    have : table = [] := List.isEmpty_iff.mp he
    subst this
    simp
  · rw [if_neg he]
    simp only
    generalize hsd : table.map (fun e =>
      (e.1, { e.2 with source := e.2.source.insertionSort (fun a b => a ≤ b) })) = sorted
    have hK : tableIntervals sorted = tableIntervals table := by
      rw [← hsd]
      unfold tableIntervals
      rw [List.map_map]
      rfl
    have hKk : ((tableIntervals table).map Prod.fst).Nodup := by
      rw [tableIntervals_keys]
      exact hkeys
    have hKs : (tableIntervals table).map Prod.snd = table.map (fun e => (e.2.min, e.2.max)) := by
      unfold tableIntervals
      rw [List.map_map]
      rfl
    have hjr : jumpRanges sorted =
        (tableIntervals table).map (fun x => (⟨x.1, x.2.2 - x.2.1⟩ : JumpRange)) := by
      rw [← hK]
      unfold jumpRanges tableIntervals
      rw [List.map_map]
      rfl
    rw [← hKs]
    constructor
    · rintro ⟨r, hr⟩
      have h1 := (assignLevelsAsserted_fresh (tableIntervals table) hKk _ sorted [] 0 hK trivial
        r hr).1
      have hsymm : ∀ a b : JumpRange,
          (∀ x ∈ tableIntervals table, ∀ y ∈ tableIntervals table,
            x.1 = a.target → y.1 = b.target → x.2 ≠ y.2) →
          (∀ x ∈ tableIntervals table, ∀ y ∈ tableIntervals table,
            x.1 = b.target → y.1 = a.target → x.2 ≠ y.2) :=
        fun a b hab x hx y hy hxb hya hxy => hab y hy x hx hya hxb hxy.symm
      have h2 := ((hperm (jumpRanges sorted)).pairwise_iff (fun {a b} => hsymm a b)).mp h1
      rw [hjr, List.pairwise_map] at h2
      rw [List.Nodup, List.pairwise_map]
      exact h2.imp_of_mem (fun {x y} hx hy hxy => hxy x hx y hy rfl rfl)
    · intro hn
      apply assignLevelsAsserted_isSome (tableIntervals table) hn _ _ sorted [] 0 hK
      · intro v hv x hx hxv
        have hv' : v ∈ jumpRanges sorted := (hperm _).mem_iff.mp hv
        rw [hjr] at hv'
        obtain ⟨y, hy, rfl⟩ := List.mem_map.mp hv'
        simp only at hxv
        rw [triples_unique _ hKk x y hx hy hxv]
      · exact hsort _
      · have := ((hperm (jumpRanges sorted)).map JumpRange.target).nodup_iff
        rw [this, hjr, List.map_map]
        exact hKk
      · intro l hl
        exact absurd hl (List.not_mem_nil _)
      · intro x hx
        obtain ⟨⟨k, e⟩, hm, rfl⟩ := List.mem_map.mp hx
        exact hle k e hm

theorem loopJumpTable_shape (w : Worker) (cs : Decoder) (symAddr : Nat) :
    loopJumpTable w cs symAddr = [] ∨
    ∃ arch len insn, loopJumpTable w cs symAddr =
      (List.foldl (disasmStep arch symAddr len insn) ⟨[], [], []⟩ insn).jumpTable := by
  unfold loopJumpTable
  split
  · exact Or.inl rfl
  · split
    · exact Or.inl rfl
    · split
      · exact Or.inl rfl
      · split
        · exact Or.inl rfl
        · exact Or.inr ⟨_, _, _, rfl⟩

theorem loopJumpTable_ok (w : Worker) (cs : Decoder) (symAddr : Nat) :
    ((loopJumpTable w cs symAddr).map Prod.fst).Nodup ∧
    ∀ k e, (k, e) ∈ loopJumpTable w cs symAddr → e.min ≤ e.max := by
  rcases loopJumpTable_shape w cs symAddr with h | ⟨arch, len, insn, h⟩
  · rw [h]
    simp
  · rw [h]
    refine ⟨disasmLoop_nodup arch symAddr len insn insn ⟨[], [], []⟩ (by simp), ?_⟩
    intro k e hm
    have := disasmLoop_ok arch symAddr len insn insn ⟨[], [], []⟩ (by simp) k e hm
    exact Nat.le_trans this.2.2.1 this.2.2.2

/-- C26, what the code does: given a sort that orders its input by ascending `len`, the
containment assertion of the lane loop holds for the jump table that the instruction
loop of `Disassemble` has built exactly when no two entries of the table have the same
interval `[min, max]`; the lane pass then gives what it gives without the assertion, and
the table `Disassemble` leaves is that of the pass without the assertion. -/
theorem Disassemble_lane_assertion (sortRanges : List JumpRange → List JumpRange)
    (w : Worker) (cs : Decoder) (symAddr : Nat)
    (hperm : ∀ l, (sortRanges l).Perm l)
    (hsort : ∀ l, (sortRanges l).Pairwise (fun a b => a.len ≤ b.len)) :
    ((∃ r, jumpPostPassAsserted sortRanges (loopJumpTable w cs symAddr) = some r) ↔
      ((loopJumpTable w cs symAddr).map (fun e => (e.2.min, e.2.max))).Nodup) ∧
    (∀ r, jumpPostPassAsserted sortRanges (loopJumpTable w cs symAddr) = some r →
      r = jumpPostPass sortRanges (loopJumpTable w cs symAddr)) ∧
    ∀ s, (Disassemble w cs sortRanges symAddr s).2.m_jumpTable =
      (jumpPostPass sortRanges (loopJumpTable w cs symAddr)).1 := by
  obtain ⟨h1, h2⟩ := loopJumpTable_ok w cs symAddr
  exact ⟨jumpPostPassAsserted_iff sortRanges hperm hsort _ h1 h2,
    fun r hr => jumpPostPassAsserted_some sortRanges _ r hr,
    fun s => Disassemble_loopJumpTable w cs sortRanges symAddr s⟩

/-- The three jumps of `exampleDecoder` have the distinct intervals `[0x100A, 0x1014]`,
`[0x101E, 0x1028]` and `[0x1000, 0x1064]`, and the assertion holds. -/
theorem Disassemble_lane_assertion_witness :
    ((loopJumpTable exampleWorker exampleDecoder 0x1000).map
      (fun e => (e.2.min, e.2.max))) = [(0x100A, 0x1014), (0x101E, 0x1028), (0x1000, 0x1064)] ∧
    ∃ r, jumpPostPassAsserted sortByLen (loopJumpTable exampleWorker exampleDecoder 0x1000) =
      some r :=
  ⟨by decide,
   (Disassemble_lane_assertion sortByLen exampleWorker exampleDecoder 0x1000
      (fun l => List.perm_insertionSort _ l) sortByLen_sorted).1.2 (by decide)⟩

/-! ## The source location text of an assembly line -/

theorem decimalDigits_length_le (fuel n : Nat) : (decimalDigits fuel n).length ≤ fuel := by
  induction fuel generalizing n with
  | zero => simp [decimalDigits]
  | succ f ih =>
    simp only [decimalDigits]
    split
    · simp
    · simp only [List.length_append, List.length_singleton]
      exact Nat.succ_le_succ (ih _)

theorem decimalDigits_length_pos (fuel n : Nat) : 1 ≤ (decimalDigits (fuel + 1) n).length := by
  simp only [decimalDigits]
  split
  · simp
  · simp

theorem decimalDigits_length_mono (fuel n m : Nat) (h : n ≤ m) :
    (decimalDigits fuel n).length ≤ (decimalDigits fuel m).length := by
  induction fuel generalizing n m with
  | zero => simp [decimalDigits]
  | succ f ih =>
    by_cases hn : n < 10
    · have : (decimalDigits (f + 1) n).length = 1 := by simp [decimalDigits, hn]
      rw [this]
      exact decimalDigits_length_pos f m
    · have hm : ¬ m < 10 := by omega
      simp only [decimalDigits, hn, hm, if_false, List.length_append, List.length_singleton]
      exact Nat.succ_le_succ (ih _ _ (Nat.div_le_div_right h))

/-- Enough fuel gives the decimal representation: the digits of a number below
`10 ^ fuel` have its value. -/
theorem decimalDigits_value (fuel n : Nat) (h : n < 10 ^ fuel) :
    (decimalDigits fuel n).foldl (fun a c => 10 * a + (c - 48)) 0 = n ∧
    ∀ c ∈ decimalDigits fuel n, 48 ≤ c ∧ c ≤ 57 := by
  induction fuel generalizing n with
  | zero =>
    simp only [pow_zero, Nat.lt_one_iff] at h
    subst h
    simp [decimalDigits]
  | succ f ih =>
    simp only [decimalDigits]
    split
    · rename_i hn
      refine ⟨by simp, ?_⟩
      intro c hc
      rw [List.mem_singleton] at hc
      omega
    · have hd : n / 10 < 10 ^ f := by
        rw [Nat.div_lt_iff_lt_mul (by decide)]
        rw [pow_succ] at h
        exact h
      obtain ⟨a, b⟩ := ih (n / 10) hd
      refine ⟨?_, ?_⟩
      · rw [List.foldl_append, a]
        simp only [List.foldl_cons, List.foldl_nil]
        omega
      · intro c hc
        rcases List.mem_append.mp hc with hc | hc
        · exact b c hc
        · rw [List.mem_singleton] at hc
          omega

theorem printU32_length (v : Nat) : 1 ≤ (printU32 v).length ∧ (printU32 v).length ≤ 10 :=
  ⟨decimalDigits_length_pos 9 _, decimalDigits_length_le 10 _⟩

theorem printInt_length (v M : Nat) (hv : v ≤ M) (hM : M < 2 ^ 32) :
    (printInt v).length ≤ (printU32 M).length + 1 ∧
    (v < 2 ^ 31 → (printInt v).length ≤ (printU32 M).length) := by
  have hv' : v % 2 ^ 32 = v := Nat.mod_eq_of_lt (by omega)
  have hM' : M % 2 ^ 32 = M := Nat.mod_eq_of_lt hM
  unfold printInt printU32
  rw [hv', hM']
  have hmono := decimalDigits_length_mono 10 v M hv
  by_cases h : v < 2 ^ 31
  · rw [if_pos h]
    exact ⟨Nat.le_succ_of_le hmono, fun _ => hmono⟩
  · rw [if_neg h]
    refine ⟨?_, fun h' => absurd h' h⟩
    have h9 : (decimalDigits 10 (10 ^ 9)).length = 10 := by decide
    have hM10 : 10 ≤ (decimalDigits 10 M).length := by
      rw [← h9]
      apply decimalDigits_length_mono
      norm_num at h ⊢
      omega
    have := decimalDigits_length_le 10 (2 ^ 32 - v)
    simp only [List.length_cons]
    omega

theorem foldl_max_ge (srcLine : Nat → Nat) (insn : List Insn) (m0 : Nat) :
    m0 ≤ insn.foldl (fun m op => max m (srcLine op.address)) m0 ∧
    ∀ op ∈ insn, srcLine op.address ≤ insn.foldl (fun m op => max m (srcLine op.address)) m0 := by
  induction insn generalizing m0 with
  | nil => simp
  | cons x xs ih =>
    simp only [List.foldl_cons]
    obtain ⟨a, b⟩ := ih (max m0 (srcLine x.address))
    refine ⟨Nat.le_trans (Nat.le_max_left _ _) a, ?_⟩
    intro op hop
    rcases List.mem_cons.mp hop with rfl | hop
    · exact Nat.le_trans (Nat.le_max_right _ _) a
    · exact b op hop

theorem foldl_max_lt (srcLine : Nat → Nat) (insn : List Insn) (m0 B : Nat) (h0 : m0 < B)
    (h : ∀ op ∈ insn, srcLine op.address < B) :
    insn.foldl (fun m op => max m (srcLine op.address)) m0 < B := by
  induction insn generalizing m0 with
  | nil => simpa using h0
  | cons x xs ih =>
    simp only [List.foldl_cons]
    apply ih
    · exact max_lt h0 (h x (List.mem_cons_self _ _))
    · exact fun op hop => h op (List.mem_cons_of_mem _ hop)

theorem maxLineStep_eq (srcLine : Nat → Nat) (m : Nat) (op : Insn) :
    maxLineStep srcLine m op = (printU32 (srcLine op.address)).length + 1 := by
  unfold maxLineStep
  simp only
  by_cases h : srcLine op.address = 0
  · simp [h]
  · have h1 : (srcLine op.address != 0) = true := by simpa using h
    have h2 : srcLine op.address > 0 := Nat.pos_of_ne_zero h
    rw [if_pos h1, if_pos h2]

theorem loopMaxLine_last (srcLine : Nat → Nat) (insn : List Insn) (m0 : Nat) (last : Insn)
    (h : insn.getLast? = some last) :
    loopMaxLine srcLine insn m0 = (printU32 (srcLine last.address)).length + 1 := by
  obtain ⟨init, rfl⟩ : ∃ init, insn = init ++ [last] := by
    rw [List.getLast?_eq_some_iff] at h
    exact h
  unfold loopMaxLine
  rw [List.foldl_append]
  simp only [List.foldl_cons, List.foldl_nil]
  exact maxLineStep_eq srcLine _ last

theorem chipText_length (fileName : List Nat) (srcline m : Nat) (hm : m ≤ 26) :
    (chipText fileName srcline m).length ≤ 30 - m + (printInt srcline).length := by
  unfold chipText
  simp only
  split
  · simp only [List.length_append, cstr]
    simp only [String.toList, List.map_cons, List.map_nil, List.length_cons, List.length_nil]
    omega
  · simp only [List.length_append, List.length_drop, cstr]
    simp only [String.toList, List.map_cons, List.map_nil, List.length_cons, List.length_nil]
    omega

/-- C29, as intended and as coded: with `m_maxLine` one more than the digit count of the
largest source line number over the decoded instructions (32-bit lines), the source
location text of every instruction with a known line is at most 31 bytes for every file
name, so it fits `char buf[32]` with its terminating NUL. The loop of `Disassemble`
stores something else: `mLineMax` is a local of the loop body, so after the loop
`m_maxLine` is one more than the digit count of the line of the last instruction (of `0`
when that line is unknown). The two agree when no instruction has a larger line than
the last one. -/
theorem chipText_fits (srcLine : Nat → Nat) (insn : List Insn)
    (h32 : ∀ op ∈ insn, srcLine op.address < 2 ^ 32) :
    (∀ op ∈ insn, srcLine op.address ≠ 0 → ∀ fileName : List Nat,
      (chipText fileName (srcLine op.address) (specMaxLine srcLine insn)).length ≤ 31) ∧
    (∀ last m0, insn.getLast? = some last →
      loopMaxLine srcLine insn m0 = (printU32 (srcLine last.address)).length + 1) ∧
    (∀ last m0, insn.getLast? = some last →
      (∀ op ∈ insn, srcLine op.address ≤ srcLine last.address) →
      loopMaxLine srcLine insn m0 = specMaxLine srcLine insn) := by
  refine ⟨?_, ?_, ?_⟩
  · intro op hop _ fileName
    have hM := foldl_max_lt srcLine insn 0 (2 ^ 32) (by decide) h32
    have hle := (foldl_max_ge srcLine insn 0).2 op hop
    have hp := (printInt_length _ _ hle hM).1
    have hl := printU32_length (insn.foldl (fun m op => max m (srcLine op.address)) 0)
    have hc := chipText_length fileName (srcLine op.address) (specMaxLine srcLine insn)
      (by unfold specMaxLine; omega)
    unfold specMaxLine at hc ⊢
    omega
  · exact fun last m0 h => loopMaxLine_last srcLine insn m0 last h
  · intro last m0 h hmax
    rw [loopMaxLine_last srcLine insn m0 last h]
    unfold specMaxLine
    have hmem : last ∈ insn := List.mem_of_getLast?_eq_some h
    have h1 := (foldl_max_ge srcLine insn 0).2 last hmem
    have h2 : insn.foldl (fun m op => max m (srcLine op.address)) 0 ≤ srcLine last.address := by
      have : ∀ (l : List Insn) (m0 : Nat), m0 ≤ srcLine last.address →
          (∀ op ∈ l, srcLine op.address ≤ srcLine last.address) →
          l.foldl (fun m op => max m (srcLine op.address)) m0 ≤ srcLine last.address := by
        intro l
        induction l with
        | nil => intro m0 h0 _; simpa using h0
        | cons x xs ih =>
          intro m0 h0 hl
          simp only [List.foldl_cons]
          exact ih _ (max_le h0 (hl x (List.mem_cons_self _ _)))
            (fun op hop => hl op (List.mem_cons_of_mem _ hop))
      exact this insn 0 (Nat.zero_le _) hmax
    rw [Nat.le_antisymm h2 h1]

/-- With the lines 7 and 1234 in this order the loop and the specification agree on
`m_maxLine = 5`, and the text of line 7 in `src/server/TracySourceView.cpp` is the
26 bytes `...r/TracySourceView.cpp:7`. -/
theorem chipText_fits_witness :
    loopMaxLine (fun a => if a == 0x1004 then 1234 else 7) exampleLineInsn 0 = 5 ∧
    chipText (cstr "src/server/TracySourceView.cpp") 7 5 = cstr "...r/TracySourceView.cpp:7" ∧
    ∀ op ∈ exampleLineInsn, (fun a => if a == 0x1004 then 1234 else 7) op.address ≠ 0 →
      ∀ fileName : List Nat,
        (chipText fileName ((fun a => if a == 0x1004 then 1234 else 7) op.address)
          (specMaxLine (fun a => if a == 0x1004 then 1234 else 7) exampleLineInsn)).length ≤ 31 :=
  ⟨by decide, by decide,
   (chipText_fits (fun a => if a == 0x1004 then 1234 else 7) exampleLineInsn
      (by
        intro op hop
        simp only [exampleLineInsn, List.mem_cons, List.mem_singleton, List.not_mem_nil,
          or_false] at hop
        rcases hop with rfl | rfl <;> decide)).1⟩

/-- C29, the failing input: the first instruction is of line 1234, the last of line 7.
The loop leaves `m_maxLine = 2` where the specification has 5, and the text for the
first instruction is 32 bytes for the 30-byte file name `src/server/TracySourceView.cpp`
(ellipsized) and for the 27-byte name `server/TracySourceView2.cpp` (in full), one more
than fits `char buf[32]` with the terminating NUL. -/
theorem chipText_overflows :
    loopMaxLine exampleLines exampleLineInsn 0 = 2 ∧
    specMaxLine exampleLines exampleLineInsn = 5 ∧
    chipText (cstr "src/server/TracySourceView.cpp") (exampleLines 0x1000)
        (loopMaxLine exampleLines exampleLineInsn 0) =
      cstr "...rver/TracySourceView.cpp:1234" ∧
    (chipText (cstr "src/server/TracySourceView.cpp") (exampleLines 0x1000)
      (loopMaxLine exampleLines exampleLineInsn 0)).length = 32 ∧
    chipText (cstr "server/TracySourceView2.cpp") (exampleLines 0x1000)
        (loopMaxLine exampleLines exampleLineInsn 0) =
      cstr "server/TracySourceView2.cpp:1234" ∧
    (chipText (cstr "server/TracySourceView2.cpp") (exampleLines 0x1000)
      (loopMaxLine exampleLines exampleLineInsn 0)).length = 32 := by
  decide

end SourceView
